import Mathlib

/-!
# `examples/classical/traditional_example.c`

A shallow embedding of the one function of the program, `quantum_like_operation`,
and of the call `main` makes to it.

The C function is written once, over an abstract arithmetic (`Arith`): the
operators `+ - * /` on `double`, the numeric literals, and the three `<math.h>`
functions it calls.  Two arithmetics are then plugged in:

* `realArith`: exact arithmetic on the real numbers, the idealisation in which
  the specification's formulas ("for every real ...") are identities;
* `ieee L` (further down): IEEE 754 binary64 with round-to-nearest-even, over a
  math library `L`: the arithmetic the program runs on, where every operation
  rounds and where values can be infinite or NaN.

An identity of the exact reading is carried to binary64 as an error bound
(`qlo_error_scaled`, `qlo_phase_shift`), or refuted there by an exact run.
-/

namespace QuantumLike

/-! ## The program -/

/-- The arithmetic the C source relies on: `double` literals, the four operators
and the three `<math.h>` functions called by `quantum_like_operation`. -/
structure Arith (α : Type) where
  /-- The value denoted by a decimal literal. -/
  lit : ℚ → α
  add : α → α → α
  sub : α → α → α
  mul : α → α → α
  div : α → α → α
  sqrt : α → α
  cos : α → α
  sin : α → α

section Program

variable {α : Type} (A : Arith α)

/-- Line 9 of the source: `(state1 + state2) / sqrt(2.0)`. -/
def h_state1 (state1 state2 : α) : α :=
  A.div (A.add state1 state2) (A.sqrt (A.lit 2.0))

/-- Line 10 of the source: `(state1 - state2) / sqrt(2.0)`. -/
def h_state2 (state1 state2 : α) : α :=
  A.div (A.sub state1 state2) (A.sqrt (A.lit 2.0))

/-- Line 13 of the source: `h_state1 * cos(phase) - h_state2 * sin(phase)`. -/
def rotated (state1 state2 phase : α) : α :=
  A.sub (A.mul (h_state1 A state1 state2) (A.cos phase))
        (A.mul (h_state2 A state1 state2) (A.sin phase))

/-- The function `quantum_like_operation` of the source (lines 5 to 19): the
value returned is `rotated * rotated` (line 16); the `0.0` that line 6 first
stores in `result` is overwritten before any use. -/
def quantum_like_operation (state1 state2 phase : α) : α :=
  let rotated := rotated A state1 state2 phase
  let result := A.mul rotated rotated
  result

/-- The third argument expression written in `main`: `3.14159/4` (the integer
`4` is converted to `double` exactly). -/
def main_phase : α := A.div (A.lit 3.14159) (A.lit 4)

/-- The value `main` stores in `result` and prints:
`quantum_like_operation(1.0, 0.0, 3.14159/4)`. -/
def main_result : α :=
  quantum_like_operation A (A.lit 1.0) (A.lit 0.0) (main_phase A)

end Program

/-! ## Exact real arithmetic -/

/-- Exact arithmetic on the reals. -/
noncomputable def realArith : Arith ℝ where
  lit q := (q : ℝ)
  add x y := x + y
  sub x y := x - y
  mul x y := x * y
  div x y := x / y
  sqrt x := Real.sqrt x
  cos x := Real.cos x
  sin x := Real.sin x

/-! ## IEEE 754 binary64 -/

/-- A binary64 datum: not-a-number, an infinity with its sign, or a finite
number with its value.  The two zeros are identified: no operation of this
program observes the sign of a zero (the only divisor is `sqrt(2.0)`, and the
result is a square). -/
inductive F64 where
  | nan : F64
  | inf (neg : Bool) : F64
  | fin (v : ℚ) : F64
  deriving DecidableEq

section Rounding

variable {K : Type} [LinearOrderedField K] [FloorRing K]

/-- Rounding to the nearest integer, ties to the even one. -/
def roundHalfEven (y : K) : ℤ :=
  if y - ⌊y⌋ < 1 / 2 then ⌊y⌋
  else if 1 / 2 < y - ⌊y⌋ then ⌊y⌋ + 1
  else if ⌊y⌋ % 2 = 0 then ⌊y⌋ else ⌊y⌋ + 1

/-- Exponent of the unit in the last place of binary64 at `x`: 53 significant
bits, the exponent of the leading bit never below `-1022` (subnormals). -/
def ulpExp (x : K) : ℤ := max (Int.log 2 |x|) (-1022) - 52

/-- Round-to-nearest-even into binary64: an exact value of magnitude at least
`2^1024 - 2^970` overflows to the infinity of its sign, any other is rounded to
the nearest multiple of its unit in the last place. -/
def F64.round (x : K) : F64 :=
  if (2 : K) ^ 1024 - 2 ^ 970 ≤ |x| then F64.inf (decide (x < 0))
  else F64.fin (roundHalfEven (x / 2 ^ ulpExp x) * 2 ^ ulpExp x)

/-- What `printf("%f", r)` shows of `r`, as a count of millionths: `r * 10^6`
rounded to the nearest integer (six digits after the decimal point). -/
def fixed6 (r : K) : ℤ := roundHalfEven (r * 10 ^ 6)

end Rounding

namespace F64

/-- Negation. -/
def neg : F64 → F64
  | nan => nan
  | inf s => inf (!s)
  | fin v => fin (-v)

/-- Addition of binary64. -/
def add : F64 → F64 → F64
  | nan, _ => nan
  | _, nan => nan
  | inf s, inf t => if s = t then inf s else nan
  | inf s, fin _ => inf s
  | fin _, inf t => inf t
  | fin v, fin w => F64.round (v + w)

/-- Subtraction of binary64: `x - y` is `x + (-y)`. -/
def sub (x y : F64) : F64 := add x (neg y)

/-- Multiplication of binary64; an infinity times zero is NaN. -/
def mul : F64 → F64 → F64
  | nan, _ => nan
  | _, nan => nan
  | inf s, inf t => inf (xor s t)
  | inf s, fin w => if w = 0 then nan else inf (xor s (decide (w < 0)))
  | fin v, inf t => if v = 0 then nan else inf (xor (decide (v < 0)) t)
  | fin v, fin w => F64.round (v * w)

/-- Division of binary64.  A zero divisor is taken as `+0`. -/
def div : F64 → F64 → F64
  | nan, _ => nan
  | _, nan => nan
  | inf _, inf _ => nan
  | inf s, fin w => inf (xor s (decide (w < 0)))
  | fin _, inf _ => fin 0
  | fin v, fin w =>
      if w = 0 then (if v = 0 then nan else inf (decide (v < 0)))
      else F64.round (v / w)

/-- Square root of binary64, correctly rounded as IEEE 754 requires. -/
noncomputable def sqrt : F64 → F64
  | nan => nan
  | inf s => if s then nan else inf false
  | fin v => if v < 0 then nan else F64.round (Real.sqrt (v : ℝ))

/-- Is the datum a finite number (C's `isfinite`)? -/
def isFinite : F64 → Bool
  | fin _ => true
  | _ => false

/-- Is the datum not-a-number (C's `isnan`)? -/
def isNaN : F64 → Bool
  | nan => true
  | _ => false

/-- Is the datum an infinity (C's `isinf`)? -/
def isInf : F64 → Bool
  | inf _ => true
  | _ => false

/-- The comparison `0 <= x` of C (`x >= 0`): false on NaN. -/
def nonneg : F64 → Bool
  | nan => false
  | inf s => !s
  | fin v => decide (0 ≤ v)

/-- The comparison `x == 0.0` of C. -/
def isZero : F64 → Bool
  | fin v => decide (v = 0)
  | _ => false

/-- The largest finite binary64 number, `DBL_MAX = (2^53 - 1) * 2^971`. -/
def dblMax : F64 := fin ((2 ^ 53 - 1) * 2 ^ 971)

/-- The binary64 number nearest to the square root of two (bit pattern
`0x3FF6A09E667F3BCD`), the value of `sqrt(2.0)`. -/
def sqrtTwo : ℚ := 6369051672525773 / 2 ^ 52

/-- The binary64 number nearest to `π` (the `M_PI` of `<math.h>`, bit pattern
`0x400921FB54442D18`); `mPi / 2` and `mPi / 4` are the binary64 numbers nearest
to `π/2` and `π/4`. -/
def mPi : ℚ := 884279719003555 / 2 ^ 48

end F64

/-- The `<math.h>` functions `cos` and `sin` on `double`, which the source calls
and the repository does not contain. -/
structure Libm where
  cos : F64 → F64
  sin : F64 → F64

/-- What is assumed of a math library: NaN and the infinities give NaN, zero
gives `cos(0) = 1` and `sin(0) = 0`, and a finite argument gives a finite result
of magnitude at most one, within `2^-52` of the exact value. -/
structure Libm.Conforms (L : Libm) : Prop where
  cos_nan : L.cos F64.nan = F64.nan
  sin_nan : L.sin F64.nan = F64.nan
  cos_inf : ∀ s, L.cos (F64.inf s) = F64.nan
  sin_inf : ∀ s, L.sin (F64.inf s) = F64.nan
  cos_zero : L.cos (F64.fin 0) = F64.fin 1
  sin_zero : L.sin (F64.fin 0) = F64.fin 0
  cos_fin : ∀ v : ℚ, ∃ c : ℚ, L.cos (F64.fin v) = F64.fin c ∧ |c| ≤ 1 ∧
    |(c : ℝ) - Real.cos (v : ℝ)| ≤ 1 / 2 ^ 52
  sin_fin : ∀ v : ℚ, ∃ c : ℚ, L.sin (F64.fin v) = F64.fin c ∧ |c| ≤ 1 ∧
    |(c : ℝ) - Real.sin (v : ℝ)| ≤ 1 / 2 ^ 52

/-- A math library whose cosine is exactly even and whose sine is exactly odd,
as libraries that reduce the argument through its absolute value are. -/
structure Libm.Symmetric (L : Libm) : Prop where
  cos_neg : ∀ x, L.cos (F64.neg x) = L.cos x
  sin_neg : ∀ x, L.sin (F64.neg x) = F64.neg (L.sin x)

/-- The correctly rounded math library: the exact value, rounded to nearest. -/
noncomputable def crLibm : Libm where
  cos x := match x with
    | F64.fin v => F64.round (Real.cos (v : ℝ))
    | _ => F64.nan
  sin x := match x with
    | F64.fin v => F64.round (Real.sin (v : ℝ))
    | _ => F64.nan

/-- IEEE 754 binary64 arithmetic over the math library `L`: every operation
rounds its exact result once, to nearest (ties to even); a literal denotes the
binary64 number nearest to it. -/
noncomputable def ieee (L : Libm) : Arith F64 where
  lit q := F64.round q
  add := F64.add
  sub := F64.sub
  mul := F64.mul
  div := F64.div
  sqrt := F64.sqrt
  cos := L.cos
  sin := L.sin

/-! ## Lemmas on the real reading -/

theorem sqrt_lit_two : realArith.sqrt (realArith.lit 2.0) = Real.sqrt 2 := by
  simp [realArith]
  norm_num

theorem h_state1_real (a b : ℝ) : h_state1 realArith a b = (a + b) / Real.sqrt 2 := by
  unfold h_state1
  rw [sqrt_lit_two]
  rfl

theorem h_state2_real (a b : ℝ) : h_state2 realArith a b = (a - b) / Real.sqrt 2 := by
  unfold h_state2
  rw [sqrt_lit_two]
  rfl

theorem rotated_real (a b p : ℝ) :
    rotated realArith a b p =
      (a + b) / Real.sqrt 2 * Real.cos p - (a - b) / Real.sqrt 2 * Real.sin p := by
  unfold rotated
  rw [h_state1_real, h_state2_real]
  rfl

theorem qlo_real (a b p : ℝ) :
    quantum_like_operation realArith a b p =
      ((a + b) / Real.sqrt 2 * Real.cos p - (a - b) / Real.sqrt 2 * Real.sin p) ^ 2 := by
  unfold quantum_like_operation
  simp only [rotated_real]
  show _ * _ = _
  ring

theorem qlo_real_closed (a b p : ℝ) :
    quantum_like_operation realArith a b p =
      ((a + b) * Real.cos p - (a - b) * Real.sin p) ^ 2 / 2 := by
  rw [qlo_real]
  have h2 : Real.sqrt 2 ^ 2 = 2 := Real.sq_sqrt (by norm_num)
  rw [div_mul_eq_mul_div, div_mul_eq_mul_div, ← sub_div, div_pow, h2]

/-- The rotated value is the projection of `(a, b)` on the direction of angle
`π/4 - p`. -/
theorem rotated_real_polar (a b p : ℝ) :
    rotated realArith a b p =
      a * Real.sin (Real.pi / 4 - p) + b * Real.cos (Real.pi / 4 - p) := by
  rw [rotated_real, Real.sin_sub, Real.cos_sub, Real.sin_pi_div_four, Real.cos_pi_div_four]
  have h2 : Real.sqrt 2 * Real.sqrt 2 = 2 := Real.mul_self_sqrt (by norm_num)
  have h0 : Real.sqrt 2 ≠ 0 := by positivity
  field_simp
  linear_combination (-1 * (b * Real.cos p + b * Real.sin p + a * Real.cos p - a * Real.sin p)) * h2

theorem qlo_real_polar (a b p : ℝ) :
    quantum_like_operation realArith a b p =
      (a * Real.sin (Real.pi / 4 - p) + b * Real.cos (Real.pi / 4 - p)) ^ 2 := by
  unfold quantum_like_operation
  simp only [rotated_real_polar]
  show _ * _ = _
  ring

theorem main_phase_real : main_phase realArith = 314159 / 400000 := by
  simp [main_phase, realArith]
  norm_num

/-- In exact arithmetic `main` computes `sin² ((π - 3.14159) / 4)`. -/
theorem main_result_real :
    main_result realArith = Real.sin ((Real.pi - 3.14159) / 4) ^ 2 := by
  unfold main_result
  rw [qlo_real_polar, main_phase_real]
  have h1 : realArith.lit 1.0 = 1 := by simp [realArith]; norm_num
  have h0 : realArith.lit 0.0 = 0 := by simp [realArith]; norm_num
  rw [h1, h0]
  have : Real.pi / 4 - 314159 / 400000 = (Real.pi - 3.14159) / 4 := by ring
  rw [this]
  ring

theorem main_gap_pos : 0 < (Real.pi - 3.14159) / 4 := by
  have := Real.pi_gt_d6
  linarith

theorem main_gap_lt : (Real.pi - 3.14159) / 4 < 0.00000075 := by
  have := Real.pi_lt_d6
  linarith

/-! ## Lemmas on rounding -/

theorem two_zpow_pos {K : Type} [LinearOrderedField K] (e : ℤ) : (0 : K) < 2 ^ e :=
  zpow_pos (by norm_num) e

theorem two_zpow_neg_eq {K : Type} [LinearOrderedField K] (n : ℕ) :
    (2 : K) ^ (-(n : ℤ)) = 1 / 2 ^ n := by
  rw [zpow_neg, zpow_natCast, one_div]

theorem two_zpow_le {K : Type} [LinearOrderedField K] {a b : ℤ} (h : a ≤ b) :
    (2 : K) ^ a ≤ 2 ^ b :=
  zpow_le_zpow_right₀ (by norm_num) h

/-- No overflow below `2^1023`. -/
theorem not_overflow_of_abs_le {K : Type} [LinearOrderedField K] {x : K} {k : ℤ} (hk : k ≤ 1023) (hx : |x| ≤ 2 ^ k) :
    ¬ ((2 : K) ^ 1024 - 2 ^ 970 ≤ |x|) := by
  have h1 : (2 : K) ^ k ≤ 2 ^ (1023 : ℤ) := two_zpow_le hk
  have h2 : (2 : K) ^ (1023 : ℤ) = 2 ^ 1023 := zpow_ofNat 2 1023
  have h3 : (2 : K) ^ 1024 = 2 * 2 ^ 1023 := by ring
  have h4 : (2 : K) ^ 970 < 2 ^ 1023 := pow_lt_pow_right₀ (by norm_num) (by norm_num)
  intro h
  linarith

section RoundingLemmas

variable {K : Type} [LinearOrderedField K] [FloorRing K]

theorem roundHalfEven_cases (y : K) :
    (roundHalfEven y = ⌊y⌋ ∧ y - ⌊y⌋ ≤ 1 / 2) ∨
      (roundHalfEven y = ⌊y⌋ + 1 ∧ 1 / 2 ≤ y - ⌊y⌋) := by
  unfold roundHalfEven
  split_ifs with h1 h2 h3
  · exact Or.inl ⟨rfl, h1.le⟩
  · exact Or.inr ⟨rfl, h2.le⟩
  · exact Or.inl ⟨rfl, not_lt.mp h2⟩
  · exact Or.inr ⟨rfl, not_lt.mp h1⟩

theorem roundHalfEven_sub_le (y : K) : |(roundHalfEven y : K) - y| ≤ 1 / 2 := by
  have h1 := Int.floor_le y
  have h2 := Int.lt_floor_add_one y
  rcases roundHalfEven_cases y with ⟨h, hf⟩ | ⟨h, hf⟩
  · rw [h, abs_le]
    constructor <;> linarith
  · rw [h, abs_le]
    push_cast
    constructor <;> linarith

theorem roundHalfEven_le_of_le {y : K} {n : ℤ} (h : y ≤ n) : roundHalfEven y ≤ n := by
  have h1 := Int.floor_le y
  rcases roundHalfEven_cases y with ⟨hr, hf⟩ | ⟨hr, hf⟩
  · rw [hr]
    have : (⌊y⌋ : K) ≤ n := h1.trans h
    exact_mod_cast this
  · rw [hr]
    have : (⌊y⌋ : K) < n := by linarith
    have : ⌊y⌋ < n := by exact_mod_cast this
    omega

theorem le_roundHalfEven_of_le {y : K} {n : ℤ} (h : (n : K) ≤ y) : n ≤ roundHalfEven y := by
  have : n ≤ ⌊y⌋ := Int.le_floor.mpr h
  rcases roundHalfEven_cases y with ⟨hr, _⟩ | ⟨hr, _⟩ <;> omega

theorem roundHalfEven_intCast (n : ℤ) : roundHalfEven (n : K) = n :=
  le_antisymm (roundHalfEven_le_of_le le_rfl) (le_roundHalfEven_of_le le_rfl)

theorem roundHalfEven_eq_of_near {y : K} {n : ℤ} (h : |y - n| < 1 / 2) :
    roundHalfEven y = n := by
  have h1 := roundHalfEven_sub_le y
  rw [abs_le] at h1
  rw [abs_lt] at h
  have h2 : ((roundHalfEven y : ℤ) : K) < ((n + 1 : ℤ) : K) := by push_cast; linarith
  have h3 : ((n - 1 : ℤ) : K) < ((roundHalfEven y : ℤ) : K) := by push_cast; linarith
  have h4 : roundHalfEven y < n + 1 := by exact_mod_cast h2
  have h5 : n - 1 < roundHalfEven y := by exact_mod_cast h3
  omega

theorem ulpExp_le {x : K} {k : ℤ} (hx0 : x ≠ 0) (hk : -1022 ≤ k) (hx : |x| ≤ 2 ^ k) :
    ulpExp x ≤ k - 52 := by
  have h0 : 0 < |x| := abs_pos.mpr hx0
  have h1 : Int.log 2 |x| ≤ Int.log 2 ((2 : K) ^ k) := Int.log_mono_right h0 hx
  have h2 : Int.log 2 (((2 : ℕ) : K) ^ k) = k := Int.log_zpow (by norm_num) k
  rw [Nat.cast_ofNat] at h2
  rw [h2] at h1
  unfold ulpExp
  have := max_le h1 hk
  omega

theorem round_zero : F64.round (0 : K) = F64.fin 0 := by
  unfold F64.round
  have h : ¬ ((2 : K) ^ 1024 - 2 ^ 970 ≤ |(0 : K)|) :=
    not_overflow_of_abs_le (k := 0) (by norm_num) (by simp)
  rw [if_neg h]
  have : roundHalfEven ((0 : K) / 2 ^ ulpExp (0 : K)) = 0 := by
    rw [zero_div]
    exact_mod_cast roundHalfEven_intCast (K := K) 0
  rw [this]
  simp

/-- The value a non-overflowing rounding returns. -/
theorem round_of_not_overflow {x : K} (h : ¬ ((2 : K) ^ 1024 - 2 ^ 970 ≤ |x|)) :
    F64.round x = F64.fin (roundHalfEven (x / 2 ^ ulpExp x) * 2 ^ ulpExp x) := by
  unfold F64.round
  rw [if_neg h]

/-- Rounding a value of magnitude at most `2^k` (a normal power of two) gives a
finite number of magnitude at most `2^k`, within half a unit in the last place:
at most `2^(k-53)` away. -/
theorem round_of_abs_le {x : K} {k : ℤ} (hk1 : -1022 ≤ k) (hk2 : k ≤ 1023) (hx : |x| ≤ 2 ^ k) :
    ∃ v : ℚ, F64.round x = F64.fin v ∧ |v| ≤ 2 ^ k ∧ |(v : K) - x| ≤ 2 ^ (k - 53) := by
  by_cases hx0 : x = 0
  · subst hx0
    refine ⟨0, round_zero, ?_, ?_⟩
    · simpa using (two_zpow_pos (K := ℚ) k).le
    · simpa using (two_zpow_pos (K := K) (k - 53)).le
  rw [round_of_not_overflow (not_overflow_of_abs_le hk2 hx)]
  refine ⟨_, rfl, ?_, ?_⟩
  · have he := ulpExp_le hx0 hk1 hx
    have hpos : (0 : K) < 2 ^ ulpExp x := two_zpow_pos _
    obtain ⟨n, hn⟩ : ∃ n : ℕ, k - ulpExp x = n := ⟨(k - ulpExp x).toNat, by omega⟩
    have hy : |x / 2 ^ ulpExp x| ≤ ((2 ^ n : ℤ) : K) := by
      rw [abs_div, abs_of_pos hpos, div_le_iff₀ hpos]
      push_cast
      rw [← zpow_natCast, ← hn, ← zpow_add₀ (by norm_num : (2 : K) ≠ 0)]
      simpa using hx
    rw [abs_le] at hy
    have h1 : roundHalfEven (x / 2 ^ ulpExp x) ≤ 2 ^ n := roundHalfEven_le_of_le hy.2
    have h2 : -(2 ^ n) ≤ roundHalfEven (x / 2 ^ ulpExp x) :=
      le_roundHalfEven_of_le (by have hy1 := hy.1; push_cast at hy1 ⊢; exact hy1)
    have h3 : |((roundHalfEven (x / 2 ^ ulpExp x) : ℤ) : ℚ)| ≤ 2 ^ n := by
      rw [abs_le]
      constructor
      · exact_mod_cast h2
      · exact_mod_cast h1
    have hposq : (0 : ℚ) < 2 ^ ulpExp x := two_zpow_pos _
    rw [abs_mul, abs_of_pos hposq]
    have h4 : (2 : ℚ) ^ k = 2 ^ n * 2 ^ ulpExp x := by
      rw [← zpow_natCast, ← hn, ← zpow_add₀ (by norm_num : (2 : ℚ) ≠ 0)]
      simp
    rw [h4]
    exact mul_le_mul_of_nonneg_right h3 hposq.le
  · have he := ulpExp_le hx0 hk1 hx
    have hpos : (0 : K) < 2 ^ ulpExp x := two_zpow_pos _
    have h1 := roundHalfEven_sub_le (x / 2 ^ ulpExp x)
    have h2 : (((roundHalfEven (x / 2 ^ ulpExp x) : ℤ) : ℚ) * (2 : ℚ) ^ ulpExp x : ℚ) - x =
        ((roundHalfEven (x / 2 ^ ulpExp x) : K) - x / 2 ^ ulpExp x) * 2 ^ ulpExp x := by
      push_cast
      field_simp
    rw [h2, abs_mul, abs_of_pos hpos]
    have h3 : (2 : K) ^ ulpExp x ≤ 2 ^ (k - 52) := two_zpow_le he
    have h4 : (2 : K) ^ (k - 52) = 2 * 2 ^ (k - 53) := by
      rw [show k - 52 = 1 + (k - 53) by ring, zpow_add₀ (by norm_num : (2 : K) ≠ 0)]
      simp
    calc |(roundHalfEven (x / 2 ^ ulpExp x) : K) - x / 2 ^ ulpExp x| * 2 ^ ulpExp x
        ≤ 1 / 2 * 2 ^ (k - 52) := mul_le_mul h1 h3 hpos.le (by norm_num)
      _ = 2 ^ (k - 53) := by rw [h4]; ring

theorem round_of_overflow {x : K} (h : (2 : K) ^ 1024 - 2 ^ 970 ≤ |x|) :
    F64.round x = F64.inf (decide (x < 0)) := by
  unfold F64.round
  rw [if_pos h]

/-- Rounding never changes the sign. -/
theorem round_nonneg {x : K} (hx : 0 ≤ x) :
    F64.round x = F64.inf false ∨ ∃ v : ℚ, F64.round x = F64.fin v ∧ 0 ≤ v := by
  by_cases h : (2 : K) ^ 1024 - 2 ^ 970 ≤ |x|
  · left
    rw [round_of_overflow h]
    simp [not_lt.mpr hx]
  · right
    rw [round_of_not_overflow h]
    refine ⟨_, rfl, ?_⟩
    have hpos : (0 : K) < 2 ^ ulpExp x := two_zpow_pos _
    have h1 : (0 : ℤ) ≤ roundHalfEven (x / 2 ^ ulpExp x) :=
      le_roundHalfEven_of_le (by simpa using div_nonneg hx hpos.le)
    have h2 : (0 : ℚ) ≤ (roundHalfEven (x / 2 ^ ulpExp x) : ℤ) := by exact_mod_cast h1
    exact mul_nonneg h2 (two_zpow_pos _).le

/-- Rounding does not cross a power of two from above. -/
theorem round_ge {x : K} {k : ℤ} (hk : -1074 ≤ k) (hx : 2 ^ k ≤ x) :
    F64.round x = F64.inf false ∨ ∃ v : ℚ, F64.round x = F64.fin v ∧ 2 ^ k ≤ v := by
  have hx0 : 0 < x := lt_of_lt_of_le (two_zpow_pos k) hx
  by_cases h : (2 : K) ^ 1024 - 2 ^ 970 ≤ |x|
  · left
    rw [round_of_overflow h]
    simp [not_lt.mpr hx0.le]
  · right
    rw [round_of_not_overflow h]
    refine ⟨_, rfl, ?_⟩
    have habs : |x| = x := abs_of_pos hx0
    have hlog : (2 : K) ^ Int.log 2 |x| ≤ x := by
      have := Int.zpow_log_le_self (b := 2) (r := |x|) (by norm_num) (abs_pos.mpr hx0.ne')
      rw [Nat.cast_ofNat, habs] at this
      rw [habs]
      exact this
    have hkl : k ≤ Int.log 2 |x| := by
      have := (Int.zpow_le_iff_le_log (b := 2) (x := k) (r := |x|) (by norm_num)
        (abs_pos.mpr hx0.ne')).mp
      apply this
      rw [Nat.cast_ofNat, habs]
      exact hx
    -- a power of two `2^t` between `2^k` and `x`, not below the unit in the last place
    obtain ⟨t, hkt, hte, htx⟩ : ∃ t : ℤ, k ≤ t ∧ ulpExp x ≤ t ∧ (2 : K) ^ t ≤ x := by
      by_cases hL : -1022 ≤ Int.log 2 |x|
      · refine ⟨Int.log 2 |x|, hkl, ?_, hlog⟩
        unfold ulpExp
        rw [max_eq_left hL]
        omega
      · refine ⟨k, le_rfl, ?_, hx⟩
        unfold ulpExp
        rw [max_eq_right (by omega)]
        omega
    have hpos : (0 : K) < 2 ^ ulpExp x := two_zpow_pos _
    obtain ⟨n, hn⟩ : ∃ n : ℕ, t - ulpExp x = n := ⟨(t - ulpExp x).toNat, by omega⟩
    have hy : ((2 ^ n : ℤ) : K) ≤ x / 2 ^ ulpExp x := by
      rw [le_div_iff₀ hpos]
      push_cast
      rw [← zpow_natCast, ← hn, ← zpow_add₀ (by norm_num : (2 : K) ≠ 0)]
      simpa using htx
    have h1 : 2 ^ n ≤ roundHalfEven (x / 2 ^ ulpExp x) := le_roundHalfEven_of_le hy
    have h2 : (2 : ℚ) ^ n ≤ ((roundHalfEven (x / 2 ^ ulpExp x) : ℤ) : ℚ) := by exact_mod_cast h1
    have hposq : (0 : ℚ) < 2 ^ ulpExp x := two_zpow_pos _
    have h4 : (2 : ℚ) ^ t = 2 ^ n * 2 ^ ulpExp x := by
      rw [← zpow_natCast, ← hn, ← zpow_add₀ (by norm_num : (2 : ℚ) ≠ 0)]
      simp
    calc (2 : ℚ) ^ k ≤ 2 ^ t := two_zpow_le hkt
      _ = 2 ^ n * 2 ^ ulpExp x := h4
      _ ≤ _ := mul_le_mul_of_nonneg_right h2 hposq.le

/-- Rounding does not cross the opposite of a power of two from below. -/
theorem round_le_neg {x : K} {k : ℤ} (hk : -1074 ≤ k) (hx : x ≤ -2 ^ k) :
    F64.round x = F64.inf true ∨ ∃ v : ℚ, F64.round x = F64.fin v ∧ v ≤ -2 ^ k := by
  have hx0 : x < 0 := lt_of_le_of_lt hx (neg_neg_of_pos (two_zpow_pos k))
  by_cases h : (2 : K) ^ 1024 - 2 ^ 970 ≤ |x|
  · left
    rw [round_of_overflow h]
    simp [hx0]
  · right
    rw [round_of_not_overflow h]
    refine ⟨_, rfl, ?_⟩
    have habs : |x| = -x := abs_of_neg hx0
    have hapos : 0 < |x| := abs_pos.mpr hx0.ne
    have hlog : (2 : K) ^ Int.log 2 |x| ≤ -x := by
      have := Int.zpow_log_le_self (b := 2) (r := |x|) (by norm_num) hapos
      rw [Nat.cast_ofNat] at this
      rw [← habs]
      exact this
    have hkl : k ≤ Int.log 2 |x| := by
      apply (Int.zpow_le_iff_le_log (b := 2) (x := k) (r := |x|) (by norm_num) hapos).mp
      rw [Nat.cast_ofNat, habs]
      linarith
    obtain ⟨t, hkt, hte, htx⟩ : ∃ t : ℤ, k ≤ t ∧ ulpExp x ≤ t ∧ (2 : K) ^ t ≤ -x := by
      by_cases hL : -1022 ≤ Int.log 2 |x|
      · refine ⟨Int.log 2 |x|, hkl, ?_, hlog⟩
        unfold ulpExp
        rw [max_eq_left hL]
        omega
      · refine ⟨k, le_rfl, ?_, by linarith⟩
        unfold ulpExp
        rw [max_eq_right (by omega)]
        omega
    have hpos : (0 : K) < 2 ^ ulpExp x := two_zpow_pos _
    obtain ⟨n, hn⟩ : ∃ n : ℕ, t - ulpExp x = n := ⟨(t - ulpExp x).toNat, by omega⟩
    have hy : x / 2 ^ ulpExp x ≤ ((-(2 ^ n) : ℤ) : K) := by
      rw [div_le_iff₀ hpos]
      push_cast
      rw [neg_mul, ← zpow_natCast, ← hn, ← zpow_add₀ (by norm_num : (2 : K) ≠ 0)]
      have : (2 : K) ^ (t - ulpExp x + ulpExp x) = 2 ^ t := by simp
      rw [this]
      linarith
    have h1 : roundHalfEven (x / 2 ^ ulpExp x) ≤ -(2 ^ n) := roundHalfEven_le_of_le hy
    have h2 : ((roundHalfEven (x / 2 ^ ulpExp x) : ℤ) : ℚ) ≤ -(2 : ℚ) ^ n := by
      exact_mod_cast h1
    have hposq : (0 : ℚ) < 2 ^ ulpExp x := two_zpow_pos _
    have h4 : (2 : ℚ) ^ t = 2 ^ n * 2 ^ ulpExp x := by
      rw [← zpow_natCast, ← hn, ← zpow_add₀ (by norm_num : (2 : ℚ) ≠ 0)]
      simp
    have h5 : (2 : ℚ) ^ k ≤ 2 ^ t := two_zpow_le hkt
    calc ((roundHalfEven (x / 2 ^ ulpExp x) : ℤ) : ℚ) * 2 ^ ulpExp x
        ≤ -(2 : ℚ) ^ n * 2 ^ ulpExp x := mul_le_mul_of_nonneg_right h2 hposq.le
      _ = -(2 : ℚ) ^ t := by rw [h4]; ring
      _ ≤ -2 ^ k := by linarith

/-- The rounding of a value in the binade `[2^j, 2^(j+1))` whose quotient by the
unit in the last place is within less than `1/2` of the integer `n`. -/
theorem round_eq_of_near {x : K} {j n : ℤ} (hj1 : -1022 ≤ j) (hj2 : j ≤ 1022)
    (hlo : 2 ^ j ≤ |x|) (hhi : |x| < 2 ^ (j + 1)) (hn : |x / 2 ^ (j - 52) - n| < 1 / 2) :
    F64.round x = F64.fin (n * 2 ^ (j - 52)) := by
  have hx0 : 0 < |x| := lt_of_lt_of_le (two_zpow_pos j) hlo
  have hov := not_overflow_of_abs_le (k := j + 1) (by omega) hhi.le
  have hlog : Int.log 2 |x| = j := by
    have h1 : j ≤ Int.log 2 |x| := by
      apply (Int.zpow_le_iff_le_log (b := 2) (x := j) (r := |x|) (by norm_num) hx0).mp
      rw [Nat.cast_ofNat]
      exact hlo
    have h2 : Int.log 2 |x| < j + 1 := by
      apply (Int.lt_zpow_iff_log_lt (b := 2) (x := j + 1) (r := |x|) (by norm_num) hx0).mp
      rw [Nat.cast_ofNat]
      exact hhi
    omega
  have he : ulpExp x = j - 52 := by
    unfold ulpExp
    rw [hlog, max_eq_left hj1]
  rw [round_of_not_overflow hov, he, roundHalfEven_eq_of_near hn]

/-- A normal power of two is a binary64 number. -/
theorem round_two_zpow {k : ℤ} (hk1 : -1022 ≤ k) (hk2 : k ≤ 1022) :
    F64.round ((2 : K) ^ k) = F64.fin (2 ^ k) := by
  have hpos : (0 : K) < 2 ^ k := two_zpow_pos k
  have h := round_eq_of_near (x := (2 : K) ^ k) (j := k) (n := 2 ^ 52) hk1 hk2
    (by rw [abs_of_pos hpos])
    (by rw [abs_of_pos hpos]; exact zpow_lt_zpow_right₀ (by norm_num) (by omega))
    (by
      have : (2 : K) ^ k / 2 ^ (k - 52) = ((2 ^ 52 : ℤ) : K) := by
        rw [← zpow_sub₀ (by norm_num : (2 : K) ≠ 0)]
        have : k - (k - 52) = (52 : ℕ) := by push_cast; ring
        rw [this, zpow_natCast]
        norm_num
      rw [this]
      simp)
  rw [h]
  congr 1
  have h2 : (2 : ℚ) ^ k = 2 ^ (52 : ℤ) * 2 ^ (k - 52) := by
    rw [← zpow_add₀ (by norm_num : (2 : ℚ) ≠ 0)]
    congr 1
    ring
  rw [h2]
  norm_num

end RoundingLemmas

/-! ## Lemmas on the binary64 reading -/

theorem sqrtTwo_pos : 0 < F64.sqrtTwo := by
  unfold F64.sqrtTwo
  positivity

theorem one_le_sqrtTwo : 1 ≤ F64.sqrtTwo := by
  unfold F64.sqrtTwo
  norm_num

/-- The value of `sqrt(2.0)`: the correctly rounded square root of two. -/
theorem sqrt_two : F64.sqrt (F64.fin 2) = F64.fin F64.sqrtTwo := by
  have h2 : ((2 : ℚ) : ℝ) = 2 := by norm_num
  have hpos : 0 < Real.sqrt 2 := by positivity
  have hlo : (6369051672525773 - 1 / 2) / 2 ^ 52 < Real.sqrt 2 := by
    apply Real.lt_sqrt_of_sq_lt
    norm_num
  have hhi : Real.sqrt 2 < (6369051672525773 + 1 / 2) / 2 ^ 52 := by
    rw [Real.sqrt_lt' (by norm_num)]
    norm_num
  have h := round_eq_of_near (x := Real.sqrt 2) (j := 0) (n := 6369051672525773)
    (by norm_num) (by norm_num)
    (by
      rw [abs_of_pos hpos, zpow_zero]
      have : (1 : ℝ) < (6369051672525773 - 1 / 2) / 2 ^ 52 := by norm_num
      linarith)
    (by
      rw [abs_of_pos hpos]
      have : (6369051672525773 + 1 / 2) / 2 ^ 52 < (2 : ℝ) := by norm_num
      rw [zero_add, zpow_one]
      linarith)
    (by
      have e : (2 : ℝ) ^ ((0 : ℤ) - 52) = 1 / 2 ^ 52 := by
        rw [zero_sub, zpow_neg, one_div]
        norm_cast
      rw [e, abs_lt]
      have h52 : (0 : ℝ) < 2 ^ 52 := by positivity
      rw [lt_div_iff₀ h52] at hhi
      rw [div_lt_iff₀ h52] at hlo
      constructor
      · rw [div_div_eq_mul_div, div_one]
        push_cast
        linarith
      · rw [div_div_eq_mul_div, div_one]
        push_cast
        linarith)
  show (if (2 : ℚ) < 0 then F64.nan else F64.round (Real.sqrt ((2 : ℚ) : ℝ))) = _
  rw [if_neg (by norm_num), h2, h]
  congr 1
  unfold F64.sqrtTwo
  rw [zero_sub, zpow_neg]
  norm_num

section Literals

variable (L : Libm)

theorem lit_zero : (ieee L).lit 0.0 = F64.fin 0 := by
  show F64.round (0.0 : ℚ) = _
  rw [show (0.0 : ℚ) = 0 by norm_num]
  exact round_zero

theorem lit_one : (ieee L).lit 1.0 = F64.fin 1 := by
  show F64.round (1.0 : ℚ) = _
  have h := round_two_zpow (K := ℚ) (k := 0) (by norm_num) (by norm_num)
  rw [show (1.0 : ℚ) = 2 ^ (0 : ℤ) by norm_num, h, zpow_zero]

theorem lit_two : (ieee L).lit 2.0 = F64.fin 2 := by
  show F64.round (2.0 : ℚ) = _
  have h := round_two_zpow (K := ℚ) (k := 1) (by norm_num) (by norm_num)
  rw [show (2.0 : ℚ) = 2 ^ (1 : ℤ) by norm_num, h, zpow_one]

theorem lit_four : (ieee L).lit 4 = F64.fin 4 := by
  show F64.round (4 : ℚ) = _
  have h := round_two_zpow (K := ℚ) (k := 2) (by norm_num) (by norm_num)
  rw [show (4 : ℚ) = 2 ^ (2 : ℤ) by norm_num, h]

theorem sqrt_lit_two_ieee : (ieee L).sqrt ((ieee L).lit 2.0) = F64.fin F64.sqrtTwo := by
  rw [lit_two]
  exact sqrt_two

theorem h_state1_ieee (x y : F64) :
    h_state1 (ieee L) x y = F64.div (F64.add x y) (F64.fin F64.sqrtTwo) := by
  unfold h_state1
  rw [sqrt_lit_two_ieee]
  rfl

theorem h_state2_ieee (x y : F64) :
    h_state2 (ieee L) x y = F64.div (F64.sub x y) (F64.fin F64.sqrtTwo) := by
  unfold h_state2
  rw [sqrt_lit_two_ieee]
  rfl

theorem qlo_ieee (x y p : F64) :
    quantum_like_operation (ieee L) x y p =
      F64.mul
        (F64.sub (F64.mul (F64.div (F64.add x y) (F64.fin F64.sqrtTwo)) (L.cos p))
          (F64.mul (F64.div (F64.sub x y) (F64.fin F64.sqrtTwo)) (L.sin p)))
        (F64.sub (F64.mul (F64.div (F64.add x y) (F64.fin F64.sqrtTwo)) (L.cos p))
          (F64.mul (F64.div (F64.sub x y) (F64.fin F64.sqrtTwo)) (L.sin p))) := by
  unfold quantum_like_operation rotated
  rw [h_state1_ieee, h_state2_ieee]
  rfl

end Literals

theorem div_fin_fin (v : ℚ) {w : ℚ} (hw : w ≠ 0) :
    F64.div (F64.fin v) (F64.fin w) = F64.round (v / w) := by
  show (if w = 0 then (if v = 0 then F64.nan else F64.inf (decide (v < 0)))
    else F64.round (v / w)) = _
  rw [if_neg hw]

theorem div_fin_sqrtTwo (v : ℚ) :
    F64.div (F64.fin v) (F64.fin F64.sqrtTwo) = F64.round (v / F64.sqrtTwo) :=
  div_fin_fin v sqrtTwo_pos.ne'

theorem div_inf_sqrtTwo (s : Bool) :
    F64.div (F64.inf s) (F64.fin F64.sqrtTwo) = F64.inf s := by
  unfold F64.div
  simp [not_lt.mpr sqrtTwo_pos.le]

/-- The correctly rounded math library conforms. -/
theorem crLibm_conforms : crLibm.Conforms where
  cos_nan := rfl
  sin_nan := rfl
  cos_inf _ := rfl
  sin_inf _ := rfl
  cos_zero := by
    show F64.round (Real.cos ((0 : ℚ) : ℝ)) = _
    have h := round_two_zpow (K := ℝ) (k := 0) (by norm_num) (by norm_num)
    rw [Rat.cast_zero, Real.cos_zero, show (1 : ℝ) = 2 ^ (0 : ℤ) by norm_num, h]
    norm_num
  sin_zero := by
    show F64.round (Real.sin ((0 : ℚ) : ℝ)) = _
    rw [Rat.cast_zero, Real.sin_zero]
    exact round_zero
  cos_fin v := by
    obtain ⟨c, h1, h2, h3⟩ := round_of_abs_le (x := Real.cos (v : ℝ)) (k := 0)
      (by norm_num) (by norm_num) (by simpa using Real.abs_cos_le_one _)
    refine ⟨c, h1, by simpa using h2, h3.trans ?_⟩
    rw [zero_sub, zpow_neg]
    norm_num
  sin_fin v := by
    obtain ⟨c, h1, h2, h3⟩ := round_of_abs_le (x := Real.sin (v : ℝ)) (k := 0)
      (by norm_num) (by norm_num) (by simpa using Real.abs_sin_le_one _)
    refine ⟨c, h1, by simpa using h2, h3.trans ?_⟩
    rw [zero_sub, zpow_neg]
    norm_num

section FiniteOps

theorem add_fin (v w : ℚ) : F64.add (F64.fin v) (F64.fin w) = F64.round (v + w) := rfl

theorem sub_fin (v w : ℚ) : F64.sub (F64.fin v) (F64.fin w) = F64.round (v - w) := by
  show F64.round (v + -w) = _
  rw [sub_eq_add_neg]

theorem mul_fin (v w : ℚ) : F64.mul (F64.fin v) (F64.fin w) = F64.round (v * w) := rfl

/-- A rounding is never NaN. -/
theorem round_ne_nan {K : Type} [LinearOrderedField K] [FloorRing K] (x : K) :
    F64.round x ≠ F64.nan := by
  unfold F64.round
  split_ifs <;> simp

/-- A product of a datum with itself is NaN or compares `>= 0`. -/
theorem mul_self_nan_or_nonneg (r : F64) :
    (F64.mul r r).isNaN = true ∨ (F64.mul r r).nonneg = true := by
  cases r with
  | nan => exact Or.inl rfl
  | inf s => right; cases s <;> rfl
  | fin v =>
    right
    rw [mul_fin]
    rcases round_nonneg (mul_self_nonneg v) with h | ⟨u, h, hu⟩
    · rw [h]; rfl
    · rw [h]; simpa [F64.nonneg] using hu

/-- The square of a datum that is not NaN compares `>= 0`. -/
theorem mul_self_nonneg_of_ne_nan {r : F64} (h : r ≠ F64.nan) :
    (F64.mul r r).nonneg = true := by
  cases r with
  | nan => exact absurd rfl h
  | inf s => cases s <;> rfl
  | fin v =>
    rcases mul_self_nan_or_nonneg (F64.fin v) with h1 | h1
    · rw [mul_fin] at h1
      have := round_ne_nan (v * v)
      cases hr : F64.round (v * v) with
      | nan => exact absurd hr this
      | inf s => rw [hr] at h1; simp [F64.isNaN] at h1
      | fin u => rw [hr] at h1; simp [F64.isNaN] at h1
    · exact h1

end FiniteOps

section FiniteRuns

/-- Rounding keeps a value between two normal powers of two. -/
theorem round_between {K : Type} [LinearOrderedField K] [FloorRing K] {x : K} {k j : ℤ}
    (hk : -1022 ≤ k) (hj : j ≤ 1023) (hlo : 2 ^ k ≤ x) (hhi : x ≤ 2 ^ j) :
    ∃ v : ℚ, F64.round x = F64.fin v ∧ 2 ^ k ≤ v ∧ v ≤ 2 ^ j := by
  have hx0 : 0 < x := lt_of_lt_of_le (two_zpow_pos k) hlo
  have hkj : k ≤ j := by
    by_contra hc
    have : (2 : K) ^ j < 2 ^ k := zpow_lt_zpow_right₀ (by norm_num) (by omega)
    linarith
  obtain ⟨v, hv, hvj, _⟩ := round_of_abs_le (x := x) (k := j) (by omega) hj
    (by rw [abs_of_pos hx0]; exact hhi)
  refine ⟨v, hv, ?_, (le_abs_self v).trans hvj⟩
  rcases round_ge (x := x) (k := k) (by omega) hlo with h | ⟨u, hu, hku⟩
  · rw [hv] at h; cases h
  · rw [hv] at hu
    cases hu
    exact hku

/-- Line 9 or 10 on a finite sum (or difference) of magnitude at most `2^j`:
the quotient by `sqrt(2.0)` is finite, of magnitude at most `2^j`. -/
theorem div_round_sqrtTwo {x : ℚ} {j : ℤ} (hj1 : -1022 ≤ j) (hj2 : j ≤ 1023)
    (hx : |x| ≤ 2 ^ j) :
    ∃ h : ℚ, F64.div (F64.round x) (F64.fin F64.sqrtTwo) = F64.fin h ∧ |h| ≤ 2 ^ j := by
  obtain ⟨a, ha, haj, _⟩ := round_of_abs_le hj1 hj2 hx
  rw [ha, div_fin_sqrtTwo]
  have h1 : |a / F64.sqrtTwo| ≤ 2 ^ j := by
    rw [abs_div, abs_of_pos sqrtTwo_pos]
    exact (div_le_self (abs_nonneg a) one_le_sqrtTwo).trans haj
  obtain ⟨h, hh, hhj, _⟩ := round_of_abs_le hj1 hj2 h1
  exact ⟨h, hh, hhj⟩

/-- A finite number of magnitude at most `2^j` times one of magnitude at most
one is finite, of magnitude at most `2^j`. -/
theorem mul_fin_unit {h c : ℚ} {j : ℤ} (hj1 : -1022 ≤ j) (hj2 : j ≤ 1023)
    (hh : |h| ≤ 2 ^ j) (hc : |c| ≤ 1) :
    ∃ m : ℚ, F64.mul (F64.fin h) (F64.fin c) = F64.fin m ∧ |m| ≤ 2 ^ j := by
  rw [mul_fin]
  have h1 : |h * c| ≤ 2 ^ j := by
    rw [abs_mul]
    calc |h| * |c| ≤ |h| * 1 := mul_le_mul_of_nonneg_left hc (abs_nonneg h)
      _ = |h| := mul_one _
      _ ≤ 2 ^ j := hh
  obtain ⟨m, hm, hmj, _⟩ := round_of_abs_le hj1 hj2 h1
  exact ⟨m, hm, hmj⟩

/-- The two products of line 13, for finite states of magnitude at most `2^k`
and a finite phase: both are finite, of magnitude at most `2^(k+1)`. -/
theorem products_finite (L : Libm) (hL : L.Conforms) {k : ℤ} (hk1 : -1023 ≤ k)
    (hk2 : k ≤ 1022) (v w p : ℚ) (hv : |v| ≤ 2 ^ k) (hw : |w| ≤ 2 ^ k) :
    ∃ m1 m2 : ℚ,
      F64.mul (F64.div (F64.add (F64.fin v) (F64.fin w)) (F64.fin F64.sqrtTwo))
        (L.cos (F64.fin p)) = F64.fin m1 ∧
      F64.mul (F64.div (F64.sub (F64.fin v) (F64.fin w)) (F64.fin F64.sqrtTwo))
        (L.sin (F64.fin p)) = F64.fin m2 ∧
      |m1| ≤ 2 ^ (k + 1) ∧ |m2| ≤ 2 ^ (k + 1) := by
  have h2 : (2 : ℚ) ^ (k + 1) = 2 ^ k + 2 ^ k := by
    rw [zpow_add₀ (by norm_num : (2 : ℚ) ≠ 0), zpow_one]
    ring
  have hadd : |v + w| ≤ 2 ^ (k + 1) := by
    rw [h2]
    exact (abs_add v w).trans (add_le_add hv hw)
  have hsub : |v - w| ≤ 2 ^ (k + 1) := by
    rw [h2]
    exact (abs_sub v w).trans (add_le_add hv hw)
  obtain ⟨c, hc, hc1, _⟩ := hL.cos_fin p
  obtain ⟨s, hs, hs1, _⟩ := hL.sin_fin p
  obtain ⟨a, ha, haj⟩ := div_round_sqrtTwo (j := k + 1) (by omega) (by omega) hadd
  obtain ⟨b, hb, hbj⟩ := div_round_sqrtTwo (j := k + 1) (by omega) (by omega) hsub
  obtain ⟨m1, hm1, hm1j⟩ := mul_fin_unit (j := k + 1) (by omega) (by omega) haj hc1
  obtain ⟨m2, hm2, hm2j⟩ := mul_fin_unit (j := k + 1) (by omega) (by omega) hbj hs1
  refine ⟨m1, m2, ?_, ?_, hm1j, hm2j⟩
  · rw [add_fin, ha, hc, hm1]
  · rw [sub_fin, hb, hs, hm2]

/-- With both states zero and a finite phase, every step computes zero. -/
theorem qlo_zero_zero (L : Libm) (hL : L.Conforms) (p : ℚ) :
    quantum_like_operation (ieee L) (F64.fin 0) (F64.fin 0) (F64.fin p) = F64.fin 0 := by
  obtain ⟨c, hc, _, _⟩ := hL.cos_fin p
  obtain ⟨s, hs, _, _⟩ := hL.sin_fin p
  have r0 : F64.round (0 : ℚ) = F64.fin 0 := round_zero
  rw [qlo_ieee, add_fin, sub_fin, hc, hs]
  simp only [add_zero, sub_zero, r0, div_fin_sqrtTwo, zero_div, mul_fin, zero_mul, sub_fin,
    mul_zero]

end FiniteRuns

section Overflow

/-- Twice `DBL_MAX` overflows. -/
theorem two_dblMax_overflow :
    (2 : ℚ) ^ 1024 - 2 ^ 970 ≤ |(2 ^ 53 - 1) * 2 ^ 971 - -((2 ^ 53 - 1) * 2 ^ 971)| := by
  have e1 : (2 : ℚ) ^ 971 = 2 * 2 ^ 970 := by rw [show 971 = 970 + 1 from rfl, pow_succ]; ring
  have e2 : (2 : ℚ) ^ 1024 = 2 ^ 54 * 2 ^ 970 := by rw [← pow_add]
  have ht : (0 : ℚ) < 2 ^ 970 := pow_pos (by norm_num) 970
  rw [e1, e2]
  generalize (2 : ℚ) ^ 970 = t at ht
  have h53 : (2 : ℚ) ^ 53 = 9007199254740992 := by norm_num
  have h54 : (2 : ℚ) ^ 54 = 18014398509481984 := by norm_num
  rw [h53, h54]
  rw [abs_of_nonneg (by linarith)]
  linarith

/-- At `(DBL_MAX, -DBL_MAX, 0.0)` the difference of the states overflows to
`+inf`, `sin(0.0)` is `0`, and `inf * 0` is NaN. -/
theorem qlo_dblMax_nan (L : Libm) (hL : L.Conforms) :
    quantum_like_operation (ieee L) F64.dblMax (F64.neg F64.dblMax) (F64.fin 0) = F64.nan := by
  have r0 : F64.round (0 : ℚ) = F64.fin 0 := round_zero
  have hsum : F64.add F64.dblMax (F64.neg F64.dblMax) = F64.fin 0 := by
    show F64.round ((2 ^ 53 - 1) * 2 ^ 971 + -((2 ^ 53 - 1) * 2 ^ 971) : ℚ) = _
    rw [add_neg_cancel, r0]
  have hdiff : F64.sub F64.dblMax (F64.neg F64.dblMax) = F64.inf false := by
    show F64.sub (F64.fin _) (F64.fin _) = _
    have hpos : (0 : ℚ) ≤ (2 ^ 53 - 1) * 2 ^ 971 :=
      mul_nonneg (by norm_num) (pow_pos (by norm_num) 971).le
    have hd : decide ((2 ^ 53 - 1) * 2 ^ 971 - -((2 ^ 53 - 1) * 2 ^ 971) < (0 : ℚ)) = false :=
      decide_eq_false (not_lt.mpr (by linarith))
    rw [sub_fin, round_of_overflow two_dblMax_overflow, hd]
  rw [qlo_ieee, hsum, hdiff, hL.cos_zero, hL.sin_zero, div_fin_sqrtTwo, div_inf_sqrtTwo,
    zero_div, r0, mul_fin, zero_mul, r0]
  rfl

/-- At `(2^600, 0.0, 0.0)` every intermediate value is finite, the rotated value
is at least `2^599`, and its square overflows to `+inf`. -/
theorem qlo_two_pow_600 (L : Libm) (hL : L.Conforms) :
    quantum_like_operation (ieee L) (F64.fin (2 ^ 600)) (F64.fin 0) (F64.fin 0) =
      F64.inf false := by
  have r0 : F64.round (0 : ℚ) = F64.fin 0 := round_zero
  have e600 : (2 : ℚ) ^ 600 = 2 ^ (600 : ℤ) := (zpow_ofNat 2 600).symm
  have hin : F64.round ((2 : ℚ) ^ 600) = F64.fin (2 ^ 600) := by
    rw [e600]
    exact round_two_zpow (by norm_num) (by norm_num)
  -- the quotient by `sqrt(2.0)`
  have hq1 : (2 : ℚ) ^ (599 : ℤ) ≤ 2 ^ 600 / F64.sqrtTwo := by
    rw [le_div_iff₀ sqrtTwo_pos, e600, show (600 : ℤ) = 599 + 1 from rfl,
      zpow_add₀ (by norm_num : (2 : ℚ) ≠ 0), zpow_one]
    have : F64.sqrtTwo ≤ 2 := by unfold F64.sqrtTwo; norm_num
    exact mul_le_mul_of_nonneg_left this (two_zpow_pos _).le
  have hq2 : (2 : ℚ) ^ 600 / F64.sqrtTwo ≤ 2 ^ (600 : ℤ) := by
    rw [← e600]
    exact div_le_self (pow_pos (by norm_num) 600).le one_le_sqrtTwo
  obtain ⟨h, hh, hh1, hh2⟩ := round_between (by norm_num) (by norm_num) hq1 hq2
  -- the product with `cos(0.0) = 1`, and the difference
  obtain ⟨m, hm, hm1, hm2⟩ := round_between (x := h) (by norm_num) (by norm_num) hh1 hh2
  obtain ⟨r, hr, hr1, hr2⟩ := round_between (x := m) (by norm_num) (by norm_num) hm1 hm2
  have hr0 : 0 < r := lt_of_lt_of_le (two_zpow_pos _) hr1
  -- the square
  have hsq : (2 : ℚ) ^ 1024 - 2 ^ 970 ≤ |r * r| := by
    rw [abs_of_pos (mul_pos hr0 hr0)]
    have h1 : (2 : ℚ) ^ (599 : ℤ) * 2 ^ (599 : ℤ) ≤ r * r :=
      mul_le_mul hr1 hr1 (two_zpow_pos _).le hr0.le
    have h2 : (2 : ℚ) ^ (599 : ℤ) * 2 ^ (599 : ℤ) = 2 ^ (1198 : ℤ) := by
      rw [← zpow_add₀ (by norm_num : (2 : ℚ) ≠ 0)]
      rfl
    have h3 : (2 : ℚ) ^ (1024 : ℤ) ≤ 2 ^ (1198 : ℤ) := two_zpow_le (by norm_num)
    have h4 : (2 : ℚ) ^ (1024 : ℤ) = 2 ^ 1024 := zpow_ofNat 2 1024
    have h5 : (0 : ℚ) < 2 ^ 970 := pow_pos (by norm_num) 970
    linarith
  have hd : decide (r * r < 0) = false := decide_eq_false (not_lt.mpr (mul_pos hr0 hr0).le)
  rw [qlo_ieee, add_fin, sub_fin, add_zero, sub_zero, hin, div_fin_sqrtTwo, hh, hL.cos_zero,
    hL.sin_zero, mul_fin, mul_fin, mul_one, mul_zero, hm, r0, sub_fin, sub_zero, hr, mul_fin,
    round_of_overflow hsq, hd]

end Overflow

section InfiniteState

theorem mul_inf_fin (s : Bool) (c : ℚ) :
    F64.mul (F64.inf s) (F64.fin c) =
      if c = 0 then F64.nan else F64.inf (xor s (decide (c < 0))) := rfl

/-- An infinite `state1` with a finite `state2` and a finite phase: both mixed
values are that infinity, and the result is decided by the signs of the cosine
and sine the library returns: `+inf` when they are opposite, NaN otherwise
(`inf - inf`, or `inf * 0`). -/
theorem qlo_inf_state1 (L : Libm) (hL : L.Conforms) (sgn : Bool) (w p : ℚ) :
    ∃ c s : ℚ, L.cos (F64.fin p) = F64.fin c ∧ L.sin (F64.fin p) = F64.fin s ∧
      quantum_like_operation (ieee L) (F64.inf sgn) (F64.fin w) (F64.fin p) =
        if c * s < 0 then F64.inf false else F64.nan := by
  obtain ⟨c, hc, _, _⟩ := hL.cos_fin p
  obtain ⟨s, hs, _, _⟩ := hL.sin_fin p
  refine ⟨c, s, hc, hs, ?_⟩
  have hadd : F64.add (F64.inf sgn) (F64.fin w) = F64.inf sgn := rfl
  have hsub : F64.sub (F64.inf sgn) (F64.fin w) = F64.inf sgn := rfl
  rw [qlo_ieee, hadd, hsub, hc, hs, div_inf_sqrtTwo, mul_inf_fin, mul_inf_fin]
  rcases lt_trichotomy c 0 with hc0 | hc0 | hc0 <;>
    rcases lt_trichotomy s 0 with hs0 | hs0 | hs0
  · have : ¬ (c * s < 0) := not_lt.mpr (mul_nonneg_of_nonpos_of_nonpos hc0.le hs0.le)
    cases sgn <;> simp [hc0, hs0, hc0.ne, hs0.ne, this, F64.sub, F64.add, F64.neg, F64.mul]
  · subst hs0
    cases sgn <;> simp [hc0, hc0.ne, F64.sub, F64.add, F64.neg, F64.mul]
  · have : c * s < 0 := mul_neg_of_neg_of_pos hc0 hs0
    cases sgn <;>
      simp [hc0, hs0, hc0.ne, hs0.ne', not_lt.mpr hs0.le, this, F64.sub, F64.add, F64.neg,
        F64.mul]
  · subst hc0
    cases sgn <;> simp [F64.sub, F64.add, F64.neg, F64.mul]
  · subst hc0
    cases sgn <;> simp [F64.sub, F64.add, F64.neg, F64.mul]
  · subst hc0
    cases sgn <;> simp [F64.sub, F64.add, F64.neg, F64.mul]
  · have : c * s < 0 := mul_neg_of_pos_of_neg hc0 hs0
    cases sgn <;>
      simp [hc0, hs0, hc0.ne', hs0.ne, not_lt.mpr hc0.le, this, F64.sub, F64.add, F64.neg,
        F64.mul]
  · subst hs0
    cases sgn <;> simp [hc0, hc0.ne', not_lt.mpr hc0.le, F64.sub, F64.add, F64.neg, F64.mul]
  · have : ¬ (c * s < 0) := not_lt.mpr (mul_pos hc0 hs0).le
    cases sgn <;>
      simp [hc0, hs0, hc0.ne', hs0.ne', not_lt.mpr hc0.le, not_lt.mpr hs0.le, this, F64.sub,
        F64.add, F64.neg, F64.mul]

/-- At the phase `-0.5` the correctly rounded cosine is positive and the
correctly rounded sine negative. -/
theorem crLibm_signs_neg_half :
    ∃ c s : ℚ, crLibm.cos (F64.fin (-1 / 2)) = F64.fin c ∧
      crLibm.sin (F64.fin (-1 / 2)) = F64.fin s ∧ 0 < c ∧ s < 0 := by
  have hv : ((-1 / 2 : ℚ) : ℝ) = -(1 / 2) := by
    push_cast
    ring
  have hcos : (7 / 8 : ℝ) ≤ Real.cos (1 / 2) := by
    have := Real.one_sub_sq_div_two_le_cos (x := 1 / 2)
    norm_num at this ⊢
    linarith
  have hsin : (15 / 32 : ℝ) < Real.sin (1 / 2) := by
    have := Real.sin_gt_sub_cube (x := 1 / 2) (by norm_num) (by norm_num)
    norm_num at this ⊢
    linarith
  obtain ⟨c, hc, hc1, _⟩ := round_between (x := Real.cos (-(1 / 2))) (k := -((1 : ℕ) : ℤ))
    (j := 0) (by norm_num) (by norm_num)
    (by rw [Real.cos_neg, two_zpow_neg_eq 1]; linarith)
    (by rw [zpow_zero]; exact Real.cos_le_one _)
  obtain ⟨s, hs, _, _⟩ := round_of_abs_le (x := Real.sin (-(1 / 2))) (k := 0)
    (by norm_num) (by norm_num) (by rw [zpow_zero]; exact Real.abs_sin_le_one _)
  have hs1 : s ≤ -2 ^ (-((2 : ℕ) : ℤ)) := by
    rcases round_le_neg (x := Real.sin (-(1 / 2))) (k := -((2 : ℕ) : ℤ)) (by norm_num)
      (by rw [Real.sin_neg, two_zpow_neg_eq 2]; norm_num; linarith) with h | ⟨u, hu, hu1⟩
    · rw [hs] at h; cases h
    · rw [hs] at hu
      cases hu
      exact hu1
  refine ⟨c, s, ?_, ?_, ?_, ?_⟩
  · show F64.round (Real.cos ((-1 / 2 : ℚ) : ℝ)) = _
    rw [hv, hc]
  · show F64.round (Real.sin ((-1 / 2 : ℚ) : ℝ)) = _
    rw [hv, hs]
  · exact lt_of_lt_of_le (two_zpow_pos _) hc1
  · exact lt_of_le_of_lt hs1 (neg_neg_of_pos (two_zpow_pos _))

end InfiniteState

section MainRun

variable (L : Libm)

/-- The literal `3.14159` denotes the binary64 number `3537115888337719 / 2^50`. -/
theorem lit_pi_approx : (ieee L).lit 3.14159 = F64.fin (3537115888337719 / 2 ^ 50) := by
  show F64.round (3.14159 : ℚ) = _
  have h := round_eq_of_near (x := (3.14159 : ℚ)) (j := 1) (n := 7074231776675438)
    (by norm_num) (by norm_num)
    (by rw [abs_of_pos (by norm_num), zpow_one]; norm_num)
    (by rw [abs_of_pos (by norm_num)]; norm_num)
    (by
      rw [show (1 : ℤ) - 52 = -51 by norm_num, zpow_neg, abs_lt]
      constructor <;> norm_num)
  rw [h]
  congr 1
  rw [show (1 : ℤ) - 52 = -51 by norm_num, zpow_neg]
  norm_num

/-- The phase `main` passes on binary64: `3.14159/4` is `3537115888337719 / 2^52`. -/
theorem main_phase_ieee : main_phase (ieee L) = F64.fin (3537115888337719 / 2 ^ 52) := by
  unfold main_phase
  rw [lit_pi_approx, lit_four]
  show F64.div (F64.fin (3537115888337719 / 2 ^ 50)) (F64.fin 4) = _
  rw [div_fin_fin _ (by norm_num)]
  have h := round_eq_of_near (x := ((3537115888337719 / 2 ^ 50 : ℚ) / 4)) (j := -1)
    (n := 7074231776675438)
    (by norm_num) (by norm_num)
    (by rw [abs_of_pos (by norm_num), zpow_neg, zpow_one]; norm_num)
    (by rw [abs_of_pos (by norm_num)]; norm_num)
    (by
      rw [show (-1 : ℤ) - 52 = -53 by norm_num, zpow_neg]
      norm_num)
  rw [h]
  congr 1
  rw [show (-1 : ℤ) - 52 = -53 by norm_num, zpow_neg]
  norm_num

theorem sqrt_two_bounds : (1.41 : ℝ) ≤ Real.sqrt 2 ∧ Real.sqrt 2 ≤ 1.42 := by
  constructor
  · apply Real.le_sqrt_of_sq_le
    norm_num
  · rw [Real.sqrt_le_left (by norm_num)]
    norm_num

theorem cos_sub_sin (x : ℝ) :
    Real.cos x - Real.sin x = Real.sqrt 2 * Real.sin (Real.pi / 4 - x) := by
  rw [Real.sin_sub, Real.sin_pi_div_four, Real.cos_pi_div_four]
  have h2 : Real.sqrt 2 * Real.sqrt 2 = 2 := Real.mul_self_sqrt (by norm_num)
  linear_combination (-(Real.cos x - Real.sin x) / 2) * h2

/-- At the binary64 phase of `main`, the exact cosine exceeds the exact sine by
between `3.45e-7` and `1.08e-6`. -/
theorem main_cos_sub_sin_bounds :
    345 / 10 ^ 9 ≤ Real.cos ((3537115888337719 / 2 ^ 52 : ℚ) : ℝ) -
        Real.sin ((3537115888337719 / 2 ^ 52 : ℚ) : ℝ) ∧
    Real.cos ((3537115888337719 / 2 ^ 52 : ℚ) : ℝ) -
        Real.sin ((3537115888337719 / 2 ^ 52 : ℚ) : ℝ) ≤ 1080 / 10 ^ 9 := by
  have hφ : ((3537115888337719 / 2 ^ 52 : ℚ) : ℝ) = 3537115888337719 / 2 ^ 52 := by
    push_cast
    ring
  rw [hφ, cos_sub_sin]
  have hpi1 := Real.pi_gt_d6
  have hpi2 := Real.pi_lt_d6
  have hd1 : (49 / 10 ^ 8 : ℝ) ≤ Real.pi / 4 - 3537115888337719 / 2 ^ 52 := by
    norm_num at hpi1 ⊢
    linarith
  have hd2 : Real.pi / 4 - 3537115888337719 / 2 ^ 52 ≤ (76 / 10 ^ 8 : ℝ) := by
    norm_num at hpi2 ⊢
    linarith
  have hd0 : (0 : ℝ) ≤ Real.pi / 4 - 3537115888337719 / 2 ^ 52 := le_trans (by norm_num) hd1
  have hs2 : Real.sin (Real.pi / 4 - 3537115888337719 / 2 ^ 52) ≤ 76 / 10 ^ 8 :=
    (Real.sin_le hd0).trans hd2
  have hs1 : (245 / 10 ^ 9 : ℝ) ≤ Real.sin (Real.pi / 4 - 3537115888337719 / 2 ^ 52) := by
    have h := Real.mul_le_sin hd0 (by linarith)
    have hhalf : (1 / 2 : ℝ) ≤ 2 / Real.pi := by
      rw [le_div_iff₀ Real.pi_pos]
      linarith
    have : 1 / 2 * (Real.pi / 4 - 3537115888337719 / 2 ^ 52) ≤
        2 / Real.pi * (Real.pi / 4 - 3537115888337719 / 2 ^ 52) :=
      mul_le_mul_of_nonneg_right hhalf hd0
    linarith
  obtain ⟨hq1, hq2⟩ := sqrt_two_bounds
  have hsin0 : (0 : ℝ) ≤ Real.sin (Real.pi / 4 - 3537115888337719 / 2 ^ 52) :=
    le_trans (by norm_num) hs1
  constructor
  · calc (345 / 10 ^ 9 : ℝ) ≤ 1.41 * (245 / 10 ^ 9) := by norm_num
      _ ≤ Real.sqrt 2 * Real.sin (Real.pi / 4 - 3537115888337719 / 2 ^ 52) :=
        mul_le_mul hq1 hs1 (by norm_num) (by positivity)
  · calc Real.sqrt 2 * Real.sin (Real.pi / 4 - 3537115888337719 / 2 ^ 52)
        ≤ 1.42 * (76 / 10 ^ 8) := mul_le_mul hq2 hs2 hsin0 (by norm_num)
      _ ≤ 1080 / 10 ^ 9 := by norm_num

/-- The run of `main` on binary64, over any conforming math library: every
intermediate value is finite, the rotated value lies between `2^-23` and
`2^-19`, and the result between `2^-46` and `2^-38`. -/
theorem main_result_ieee (hL : L.Conforms) :
    ∃ r : ℚ, main_result (ieee L) = F64.fin r ∧ 1 / 2 ^ 46 ≤ r ∧ r ≤ 1 / 2 ^ 38 := by
  obtain ⟨c, hc, hc1, hce⟩ := hL.cos_fin (3537115888337719 / 2 ^ 52)
  obtain ⟨s, hs, hs1, hse⟩ := hL.sin_fin (3537115888337719 / 2 ^ 52)
  obtain ⟨hb1, hb2⟩ := main_cos_sub_sin_bounds
  rw [abs_le] at hce hse
  -- the cosine the library returns exceeds its sine by between 3.4e-7 and 1.1e-6
  have hcs1 : (34 / 10 ^ 8 : ℚ) ≤ c - s := by
    have h : ((34 / 10 ^ 8 : ℚ) : ℝ) ≤ ((c - s : ℚ) : ℝ) := by
      push_cast
      have : (34 / 10 ^ 8 : ℝ) ≤ 345 / 10 ^ 9 - 2 * (1 / 2 ^ 52) := by norm_num
      linarith [hce.1, hse.2]
    exact_mod_cast h
  have hcs2 : c - s ≤ (11 / 10 ^ 7 : ℚ) := by
    have h : ((c - s : ℚ) : ℝ) ≤ ((11 / 10 ^ 7 : ℚ) : ℝ) := by
      push_cast
      have : (1080 / 10 ^ 9 : ℝ) + 2 * (1 / 2 ^ 52) ≤ 11 / 10 ^ 7 := by norm_num
      linarith [hce.2, hse.1]
    exact_mod_cast h
  have hcs0 : 0 ≤ c - s := le_trans (by norm_num) hcs1
  -- the mixed values: `1.0 + 0.0` and `1.0 - 0.0` are `1`, divided by `sqrt(2.0)`
  have r1 : F64.round (1 : ℚ) = F64.fin 1 := by
    have h := round_two_zpow (K := ℚ) (k := 0) (by norm_num) (by norm_num)
    rwa [zpow_zero] at h
  obtain ⟨h, hh, hh1, hh2⟩ := round_between (x := 1 / F64.sqrtTwo) (k := -((1 : ℕ) : ℤ)) (j := 0)
    (by norm_num) (by norm_num)
    (by unfold F64.sqrtTwo; rw [two_zpow_neg_eq 1]; norm_num)
    (by unfold F64.sqrtTwo; norm_num)
  rw [two_zpow_neg_eq 1] at hh1
  rw [zpow_zero] at hh2
  have hh0 : 0 ≤ h := le_trans (by norm_num) hh1
  have habs : |h| ≤ 1 := by rw [abs_of_nonneg hh0]; exact hh2
  -- the two products, each within `2^-53` of the exact product
  have hp1 : |h * c| ≤ 2 ^ (0 : ℤ) := by
    rw [abs_mul, zpow_zero]
    exact mul_le_one₀ habs (abs_nonneg c) hc1
  have hp2 : |h * s| ≤ 2 ^ (0 : ℤ) := by
    rw [abs_mul, zpow_zero]
    exact mul_le_one₀ habs (abs_nonneg s) hs1
  obtain ⟨m1, hm1, _, hm1e⟩ := round_of_abs_le (by norm_num) (by norm_num) hp1
  obtain ⟨m2, hm2, _, hm2e⟩ := round_of_abs_le (by norm_num) (by norm_num) hp2
  rw [show (0 : ℤ) - 53 = -((53 : ℕ) : ℤ) by norm_num, two_zpow_neg_eq 53, Rat.cast_id,
    abs_le] at hm1e hm2e
  -- their difference, the rotated value, and its square
  have hlo : (1 / 2 : ℚ) * (c - s) ≤ h * (c - s) := mul_le_mul_of_nonneg_right hh1 hcs0
  have hhi : h * (c - s) ≤ 1 * (c - s) := mul_le_mul_of_nonneg_right hh2 hcs0
  have hd1 : (2 : ℚ) ^ (-((23 : ℕ) : ℤ)) ≤ m1 - m2 := by
    rw [two_zpow_neg_eq 23]
    have : (1 / 2 ^ 23 : ℚ) ≤ 1 / 2 * (34 / 10 ^ 8) - 2 * (1 / 2 ^ 53) := by norm_num
    linarith [hm1e.1, hm2e.2]
  have hd2 : m1 - m2 ≤ (2 : ℚ) ^ (-((19 : ℕ) : ℤ)) := by
    rw [two_zpow_neg_eq 19]
    have : (11 / 10 ^ 7 : ℚ) + 2 * (1 / 2 ^ 53) ≤ 1 / 2 ^ 19 := by norm_num
    linarith [hm1e.2, hm2e.1]
  obtain ⟨ro, hro, hro1, hro2⟩ := round_between (by norm_num) (by norm_num) hd1 hd2
  have hro0 : 0 ≤ ro := le_trans (two_zpow_pos _).le hro1
  have hs1 : (2 : ℚ) ^ (-((46 : ℕ) : ℤ)) ≤ ro * ro := by
    have e : (2 : ℚ) ^ (-((46 : ℕ) : ℤ)) = 2 ^ (-((23 : ℕ) : ℤ)) * 2 ^ (-((23 : ℕ) : ℤ)) := by
      rw [← zpow_add₀ (by norm_num : (2 : ℚ) ≠ 0)]
      norm_num
    rw [e]
    exact mul_le_mul hro1 hro1 (two_zpow_pos _).le hro0
  have hs2 : ro * ro ≤ (2 : ℚ) ^ (-((38 : ℕ) : ℤ)) := by
    have e : (2 : ℚ) ^ (-((38 : ℕ) : ℤ)) = 2 ^ (-((19 : ℕ) : ℤ)) * 2 ^ (-((19 : ℕ) : ℤ)) := by
      rw [← zpow_add₀ (by norm_num : (2 : ℚ) ≠ 0)]
      norm_num
    rw [e]
    exact mul_le_mul hro2 hro2 hro0 (two_zpow_pos _).le
  obtain ⟨r, hr, hr1, hr2⟩ := round_between (by norm_num) (by norm_num) hs1 hs2
  rw [two_zpow_neg_eq 46] at hr1
  rw [two_zpow_neg_eq 38] at hr2
  refine ⟨r, ?_, hr1, hr2⟩
  unfold main_result
  rw [main_phase_ieee, lit_one, lit_zero, qlo_ieee, add_fin, sub_fin, add_zero, sub_zero, r1,
    div_fin_sqrtTwo, hh, hc, hs, mul_fin, mul_fin, hm1, hm2, sub_fin, hro, mul_fin, hr]

end MainRun

section NonFinite

theorem isFinite_neg (y : F64) : (F64.neg y).isFinite = y.isFinite := by
  cases y <;> rfl

/-- A sum is finite only if both terms are. -/
theorem isFinite_of_add {x y : F64} (h : (F64.add x y).isFinite = true) :
    x.isFinite = true ∧ y.isFinite = true := by
  cases x with
  | nan => exact absurd h (by simp [F64.add, F64.isFinite])
  | inf s =>
    cases y with
    | nan => exact absurd h (by simp [F64.add, F64.isFinite])
    | inf t =>
      by_cases hst : s = t
      · exact absurd h (by simp [F64.add, F64.isFinite, hst])
      · exact absurd h (by simp [F64.add, F64.isFinite, hst])
    | fin w => exact absurd h (by simp [F64.add, F64.isFinite])
  | fin v =>
    cases y with
    | nan => exact absurd h (by simp [F64.add, F64.isFinite])
    | inf t => exact absurd h (by simp [F64.add, F64.isFinite])
    | fin w => exact ⟨rfl, rfl⟩

/-- A difference is finite only if both terms are. -/
theorem isFinite_of_sub {x y : F64} (h : (F64.sub x y).isFinite = true) :
    x.isFinite = true ∧ y.isFinite = true := by
  obtain ⟨h1, h2⟩ := isFinite_of_add (x := x) (y := F64.neg y) h
  rw [isFinite_neg] at h2
  exact ⟨h1, h2⟩

/-- A product is finite only if both factors are. -/
theorem isFinite_of_mul {x y : F64} (h : (F64.mul x y).isFinite = true) :
    x.isFinite = true ∧ y.isFinite = true := by
  cases x with
  | nan => exact absurd h (by simp [F64.mul, F64.isFinite])
  | inf s =>
    cases y with
    | nan => exact absurd h (by simp [F64.mul, F64.isFinite])
    | inf t => exact absurd h (by simp [F64.mul, F64.isFinite])
    | fin w =>
      by_cases hw : w = 0
      · exact absurd h (by simp [F64.mul, F64.isFinite, hw])
      · exact absurd h (by simp [F64.mul, F64.isFinite, hw])
  | fin v =>
    cases y with
    | nan => exact absurd h (by simp [F64.mul, F64.isFinite])
    | inf t =>
      by_cases hv : v = 0
      · exact absurd h (by simp [F64.mul, F64.isFinite, hv])
      · exact absurd h (by simp [F64.mul, F64.isFinite, hv])
    | fin w => exact ⟨rfl, rfl⟩

/-- The quotient by `sqrt(2.0)` is finite only if the dividend is. -/
theorem isFinite_of_div_sqrtTwo {x : F64}
    (h : (F64.div x (F64.fin F64.sqrtTwo)).isFinite = true) : x.isFinite = true := by
  cases x with
  | nan => exact absurd h (by simp [F64.div, F64.isFinite])
  | inf s => exact absurd h (by simp [div_inf_sqrtTwo, F64.isFinite])
  | fin v => rfl

/-- The cosine of a conforming library is finite only at a finite argument. -/
theorem isFinite_of_cos (L : Libm) (hL : L.Conforms) {p : F64}
    (h : (L.cos p).isFinite = true) : p.isFinite = true := by
  cases p with
  | nan => rw [hL.cos_nan] at h; exact absurd h (by simp [F64.isFinite])
  | inf s => rw [hL.cos_inf] at h; exact absurd h (by simp [F64.isFinite])
  | fin v => rfl

theorem mul_nan_right (x : F64) : F64.mul x F64.nan = F64.nan := by
  cases x <;> rfl

/-- A finite result needs three finite inputs. -/
theorem isFinite_of_qlo (L : Libm) (hL : L.Conforms) {x y p : F64}
    (h : (quantum_like_operation (ieee L) x y p).isFinite = true) :
    x.isFinite = true ∧ y.isFinite = true ∧ p.isFinite = true := by
  rw [qlo_ieee] at h
  obtain ⟨hr, _⟩ := isFinite_of_mul h
  obtain ⟨hm1, _⟩ := isFinite_of_sub hr
  obtain ⟨hh1, hc⟩ := isFinite_of_mul hm1
  obtain ⟨hx, hy⟩ := isFinite_of_add (isFinite_of_div_sqrtTwo hh1)
  exact ⟨hx, hy, isFinite_of_cos L hL hc⟩

/-- A NaN phase gives a NaN result, whatever the states. -/
theorem qlo_nan_phase (L : Libm) (hL : L.Conforms) (x y : F64) :
    quantum_like_operation (ieee L) x y F64.nan = F64.nan := by
  rw [qlo_ieee, hL.cos_nan, hL.sin_nan, mul_nan_right, mul_nan_right]
  rfl

end NonFinite

section RoundingSymmetry

variable {K : Type} [LinearOrderedField K] [FloorRing K]

/-- The rounding of `x` when `x * 2^k` lies in `[2^52, 2^53)` in magnitude and
within less than `1/2` of the integer `n`: the number `n / 2^k`. -/
theorem round_near_div {x : K} (n : ℤ) (k : ℕ) (hk : k ≤ 1074) (hlo : 2 ^ 52 ≤ |x| * 2 ^ k)
    (hhi : |x| * 2 ^ k < 2 ^ 53) (hn : |x * 2 ^ k - n| < 1 / 2) :
    F64.round x = F64.fin (n / 2 ^ k) := by
  have hpos : (0 : K) < 2 ^ k := pow_pos (by norm_num) k
  have e1 : (2 : K) ^ ((52 : ℤ) - k) = 2 ^ 52 / 2 ^ k := by
    rw [zpow_sub₀ (by norm_num : (2 : K) ≠ 0), zpow_natCast]
    norm_cast
  have e2 : (2 : K) ^ ((52 : ℤ) - k + 1) = 2 ^ 53 / 2 ^ k := by
    rw [show (52 : ℤ) - k + 1 = 53 - k by ring, zpow_sub₀ (by norm_num : (2 : K) ≠ 0),
      zpow_natCast]
    norm_cast
  have e3 : (2 : K) ^ ((52 : ℤ) - k - 52) = 1 / 2 ^ k := by
    rw [show (52 : ℤ) - k - 52 = -(k : ℤ) by ring, two_zpow_neg_eq]
  have e4 : (2 : ℚ) ^ ((52 : ℤ) - k - 52) = 1 / 2 ^ k := by
    rw [show (52 : ℤ) - k - 52 = -(k : ℤ) by ring, two_zpow_neg_eq]
  have h := round_eq_of_near (x := x) (j := 52 - k) (n := n) (by omega) (by omega)
    (by rw [e1, div_le_iff₀ hpos]; exact hlo)
    (by rw [e2, lt_div_iff₀ hpos]; exact hhi)
    (by rw [e3, div_div_eq_mul_div, div_one]; exact hn)
  rw [h, e4, mul_one_div]

theorem roundHalfEven_neg (y : K) : roundHalfEven (-y) = -roundHalfEven y := by
  by_cases hnear : |y - roundHalfEven y| < 1 / 2
  · apply roundHalfEven_eq_of_near
    have : -y - ((-roundHalfEven y : ℤ) : K) = -(y - roundHalfEven y) := by
      push_cast
      ring
    rw [this, abs_neg]
    exact hnear
  · -- a tie: `y` is half-way between two integers
    have hle := roundHalfEven_sub_le y
    rw [abs_sub_comm] at hle
    have htie : |y - roundHalfEven y| = 1 / 2 := le_antisymm hle (not_lt.mp hnear)
    have h1 := Int.floor_le y
    have h2 := Int.lt_floor_add_one y
    have hy : y = ⌊y⌋ + 1 / 2 := by
      rcases roundHalfEven_cases y with ⟨hr, hf⟩ | ⟨hr, hf⟩
      · rw [hr, abs_of_nonneg (by linarith)] at htie
        linarith
      · rw [hr] at htie
        push_cast at htie
        rw [abs_of_nonpos (by linarith)] at htie
        linarith
    have hfl : ⌊-y⌋ = -⌊y⌋ - 1 := by
      rw [Int.floor_eq_iff]
      push_cast
      constructor <;> linarith
    have hfr : -y - ((⌊-y⌋ : ℤ) : K) = 1 / 2 := by
      rw [hfl]
      push_cast
      linarith
    have hfr' : y - ((⌊y⌋ : ℤ) : K) = 1 / 2 := by linarith
    have lhs : roundHalfEven (-y) = if ⌊-y⌋ % 2 = 0 then ⌊-y⌋ else ⌊-y⌋ + 1 := by
      unfold roundHalfEven
      rw [hfr, if_neg (lt_irrefl _), if_neg (lt_irrefl _)]
    have rhs : roundHalfEven y = if ⌊y⌋ % 2 = 0 then ⌊y⌋ else ⌊y⌋ + 1 := by
      unfold roundHalfEven
      rw [hfr', if_neg (lt_irrefl _), if_neg (lt_irrefl _)]
    rw [lhs, rhs, hfl]
    split_ifs <;> omega

theorem ulpExp_neg (x : K) : ulpExp (-x) = ulpExp x := by
  unfold ulpExp
  rw [abs_neg]

/-- Rounding is symmetric: the rounding of `-x` is the opposite of that of `x`. -/
theorem round_neg (x : K) : F64.round (-x) = F64.neg (F64.round x) := by
  by_cases h : (2 : K) ^ 1024 - 2 ^ 970 ≤ |x|
  · have h' : (2 : K) ^ 1024 - 2 ^ 970 ≤ |-x| := by rw [abs_neg]; exact h
    have hx0 : x ≠ 0 := by
      intro h0
      rw [h0, abs_zero] at h
      exact not_overflow_of_abs_le (x := (0 : K)) (k := 0) (by norm_num) (by simp)
        (by rw [abs_zero]; exact h)
    rw [round_of_overflow h, round_of_overflow h']
    show _ = F64.inf (!decide (x < 0))
    congr 1
    rcases lt_or_gt_of_ne hx0 with hlt | hgt
    · simp [hlt, not_lt.mpr hlt.le]
    · simp [hgt, not_lt.mpr hgt.le]
  · have h' : ¬ (2 : K) ^ 1024 - 2 ^ 970 ≤ |-x| := by rw [abs_neg]; exact h
    rw [round_of_not_overflow h, round_of_not_overflow h', ulpExp_neg, neg_div,
      roundHalfEven_neg]
    show _ = F64.fin (-_)
    congr 1
    push_cast
    ring

end RoundingSymmetry

section NegationLemmas

theorem neg_neg_f64 (x : F64) : F64.neg (F64.neg x) = x := by
  cases x with
  | nan => rfl
  | inf s => show F64.inf (!!s) = _; rw [Bool.not_not]
  | fin v => show F64.fin (- -v) = _; rw [neg_neg]

theorem add_comm_f64 (x y : F64) : F64.add x y = F64.add y x := by
  cases x with
  | nan => cases y <;> rfl
  | inf s =>
    cases y with
    | nan => rfl
    | inf t =>
      show (if s = t then F64.inf s else F64.nan) = (if t = s then F64.inf t else F64.nan)
      by_cases h : s = t
      · subst h; rfl
      · rw [if_neg h, if_neg (Ne.symm h)]
    | fin w => rfl
  | fin v =>
    cases y with
    | nan => rfl
    | inf t => rfl
    | fin w => show F64.round (v + w) = F64.round (w + v); rw [add_comm]

theorem add_neg_neg (x y : F64) : F64.add (F64.neg x) (F64.neg y) = F64.neg (F64.add x y) := by
  cases x with
  | nan => cases y <;> rfl
  | inf s =>
    cases y with
    | nan => rfl
    | inf t => cases s <;> cases t <;> rfl
    | fin w => rfl
  | fin v =>
    cases y with
    | nan => rfl
    | inf t => rfl
    | fin w =>
      show F64.round (-v + -w) = F64.neg (F64.round (v + w))
      rw [← neg_add, round_neg]

theorem sub_swap (x y : F64) : F64.sub y x = F64.neg (F64.sub x y) := by
  unfold F64.sub
  rw [← add_neg_neg, neg_neg_f64, add_comm_f64]

theorem mul_neg_left (x y : F64) : F64.mul (F64.neg x) y = F64.neg (F64.mul x y) := by
  cases x with
  | nan => cases y <;> rfl
  | inf s =>
    cases y with
    | nan => rfl
    | inf t => cases s <;> cases t <;> rfl
    | fin w =>
      show (if w = 0 then F64.nan else F64.inf (xor (!s) (decide (w < 0)))) =
        F64.neg (if w = 0 then F64.nan else F64.inf (xor s (decide (w < 0))))
      by_cases hw : w = 0
      · rw [if_pos hw, if_pos hw]; rfl
      · rw [if_neg hw, if_neg hw]
        cases s <;> cases decide (w < 0) <;> rfl
  | fin v =>
    cases y with
    | nan => rfl
    | inf t =>
      show (if -v = 0 then F64.nan else F64.inf (xor (decide (-v < 0)) t)) =
        F64.neg (if v = 0 then F64.nan else F64.inf (xor (decide (v < 0)) t))
      by_cases hv : v = 0
      · rw [if_pos hv, if_pos (by rw [hv, neg_zero])]; rfl
      · rw [if_neg hv, if_neg (neg_ne_zero.mpr hv)]
        show _ = F64.inf (!(xor (decide (v < 0)) t))
        congr 1
        rcases lt_or_gt_of_ne hv with hlt | hgt
        · cases t <;> simp [hlt, not_lt.mpr hlt.le]
        · cases t <;> simp [hgt, not_lt.mpr hgt.le]
    | fin w =>
      show F64.round (-v * w) = F64.neg (F64.round (v * w))
      rw [neg_mul, round_neg]

theorem mul_comm_f64 (x y : F64) : F64.mul x y = F64.mul y x := by
  cases x with
  | nan => cases y <;> rfl
  | inf s =>
    cases y with
    | nan => rfl
    | inf t => show F64.inf (xor s t) = F64.inf (xor t s); rw [Bool.xor_comm]
    | fin w =>
      show (if w = 0 then F64.nan else F64.inf (xor s (decide (w < 0)))) =
        (if w = 0 then F64.nan else F64.inf (xor (decide (w < 0)) s))
      rw [Bool.xor_comm]
  | fin v =>
    cases y with
    | nan => rfl
    | inf t =>
      show (if v = 0 then F64.nan else F64.inf (xor (decide (v < 0)) t)) =
        (if v = 0 then F64.nan else F64.inf (xor t (decide (v < 0))))
      rw [Bool.xor_comm]
    | fin w => show F64.round (v * w) = F64.round (w * v); rw [mul_comm]

theorem mul_neg_right (x y : F64) : F64.mul x (F64.neg y) = F64.neg (F64.mul x y) := by
  rw [mul_comm_f64, mul_neg_left, mul_comm_f64]

theorem mul_neg_neg (x : F64) : F64.mul (F64.neg x) (F64.neg x) = F64.mul x x := by
  rw [mul_neg_left, mul_neg_right, neg_neg_f64]

theorem div_neg_sqrtTwo (x : F64) :
    F64.div (F64.neg x) (F64.fin F64.sqrtTwo) = F64.neg (F64.div x (F64.fin F64.sqrtTwo)) := by
  cases x with
  | nan => rfl
  | inf s => show F64.div (F64.inf (!s)) _ = _; rw [div_inf_sqrtTwo, div_inf_sqrtTwo]; rfl
  | fin v =>
    show F64.div (F64.fin (-v)) _ = _
    rw [div_fin_sqrtTwo, div_fin_sqrtTwo, neg_div, round_neg]

end NegationLemmas

section ErrorAnalysis

/-- Rounding a rational of magnitude at most `2^k`: the result is finite, of
magnitude at most `2^k`, and off by at most `2^k / 2^53`. -/
theorem round_rat_bound {x : ℚ} (k : ℕ) (hk : k ≤ 1023) (hx : |x| ≤ 2 ^ k) :
    ∃ v : ℚ, F64.round x = F64.fin v ∧ |v| ≤ 2 ^ k ∧ |v - x| ≤ 2 ^ k / 2 ^ 53 := by
  have e1 : (2 : ℚ) ^ (k : ℤ) = 2 ^ k := zpow_natCast 2 k
  have e2 : (2 : ℚ) ^ ((k : ℤ) - 53) = 2 ^ k / 2 ^ 53 := by
    rw [zpow_sub₀ (by norm_num : (2 : ℚ) ≠ 0), zpow_natCast]
    norm_cast
  obtain ⟨v, hv, hv1, hv2⟩ := round_of_abs_le (x := x) (k := (k : ℤ)) (by omega) (by omega)
    (by rw [e1]; exact hx)
  rw [e1] at hv1
  rw [e2, Rat.cast_id] at hv2
  exact ⟨v, hv, hv1, hv2⟩

/-- The binary64 `sqrt(2.0)` is within `2^-53` of the square root of two. -/
theorem sqrtTwo_error : |(F64.sqrtTwo : ℝ) - Real.sqrt 2| ≤ 1 / 2 ^ 53 := by
  have hlo : ((6369051672525773 - 1 / 2) / 2 ^ 52 : ℝ) < Real.sqrt 2 := by
    apply Real.lt_sqrt_of_sq_lt
    norm_num
  have hhi : Real.sqrt 2 < (6369051672525773 + 1 / 2) / 2 ^ 52 := by
    rw [Real.sqrt_lt' (by norm_num)]
    norm_num
  have e : (F64.sqrtTwo : ℝ) = 6369051672525773 / 2 ^ 52 := by
    unfold F64.sqrtTwo
    push_cast
    ring
  rw [e, abs_le]
  constructor
  · have : ((6369051672525773 + 1 / 2) / 2 ^ 52 : ℝ) =
        6369051672525773 / 2 ^ 52 + 1 / 2 ^ 53 := by norm_num
    linarith
  · have : ((6369051672525773 - 1 / 2) / 2 ^ 52 : ℝ) =
        6369051672525773 / 2 ^ 52 - 1 / 2 ^ 53 := by norm_num
    linarith

theorem cast_abs_le {x y : ℚ} (h : |x| ≤ y) : |(x : ℝ)| ≤ (y : ℝ) := by
  have : ((|x| : ℚ) : ℝ) ≤ ((y : ℚ) : ℝ) := by exact_mod_cast h
  rwa [Rat.cast_abs] at this

/-- Lines 9 and 10 on binary64, for an exact sum (or difference) `σ` of
magnitude at most `2^(k+1)`: the mixed value is finite, of magnitude at most
`2^(k+1)`, and within `6 * 2^k / 2^53` of `σ / √2`. -/
theorem mix_error (k : ℕ) (hk : k ≤ 1022) {σ : ℚ} (hσ : |σ| ≤ 2 ^ (k + 1)) :
    ∃ h : ℚ, F64.div (F64.round σ) (F64.fin F64.sqrtTwo) = F64.fin h ∧ |h| ≤ 2 ^ (k + 1) ∧
      |(h : ℝ) - (σ : ℝ) / Real.sqrt 2| ≤ 6 * 2 ^ k / 2 ^ 53 := by
  obtain ⟨a, ha, ha1, ha2⟩ := round_rat_bound (k + 1) (by omega) hσ
  have hq : |a / F64.sqrtTwo| ≤ 2 ^ (k + 1) := by
    rw [abs_div, abs_of_pos sqrtTwo_pos]
    exact (div_le_self (abs_nonneg a) one_le_sqrtTwo).trans ha1
  obtain ⟨h, hh, hh1, hh2⟩ := round_rat_bound (k + 1) (by omega) hq
  refine ⟨h, by rw [ha, div_fin_sqrtTwo, hh], hh1, ?_⟩
  -- the three sources of error
  have hE : (0 : ℝ) < 2 ^ (k + 1) := pow_pos (by norm_num) _
  have hs1 : (1 : ℝ) ≤ F64.sqrtTwo := by exact_mod_cast one_le_sqrtTwo
  have hs2 : (1 : ℝ) ≤ Real.sqrt 2 := by
    rw [Real.one_le_sqrt]
    norm_num
  have hs0 : (0 : ℝ) < F64.sqrtTwo := by linarith
  have hr0 : (0 : ℝ) < Real.sqrt 2 := by linarith
  have t1 : |(h : ℝ) - (a : ℝ) / F64.sqrtTwo| ≤ 2 ^ (k + 1) / 2 ^ 53 := by
    have := cast_abs_le hh2
    push_cast at this
    exact this
  have ha1' : |(a : ℝ)| ≤ 2 ^ (k + 1) := by
    have := cast_abs_le ha1
    push_cast at this
    exact this
  have t2 : |(a : ℝ) / F64.sqrtTwo - (a : ℝ) / Real.sqrt 2| ≤ 2 ^ (k + 1) / 2 ^ 53 := by
    have e : (a : ℝ) / F64.sqrtTwo - (a : ℝ) / Real.sqrt 2 =
        (a : ℝ) * (Real.sqrt 2 - F64.sqrtTwo) / (F64.sqrtTwo * Real.sqrt 2) := by
      field_simp
      ring
    have hden : (1 : ℝ) ≤ F64.sqrtTwo * Real.sqrt 2 := by nlinarith
    have hnum : |(a : ℝ) * (Real.sqrt 2 - F64.sqrtTwo)| ≤ 2 ^ (k + 1) * (1 / 2 ^ 53) := by
      rw [abs_mul]
      have := sqrtTwo_error
      rw [abs_sub_comm] at this
      exact mul_le_mul ha1' this (abs_nonneg _) hE.le
    rw [e, abs_div, abs_of_pos (by linarith : (0 : ℝ) < F64.sqrtTwo * Real.sqrt 2)]
    calc |(a : ℝ) * (Real.sqrt 2 - F64.sqrtTwo)| / (F64.sqrtTwo * Real.sqrt 2)
        ≤ |(a : ℝ) * (Real.sqrt 2 - F64.sqrtTwo)| := div_le_self (abs_nonneg _) hden
      _ ≤ 2 ^ (k + 1) / 2 ^ 53 := by
          rw [div_eq_mul_one_div]
          exact hnum
  have t3 : |(a : ℝ) / Real.sqrt 2 - (σ : ℝ) / Real.sqrt 2| ≤ 2 ^ (k + 1) / 2 ^ 53 := by
    have h3 : |(a : ℝ) - (σ : ℝ)| ≤ 2 ^ (k + 1) / 2 ^ 53 := by
      have := cast_abs_le ha2
      push_cast at this
      exact this
    rw [← sub_div, abs_div, abs_of_pos hr0]
    exact (div_le_self (abs_nonneg _) hs2).trans h3
  have tri : (h : ℝ) - (σ : ℝ) / Real.sqrt 2 =
      ((h : ℝ) - (a : ℝ) / F64.sqrtTwo) +
        ((a : ℝ) / F64.sqrtTwo - (a : ℝ) / Real.sqrt 2) +
        ((a : ℝ) / Real.sqrt 2 - (σ : ℝ) / Real.sqrt 2) := by ring
  rw [tri]
  have h3 := abs_add_three ((h : ℝ) - (a : ℝ) / F64.sqrtTwo)
    ((a : ℝ) / F64.sqrtTwo - (a : ℝ) / Real.sqrt 2)
    ((a : ℝ) / Real.sqrt 2 - (σ : ℝ) / Real.sqrt 2)
  rw [pow_succ] at t1 t2 t3
  generalize (2 : ℝ) ^ k = E at t1 t2 t3 ⊢
  linarith

/-- One product of line 13 on binary64: a mixed value `h` within
`6 * 2^k / 2^53` of `H`, times a library value `c` within `2 / 2^53` of `C`. -/
theorem prod_error (k : ℕ) (hk : k ≤ 1022) {h c : ℚ} {H C : ℝ} (hh : |h| ≤ 2 ^ (k + 1))
    (hc : |c| ≤ 1) (hC : |C| ≤ 1) (hhH : |(h : ℝ) - H| ≤ 6 * 2 ^ k / 2 ^ 53)
    (hcC : |(c : ℝ) - C| ≤ 1 / 2 ^ 52) :
    ∃ m : ℚ, F64.mul (F64.fin h) (F64.fin c) = F64.fin m ∧ |m| ≤ 2 ^ (k + 1) ∧
      |(m : ℝ) - H * C| ≤ 12 * 2 ^ k / 2 ^ 53 := by
  have hE : (0 : ℝ) < 2 ^ (k + 1) := pow_pos (by norm_num) _
  have hp : |h * c| ≤ 2 ^ (k + 1) := by
    rw [abs_mul]
    calc |h| * |c| ≤ 2 ^ (k + 1) * 1 :=
          mul_le_mul hh hc (abs_nonneg c) (pow_pos (by norm_num) _).le
      _ = 2 ^ (k + 1) := mul_one _
  obtain ⟨m, hm, hm1, hm2⟩ := round_rat_bound (k + 1) (by omega) hp
  refine ⟨m, by rw [mul_fin, hm], hm1, ?_⟩
  have t1 : |(m : ℝ) - (h : ℝ) * (c : ℝ)| ≤ 2 ^ (k + 1) / 2 ^ 53 := by
    have := cast_abs_le hm2
    push_cast at this
    exact this
  have hh' : |(h : ℝ)| ≤ 2 ^ (k + 1) := by
    have := cast_abs_le hh
    push_cast at this
    exact this
  have t2 : |(h : ℝ) * ((c : ℝ) - C)| ≤ 2 ^ (k + 1) * (1 / 2 ^ 52) := by
    rw [abs_mul]
    exact mul_le_mul hh' hcC (abs_nonneg _) hE.le
  have t3 : |C * ((h : ℝ) - H)| ≤ 1 * (6 * 2 ^ k / 2 ^ 53) := by
    rw [abs_mul]
    exact mul_le_mul hC hhH (abs_nonneg _) (by norm_num)
  have tri : (m : ℝ) - H * C =
      ((m : ℝ) - (h : ℝ) * (c : ℝ)) + (h : ℝ) * ((c : ℝ) - C) + C * ((h : ℝ) - H) := by ring
  rw [tri]
  have h3 := abs_add_three ((m : ℝ) - (h : ℝ) * (c : ℝ)) ((h : ℝ) * ((c : ℝ) - C))
    (C * ((h : ℝ) - H))
  rw [pow_succ] at t1 t2
  generalize (2 : ℝ) ^ k = E at t1 t2 t3 ⊢
  norm_num at t1 t2 t3 ⊢
  linarith

/-- The whole function on binary64 against exact arithmetic: for states of
magnitude at most `2^k`, `k ≤ 509`, and a finite phase, the result is finite and
within `4^k / 2^45` of the exact value. -/
theorem qlo_error_scaled (L : Libm) (hL : L.Conforms) (k : ℕ) (hk : k ≤ 509) (v w p : ℚ)
    (hv : |v| ≤ 2 ^ k) (hw : |w| ≤ 2 ^ k) :
    ∃ r : ℚ, quantum_like_operation (ieee L) (F64.fin v) (F64.fin w) (F64.fin p) = F64.fin r ∧
      |(r : ℝ) - quantum_like_operation realArith v w p| ≤ 4 ^ k / 2 ^ 45 := by
  have hσ : |v + w| ≤ 2 ^ (k + 1) := by
    rw [pow_succ]
    exact (abs_add v w).trans (by linarith)
  have hτ : |v - w| ≤ 2 ^ (k + 1) := by
    rw [pow_succ]
    exact (abs_sub v w).trans (by linarith)
  obtain ⟨h1, hh1, hh1b, hh1e⟩ := mix_error k (by omega) hσ
  obtain ⟨h2, hh2, hh2b, hh2e⟩ := mix_error k (by omega) hτ
  obtain ⟨c, hc, hcb, hce⟩ := hL.cos_fin p
  obtain ⟨s, hs, hsb, hse⟩ := hL.sin_fin p
  obtain ⟨m1, hm1, hm1b, hm1e⟩ :=
    prod_error k (by omega) hh1b hcb (Real.abs_cos_le_one (p : ℝ)) hh1e hce
  obtain ⟨m2, hm2, hm2b, hm2e⟩ :=
    prod_error k (by omega) hh2b hsb (Real.abs_sin_le_one (p : ℝ)) hh2e hse
  -- the difference of line 13
  have hd : |m1 - m2| ≤ 2 ^ (k + 2) := by
    have := abs_sub m1 m2
    rw [pow_succ]
    linarith
  obtain ⟨r, hr, hrb, hre⟩ := round_rat_bound (k + 2) (by omega) hd
  -- the square of line 16
  have hsq : |r * r| ≤ 2 ^ (2 * k + 4) := by
    rw [abs_mul]
    have : |r| * |r| ≤ 2 ^ (k + 2) * 2 ^ (k + 2) :=
      mul_le_mul hrb hrb (abs_nonneg r) (pow_pos (by norm_num) _).le
    rw [← pow_add] at this
    rw [show 2 * k + 4 = k + 2 + (k + 2) by ring]
    exact this
  obtain ⟨q, hq, _, hqe⟩ := round_rat_bound (2 * k + 4) (by omega) hsq
  refine ⟨q, ?_, ?_⟩
  · rw [qlo_ieee, add_fin, sub_fin, hh1, hh2, hc, hs, hm1, hm2, sub_fin, hr, mul_fin, hq]
  -- the exact rotated value `R`, and the distance of `r` to it
  rw [qlo_real]
  have hE : (0 : ℝ) < 2 ^ k := pow_pos (by norm_num) k
  have hs2 : (1 : ℝ) ≤ Real.sqrt 2 := by
    rw [Real.one_le_sqrt]
    norm_num
  have hr0 : (0 : ℝ) < Real.sqrt 2 := by linarith
  have hv' : |(v : ℝ)| ≤ 2 ^ k := by
    have := cast_abs_le hv
    push_cast at this
    exact this
  have hw' : |(w : ℝ)| ≤ 2 ^ k := by
    have := cast_abs_le hw
    push_cast at this
    exact this
  have hH1 : |((v : ℝ) + w) / Real.sqrt 2| ≤ 2 * 2 ^ k := by
    rw [abs_div, abs_of_pos hr0]
    exact (div_le_self (abs_nonneg _) hs2).trans ((abs_add _ _).trans (by linarith))
  have hH2 : |((v : ℝ) - w) / Real.sqrt 2| ≤ 2 * 2 ^ k := by
    rw [abs_div, abs_of_pos hr0]
    exact (div_le_self (abs_nonneg _) hs2).trans ((abs_sub _ _).trans (by linarith))
  have hT1 : |((v : ℝ) + w) / Real.sqrt 2 * Real.cos p| ≤ 2 * 2 ^ k := by
    rw [abs_mul]
    calc _ ≤ 2 * 2 ^ k * 1 :=
          mul_le_mul hH1 (Real.abs_cos_le_one _) (abs_nonneg _) (by positivity)
      _ = 2 * 2 ^ k := mul_one _
  have hT2 : |((v : ℝ) - w) / Real.sqrt 2 * Real.sin p| ≤ 2 * 2 ^ k := by
    rw [abs_mul]
    calc _ ≤ 2 * 2 ^ k * 1 :=
          mul_le_mul hH2 (Real.abs_sin_le_one _) (abs_nonneg _) (by positivity)
      _ = 2 * 2 ^ k := mul_one _
  have hR : |((v : ℝ) + w) / Real.sqrt 2 * Real.cos p -
      ((v : ℝ) - w) / Real.sqrt 2 * Real.sin p| ≤ 4 * 2 ^ k :=
    (abs_sub _ _).trans (by linarith)
  push_cast at hm1e hm2e
  have hre' : |(r : ℝ) - ((m1 : ℝ) - m2)| ≤ 4 * 2 ^ k / 2 ^ 53 := by
    have := cast_abs_le hre
    push_cast at this
    rw [pow_succ, pow_succ] at this
    have e : (2 : ℝ) ^ k * 2 * 2 / 2 ^ 53 = 4 * 2 ^ k / 2 ^ 53 := by ring
    rw [e] at this
    exact this
  have hrR : |(r : ℝ) - (((v : ℝ) + w) / Real.sqrt 2 * Real.cos p -
      ((v : ℝ) - w) / Real.sqrt 2 * Real.sin p)| ≤ 28 * 2 ^ k / 2 ^ 53 := by
    have tri : (r : ℝ) - (((v : ℝ) + w) / Real.sqrt 2 * Real.cos p -
        ((v : ℝ) - w) / Real.sqrt 2 * Real.sin p) =
        ((r : ℝ) - ((m1 : ℝ) - m2)) +
          ((m1 : ℝ) - ((v : ℝ) + w) / Real.sqrt 2 * Real.cos p) +
          -((m2 : ℝ) - ((v : ℝ) - w) / Real.sqrt 2 * Real.sin p) := by ring
    rw [tri]
    have h3 := abs_add_three ((r : ℝ) - ((m1 : ℝ) - m2))
      ((m1 : ℝ) - ((v : ℝ) + w) / Real.sqrt 2 * Real.cos p)
      (-((m2 : ℝ) - ((v : ℝ) - w) / Real.sqrt 2 * Real.sin p))
    rw [abs_neg] at h3
    generalize (2 : ℝ) ^ k = E at hre' hm1e hm2e h3 ⊢
    linarith
  have hrb' : |(r : ℝ)| ≤ 4 * 2 ^ k := by
    have := cast_abs_le hrb
    push_cast at this
    rw [pow_succ, pow_succ] at this
    linarith
  have hqe' : |(q : ℝ) - (r : ℝ) * r| ≤ 16 * (2 ^ k * 2 ^ k) / 2 ^ 53 := by
    have := cast_abs_le hqe
    push_cast at this
    have e : (2 : ℝ) ^ (2 * k + 4) / 2 ^ 53 = 16 * (2 ^ k * 2 ^ k) / 2 ^ 53 := by
      rw [pow_add, two_mul, pow_add]
      norm_num
      ring
    rw [e] at this
    exact this
  have e4 : (4 : ℝ) ^ k = 2 ^ k * 2 ^ k := by
    rw [← mul_pow]
    norm_num
  rw [e4]
  generalize ((v : ℝ) + w) / Real.sqrt 2 * Real.cos p -
    ((v : ℝ) - w) / Real.sqrt 2 * Real.sin p = R at hR hrR ⊢
  generalize (2 : ℝ) ^ k = E at hE hR hrR hrb' hqe' ⊢
  have hsqd : |(r : ℝ) * r - R ^ 2| ≤ 28 * E / 2 ^ 53 * (8 * E) := by
    have e : (r : ℝ) * r - R ^ 2 = ((r : ℝ) - R) * ((r : ℝ) + R) := by ring
    rw [e, abs_mul]
    exact mul_le_mul hrR ((abs_add _ _).trans (by linarith)) (abs_nonneg _) (by positivity)
  have tri : (q : ℝ) - R ^ 2 = ((q : ℝ) - (r : ℝ) * r) + ((r : ℝ) * r - R ^ 2) := by ring
  have h2 := abs_add ((q : ℝ) - (r : ℝ) * r) ((r : ℝ) * r - R ^ 2)
  rw [← tri] at h2
  have hEE : 0 ≤ E * E := by positivity
  have e1 : 28 * E / 2 ^ 53 * (8 * E) = 224 * (E * E) / 2 ^ 53 := by ring
  rw [e1] at hsqd
  generalize E * E = F at hEE hsqd hqe' ⊢
  norm_num at hqe' hsqd ⊢
  linarith

/-- The whole function on binary64 against exact arithmetic, for states of
magnitude at most one: the result is finite and within `2^-45` of the exact
value. -/
theorem qlo_error (L : Libm) (hL : L.Conforms) (v w p : ℚ) (hv : |v| ≤ 1) (hw : |w| ≤ 1) :
    ∃ r : ℚ, quantum_like_operation (ieee L) (F64.fin v) (F64.fin w) (F64.fin p) = F64.fin r ∧
      |(r : ℝ) - quantum_like_operation realArith v w p| ≤ 1 / 2 ^ 45 := by
  have h := qlo_error_scaled L hL 0 (by norm_num) v w p (by simpa using hv) (by simpa using hw)
  simpa using h

/-- In exact arithmetic the result changes by at most `8 * M^2` times the change
of the phase, for states of magnitude at most `M`. -/
theorem qlo_real_lipschitz_scaled (a b x y M : ℝ) (ha : |a| ≤ M) (hb : |b| ≤ M) :
    |quantum_like_operation realArith a b x - quantum_like_operation realArith a b y| ≤
      8 * M ^ 2 * |x - y| := by
  have hM : 0 ≤ M := (abs_nonneg a).trans ha
  rw [qlo_real_polar, qlo_real_polar]
  have hsin : |Real.sin (Real.pi / 4 - x) - Real.sin (Real.pi / 4 - y)| ≤ |x - y| := by
    rw [Real.sin_sub_sin, abs_mul, abs_mul]
    have h1 : |Real.sin ((Real.pi / 4 - x - (Real.pi / 4 - y)) / 2)| ≤ |x - y| / 2 := by
      have := Real.abs_sin_le_abs (x := (Real.pi / 4 - x - (Real.pi / 4 - y)) / 2)
      have e : |(Real.pi / 4 - x - (Real.pi / 4 - y)) / 2| = |x - y| / 2 := by
        rw [show (Real.pi / 4 - x - (Real.pi / 4 - y)) / 2 = -((x - y) / 2) by ring, abs_neg,
          abs_div, abs_two]
      rw [e] at this
      exact this
    have h2 := Real.abs_cos_le_one ((Real.pi / 4 - x + (Real.pi / 4 - y)) / 2)
    have h0 : (0 : ℝ) ≤ |x - y| / 2 := by positivity
    calc |(2 : ℝ)| * |Real.sin ((Real.pi / 4 - x - (Real.pi / 4 - y)) / 2)| *
          |Real.cos ((Real.pi / 4 - x + (Real.pi / 4 - y)) / 2)|
        ≤ 2 * (|x - y| / 2) * 1 := by
          rw [abs_two]
          exact mul_le_mul (mul_le_mul_of_nonneg_left h1 (by norm_num)) h2 (abs_nonneg _)
            (by positivity)
      _ = |x - y| := by ring
  have hcos : |Real.cos (Real.pi / 4 - x) - Real.cos (Real.pi / 4 - y)| ≤ |x - y| := by
    rw [Real.cos_sub_cos, abs_mul, abs_mul]
    have h1 : |Real.sin ((Real.pi / 4 - x - (Real.pi / 4 - y)) / 2)| ≤ |x - y| / 2 := by
      have := Real.abs_sin_le_abs (x := (Real.pi / 4 - x - (Real.pi / 4 - y)) / 2)
      have e : |(Real.pi / 4 - x - (Real.pi / 4 - y)) / 2| = |x - y| / 2 := by
        rw [show (Real.pi / 4 - x - (Real.pi / 4 - y)) / 2 = -((x - y) / 2) by ring, abs_neg,
          abs_div, abs_two]
      rw [e] at this
      exact this
    have h2 := Real.abs_sin_le_one ((Real.pi / 4 - x + (Real.pi / 4 - y)) / 2)
    have h0 : (0 : ℝ) ≤ |x - y| / 2 := by positivity
    calc |(-2 : ℝ)| * |Real.sin ((Real.pi / 4 - x + (Real.pi / 4 - y)) / 2)| *
          |Real.sin ((Real.pi / 4 - x - (Real.pi / 4 - y)) / 2)|
        ≤ 2 * 1 * (|x - y| / 2) := by
          rw [abs_neg, abs_two]
          exact mul_le_mul (mul_le_mul_of_nonneg_left h2 (by norm_num)) h1 (abs_nonneg _)
            (by norm_num)
      _ = |x - y| := by ring
  have hd0 : (0 : ℝ) ≤ |x - y| := abs_nonneg _
  have hR : ∀ t : ℝ, |a * Real.sin t + b * Real.cos t| ≤ 2 * M := by
    intro t
    have h1 : |a * Real.sin t| ≤ M := by
      rw [abs_mul]
      calc _ ≤ M * 1 := mul_le_mul ha (Real.abs_sin_le_one t) (abs_nonneg _) hM
        _ = M := mul_one _
    have h2 : |b * Real.cos t| ≤ M := by
      rw [abs_mul]
      calc _ ≤ M * 1 := mul_le_mul hb (Real.abs_cos_le_one t) (abs_nonneg _) hM
        _ = M := mul_one _
    exact (abs_add _ _).trans (by linarith)
  have hdiff : |(a * Real.sin (Real.pi / 4 - x) + b * Real.cos (Real.pi / 4 - x)) -
      (a * Real.sin (Real.pi / 4 - y) + b * Real.cos (Real.pi / 4 - y))| ≤
        2 * M * |x - y| := by
    have e : (a * Real.sin (Real.pi / 4 - x) + b * Real.cos (Real.pi / 4 - x)) -
        (a * Real.sin (Real.pi / 4 - y) + b * Real.cos (Real.pi / 4 - y)) =
        a * (Real.sin (Real.pi / 4 - x) - Real.sin (Real.pi / 4 - y)) +
          b * (Real.cos (Real.pi / 4 - x) - Real.cos (Real.pi / 4 - y)) := by ring
    rw [e]
    have h1 : |a * (Real.sin (Real.pi / 4 - x) - Real.sin (Real.pi / 4 - y))| ≤
        M * |x - y| := by
      rw [abs_mul]
      exact mul_le_mul ha hsin (abs_nonneg _) hM
    have h2 : |b * (Real.cos (Real.pi / 4 - x) - Real.cos (Real.pi / 4 - y))| ≤
        M * |x - y| := by
      rw [abs_mul]
      exact mul_le_mul hb hcos (abs_nonneg _) hM
    exact (abs_add _ _).trans (by linarith)
  have e : (a * Real.sin (Real.pi / 4 - x) + b * Real.cos (Real.pi / 4 - x)) ^ 2 -
      (a * Real.sin (Real.pi / 4 - y) + b * Real.cos (Real.pi / 4 - y)) ^ 2 =
      ((a * Real.sin (Real.pi / 4 - x) + b * Real.cos (Real.pi / 4 - x)) -
        (a * Real.sin (Real.pi / 4 - y) + b * Real.cos (Real.pi / 4 - y))) *
      ((a * Real.sin (Real.pi / 4 - x) + b * Real.cos (Real.pi / 4 - x)) +
        (a * Real.sin (Real.pi / 4 - y) + b * Real.cos (Real.pi / 4 - y))) := by ring
  rw [e, abs_mul]
  have hRx := hR (Real.pi / 4 - x)
  have hRy := hR (Real.pi / 4 - y)
  have hsum : |(a * Real.sin (Real.pi / 4 - x) + b * Real.cos (Real.pi / 4 - x)) +
      (a * Real.sin (Real.pi / 4 - y) + b * Real.cos (Real.pi / 4 - y))| ≤ 4 * M :=
    (abs_add _ _).trans (by linarith)
  calc _ ≤ 2 * M * |x - y| * (4 * M) := mul_le_mul hdiff hsum (abs_nonneg _) (by positivity)
    _ = 8 * M ^ 2 * |x - y| := by ring

end ErrorAnalysis

section ExactRuns

/-- The rounding of a positive rational `x` with `x * 2^k` in `[2^52, 2^53)` and
within less than `1/2` of the integer `n`. -/
theorem round_eq_pos {x y : ℚ} (n : ℤ) (k : ℕ) (hk : k ≤ 1074) (hy : y = n / 2 ^ k)
    (hlo : 2 ^ 52 ≤ x * 2 ^ k) (hhi : x * 2 ^ k < 2 ^ 53) (h1 : (n : ℚ) - 1 / 2 < x * 2 ^ k)
    (h2 : x * 2 ^ k < n + 1 / 2) : F64.round x = F64.fin y := by
  have hpos : (0 : ℚ) < 2 ^ k := pow_pos (by norm_num) k
  have hx : 0 < x := by
    by_contra hc
    have : x * 2 ^ k ≤ 0 := mul_nonpos_of_nonpos_of_nonneg (not_lt.mp hc) hpos.le
    have : (0 : ℚ) < 2 ^ 52 := by norm_num
    linarith
  rw [hy]
  apply round_near_div n k hk
  · rw [abs_of_pos hx]; exact hlo
  · rw [abs_of_pos hx]; exact hhi
  · rw [abs_lt]
    constructor <;> linarith

/-- A run at phase `0.0` on binary64: `cos(0.0)` is `1` and `sin(0.0)` is `0`, so
the rotated value is the first mixed value `h`, and the result is the rounded
square of `h`. -/
theorem qlo_phase_zero (L : Libm) (hL : L.Conforms) {v w a b h h' : ℚ}
    (ha : F64.round (v + w) = F64.fin a) (hb : F64.round (v - w) = F64.fin b)
    (hh : F64.round (a / F64.sqrtTwo) = F64.fin h)
    (hh' : F64.round (b / F64.sqrtTwo) = F64.fin h') (hm : F64.round h = F64.fin h) :
    quantum_like_operation (ieee L) (F64.fin v) (F64.fin w) (F64.fin 0) =
      F64.round (h * h) := by
  have r0 : F64.round (0 : ℚ) = F64.fin 0 := round_zero
  rw [qlo_ieee, add_fin, sub_fin, ha, hb, div_fin_sqrtTwo, div_fin_sqrtTwo, hh, hh',
    hL.cos_zero, hL.sin_zero, mul_fin, mul_fin, mul_one, mul_zero, hm, r0, sub_fin, sub_zero,
    hm, mul_fin]

/-- Scenario 1 on binary64: `(1.0, 0.0, 0.0)` gives `0.5 - 2^-53`
(`0.49999999999999989`), not `0.5`. -/
theorem qlo_one_zero_zero (L : Libm) (hL : L.Conforms) :
    quantum_like_operation (ieee L) (F64.fin 1) (F64.fin 0) (F64.fin 0) =
      F64.fin (4503599627370495 / 2 ^ 53) := by
  have ha : F64.round (1 + 0 : ℚ) = F64.fin (1) :=
    round_eq_pos 4503599627370496 52 (by norm_num) (by norm_num) (by norm_num) (by norm_num)
      (by norm_num) (by norm_num)
  have hb : F64.round (1 - 0 : ℚ) = F64.fin (1) :=
    round_eq_pos 4503599627370496 52 (by norm_num) (by norm_num) (by norm_num) (by norm_num)
      (by norm_num) (by norm_num)
  have hh : F64.round (1 / F64.sqrtTwo : ℚ) = F64.fin (6369051672525772 / 2 ^ 53) :=
    round_eq_pos 6369051672525772 53 (by norm_num) (by norm_num) (by norm_num [F64.sqrtTwo]) (by norm_num [F64.sqrtTwo])
      (by norm_num [F64.sqrtTwo]) (by norm_num [F64.sqrtTwo])
  have hm : F64.round (6369051672525772 / 2 ^ 53 : ℚ) = F64.fin (6369051672525772 / 2 ^ 53) :=
    round_eq_pos 6369051672525772 53 (by norm_num) (by norm_num) (by norm_num) (by norm_num)
      (by norm_num) (by norm_num)
  have hq : F64.round (6369051672525772 / 2 ^ 53 * (6369051672525772 / 2 ^ 53) : ℚ) = F64.fin (4503599627370495 / 2 ^ 53) :=
    round_eq_pos 9007199254740990 54 (by norm_num) (by norm_num) (by norm_num) (by norm_num)
      (by norm_num) (by norm_num)
  rw [qlo_phase_zero L hL ha hb hh hh hm, hq]

/-- Scenario 4 on binary64: `(2.0, 2.0, 0.0)` gives `8 - 2^-49`
(`7.9999999999999982`), not `8.0`. -/
theorem qlo_two_two_zero (L : Libm) (hL : L.Conforms) :
    quantum_like_operation (ieee L) (F64.fin 2) (F64.fin 2) (F64.fin 0) =
      F64.fin (4503599627370495 / 2 ^ 49) := by
  have r0 : F64.round (0 : ℚ) = F64.fin 0 := round_zero
  have ha : F64.round (2 + 2 : ℚ) = F64.fin (4) :=
    round_eq_pos 4503599627370496 50 (by norm_num) (by norm_num) (by norm_num) (by norm_num)
      (by norm_num) (by norm_num)
  have hb : F64.round (2 - 2 : ℚ) = F64.fin 0 := by rw [sub_self]; exact r0
  have hh' : F64.round (0 / F64.sqrtTwo : ℚ) = F64.fin 0 := by rw [zero_div]; exact r0
  have hh : F64.round (4 / F64.sqrtTwo : ℚ) = F64.fin (6369051672525772 / 2 ^ 51) :=
    round_eq_pos 6369051672525772 51 (by norm_num) (by norm_num) (by norm_num [F64.sqrtTwo]) (by norm_num [F64.sqrtTwo])
      (by norm_num [F64.sqrtTwo]) (by norm_num [F64.sqrtTwo])
  have hm : F64.round (6369051672525772 / 2 ^ 51 : ℚ) = F64.fin (6369051672525772 / 2 ^ 51) :=
    round_eq_pos 6369051672525772 51 (by norm_num) (by norm_num) (by norm_num) (by norm_num)
      (by norm_num) (by norm_num)
  have hq : F64.round (6369051672525772 / 2 ^ 51 * (6369051672525772 / 2 ^ 51) : ℚ) = F64.fin (4503599627370495 / 2 ^ 49) :=
    round_eq_pos 9007199254740990 50 (by norm_num) (by norm_num) (by norm_num) (by norm_num)
      (by norm_num) (by norm_num)
  rw [qlo_phase_zero L hL ha hb hh hh' hm, hq]

/-- On binary64 `(7.0, 0.0, 0.0)` gives `24.5` exactly. -/
theorem qlo_seven_zero_zero (L : Libm) (hL : L.Conforms) :
    quantum_like_operation (ieee L) (F64.fin 7) (F64.fin 0) (F64.fin 0) =
      F64.fin (49 / 2) := by
  have ha : F64.round (7 + 0 : ℚ) = F64.fin (7) :=
    round_eq_pos 7881299347898368 50 (by norm_num) (by norm_num) (by norm_num) (by norm_num)
      (by norm_num) (by norm_num)
  have hb : F64.round (7 - 0 : ℚ) = F64.fin (7) :=
    round_eq_pos 7881299347898368 50 (by norm_num) (by norm_num) (by norm_num) (by norm_num)
      (by norm_num) (by norm_num)
  have hh : F64.round (7 / F64.sqrtTwo : ℚ) = F64.fin (5572920213460051 / 2 ^ 50) :=
    round_eq_pos 5572920213460051 50 (by norm_num) (by norm_num) (by norm_num [F64.sqrtTwo]) (by norm_num [F64.sqrtTwo])
      (by norm_num [F64.sqrtTwo]) (by norm_num [F64.sqrtTwo])
  have hm : F64.round (5572920213460051 / 2 ^ 50 : ℚ) = F64.fin (5572920213460051 / 2 ^ 50) :=
    round_eq_pos 5572920213460051 50 (by norm_num) (by norm_num) (by norm_num) (by norm_num)
      (by norm_num) (by norm_num)
  have hq : F64.round (5572920213460051 / 2 ^ 50 * (5572920213460051 / 2 ^ 50) : ℚ) = F64.fin (49 / 2) :=
    round_eq_pos 6896136929411072 48 (by norm_num) (by norm_num) (by norm_num) (by norm_num)
      (by norm_num) (by norm_num)
  rw [qlo_phase_zero L hL ha hb hh hh hm, hq]

/-- On binary64, with both states `a = 1898589997695167 / 2^51`
(`0x1.afb07b98c02fcp-1`) and phase `0.0`, the result is
`3201566993158997 / 2^51`, which exceeds `a^2 + a^2`. -/
theorem qlo_above_norm (L : Libm) (hL : L.Conforms) :
    quantum_like_operation (ieee L) (F64.fin (1898589997695167 / 2 ^ 51))
        (F64.fin (1898589997695167 / 2 ^ 51)) (F64.fin 0) =
      F64.fin (3201566993158997 / 2 ^ 51) := by
  have r0 : F64.round (0 : ℚ) = F64.fin 0 := round_zero
  have ha : F64.round (1898589997695167 / 2 ^ 51 + 1898589997695167 / 2 ^ 51 : ℚ) = F64.fin (1898589997695167 / 2 ^ 50) :=
    round_eq_pos 7594359990780668 52 (by norm_num) (by norm_num) (by norm_num) (by norm_num)
      (by norm_num) (by norm_num)
  have hb : F64.round (1898589997695167 / 2 ^ 51 - 1898589997695167 / 2 ^ 51 : ℚ) =
      F64.fin 0 := by rw [sub_self]; exact r0
  have hh' : F64.round (0 / F64.sqrtTwo : ℚ) = F64.fin 0 := by rw [zero_div]; exact r0
  have hh : F64.round (1898589997695167 / 2 ^ 50 / F64.sqrtTwo : ℚ) = F64.fin (5370023448252817 / 2 ^ 52) :=
    round_eq_pos 5370023448252817 52 (by norm_num) (by norm_num) (by norm_num [F64.sqrtTwo]) (by norm_num [F64.sqrtTwo])
      (by norm_num [F64.sqrtTwo]) (by norm_num [F64.sqrtTwo])
  have hm : F64.round (5370023448252817 / 2 ^ 52 : ℚ) = F64.fin (5370023448252817 / 2 ^ 52) :=
    round_eq_pos 5370023448252817 52 (by norm_num) (by norm_num) (by norm_num) (by norm_num)
      (by norm_num) (by norm_num)
  have hq : F64.round (5370023448252817 / 2 ^ 52 * (5370023448252817 / 2 ^ 52) : ℚ) = F64.fin (3201566993158997 / 2 ^ 51) :=
    round_eq_pos 6403133986317994 52 (by norm_num) (by norm_num) (by norm_num) (by norm_num)
      (by norm_num) (by norm_num)
  rw [qlo_phase_zero L hL ha hb hh hh' hm, hq]

end ExactRuns

section NearPi

theorem mPi_cast : (F64.mPi : ℝ) = 884279719003555 / 2 ^ 48 := by
  unfold F64.mPi
  push_cast
  ring

/-- The binary64 `M_PI` is below `π`, by between `1.2246e-16` and `1.2248e-16`. -/
theorem pi_sub_mPi :
    12246 / 10 ^ 20 < Real.pi - F64.mPi ∧ Real.pi - F64.mPi < 12248 / 10 ^ 20 := by
  have h1 := Real.pi_gt_d20
  have h2 := Real.pi_lt_d20
  rw [mPi_cast]
  constructor
  · norm_num at h1 ⊢
    linarith
  · norm_num at h2 ⊢
    linarith

/-- The sine of a small positive angle is within its cube of the angle. -/
theorem sin_small {d : ℝ} (h0 : 0 < d) (h1 : d ≤ 1 / 10 ^ 15) :
    d - d / 10 ^ 30 ≤ Real.sin d ∧ Real.sin d ≤ d := by
  refine ⟨?_, Real.sin_le h0.le⟩
  have h := Real.sin_gt_sub_cube h0 (h1.trans (by norm_num))
  have hsq : d ^ 2 ≤ (1 / 10 ^ 15) ^ 2 := pow_le_pow_left₀ h0.le h1 2
  have hcube : d ^ 3 / 4 ≤ d / 10 ^ 30 := by
    have : d ^ 3 = d * d ^ 2 := by ring
    rw [this]
    have : d * d ^ 2 ≤ d * (1 / 10 ^ 15) ^ 2 := mul_le_mul_of_nonneg_left hsq h0.le
    norm_num at this ⊢
    linarith
  linarith

/-- The cosine of a small positive angle is below one, by at most half the
square of the angle. -/
theorem cos_small {d : ℝ} (h0 : 0 < d) (h1 : d ≤ 1 / 10 ^ 15) :
    1 - d / 10 ^ 15 ≤ Real.cos d ∧ Real.cos d < 1 := by
  constructor
  · have h := Real.one_sub_sq_div_two_le_cos (x := d)
    have : d ^ 2 / 2 ≤ d / 10 ^ 15 := by
      have e : d ^ 2 = d * d := by ring
      rw [e]
      have : d * d ≤ d * (1 / 10 ^ 15) := mul_le_mul_of_nonneg_left h1 h0.le
      linarith
    linarith
  · have h := Real.cos_lt_cos_of_nonneg_of_le_pi_div_two (le_refl (0 : ℝ))
      (by have := Real.pi_gt_three; linarith [h1.trans (by norm_num : (1 / 10 ^ 15 : ℝ) ≤ 1)]) h0
    rwa [Real.cos_zero] at h

/-- A value just below one rounds to one. -/
theorem round_just_below_one {x : ℝ} (h1 : 1 - 1 / 10 ^ 20 ≤ x) (h2 : x < 1) :
    F64.round x = F64.fin 1 := by
  have hx : 0 < x := lt_of_lt_of_le (by norm_num) h1
  have h := round_near_div (x := x) (2 ^ 53) 53 (by norm_num)
    (by rw [abs_of_pos hx]; norm_num; linarith)
    (by rw [abs_of_pos hx]; norm_num; linarith)
    (by
      rw [abs_lt]
      push_cast
      constructor <;> norm_num <;> linarith)
  rw [h]
  norm_num

/-- The correctly rounded library at `M_PI`: the cosine is `-1` and the sine a
number between `2^-53` and `2^-52` (about `1.2246e-16`). -/
theorem crLibm_at_mPi :
    crLibm.cos (F64.fin F64.mPi) = F64.fin (-1) ∧
    ∃ s : ℚ, crLibm.sin (F64.fin F64.mPi) = F64.fin s ∧ 1 / 2 ^ 53 ≤ s ∧ s ≤ 1 / 2 ^ 52 := by
  obtain ⟨hd1, hd2⟩ := pi_sub_mPi
  have hd0 : 0 < Real.pi - F64.mPi := lt_trans (by norm_num) hd1
  have hd3 : Real.pi - F64.mPi ≤ 1 / 10 ^ 15 := hd2.le.trans (by norm_num)
  have e : (F64.mPi : ℝ) = Real.pi - (Real.pi - F64.mPi) := by ring
  obtain ⟨hs1, hs2⟩ := sin_small hd0 hd3
  obtain ⟨hc1, hc2⟩ := cos_small hd0 hd3
  constructor
  · show F64.round (Real.cos (F64.mPi : ℝ)) = _
    rw [e, Real.cos_pi_sub, round_neg, round_just_below_one (by
      have : (Real.pi - F64.mPi) / 10 ^ 15 ≤ 1 / 10 ^ 20 := by
        rw [div_le_iff₀ (by norm_num)]
        linarith
      linarith) hc2]
    show F64.fin (-1) = _
    rfl
  · obtain ⟨s, hs, hlo, hhi⟩ := round_between (x := Real.sin (Real.pi - F64.mPi))
      (k := -((53 : ℕ) : ℤ)) (j := -((52 : ℕ) : ℤ)) (by norm_num) (by norm_num)
      (by
        rw [two_zpow_neg_eq 53]
        have : (1 / 2 ^ 53 : ℝ) ≤ (12246 / 10 ^ 20) - (12248 / 10 ^ 20) / 10 ^ 30 := by norm_num
        have : (Real.pi - F64.mPi) / 10 ^ 30 ≤ (12248 / 10 ^ 20) / 10 ^ 30 :=
          div_le_div_of_nonneg_right hd2.le (by norm_num)
        linarith)
      (by
        rw [two_zpow_neg_eq 52]
        have : (12248 / 10 ^ 20 : ℝ) ≤ 1 / 2 ^ 52 := by norm_num
        linarith)
    rw [two_zpow_neg_eq 53] at hlo
    rw [two_zpow_neg_eq 52] at hhi
    refine ⟨s, ?_, hlo, hhi⟩
    show F64.round (Real.sin (F64.mPi : ℝ)) = _
    rw [e, Real.sin_pi_sub, hs]

/-- On binary64 with the correctly rounded library, `(1.0, 0.0, M_PI)` gives
`0.5 + 2^-53` (`0.50000000000000011`). -/
theorem qlo_at_mPi :
    quantum_like_operation (ieee crLibm) (F64.fin 1) (F64.fin 0) (F64.fin F64.mPi) =
      F64.fin (4503599627370497 / 2 ^ 53) := by
  obtain ⟨hc, s, hs, hs1, hs2⟩ := crLibm_at_mPi
  have ha : F64.round (1 + 0 : ℚ) = F64.fin (1) :=
    round_eq_pos 4503599627370496 52 (by norm_num) (by norm_num) (by norm_num) (by norm_num)
      (by norm_num) (by norm_num)
  have hb : F64.round (1 - 0 : ℚ) = F64.fin (1) :=
    round_eq_pos 4503599627370496 52 (by norm_num) (by norm_num) (by norm_num) (by norm_num)
      (by norm_num) (by norm_num)
  have hh : F64.round (1 / F64.sqrtTwo : ℚ) = F64.fin (6369051672525772 / 2 ^ 53) :=
    round_eq_pos 6369051672525772 53 (by norm_num) (by norm_num) (by norm_num [F64.sqrtTwo])
      (by norm_num [F64.sqrtTwo]) (by norm_num [F64.sqrtTwo]) (by norm_num [F64.sqrtTwo])
  have hm : F64.round (6369051672525772 / 2 ^ 53 : ℚ) = F64.fin (6369051672525772 / 2 ^ 53) :=
    round_eq_pos 6369051672525772 53 (by norm_num) (by norm_num) (by norm_num) (by norm_num)
      (by norm_num) (by norm_num)
  -- the first product is `-h`
  have hm1 : F64.round ((6369051672525772 / 2 ^ 53 : ℚ) * -1) =
      F64.fin (-(6369051672525772 / 2 ^ 53)) := by
    rw [mul_neg_one, round_neg, hm]
    rfl
  -- the second product is about `h * 1.2246e-16`, between a half and three halves of `2^-53`
  have hp : |(6369051672525772 / 2 ^ 53 : ℚ) * s| ≤ 2 ^ (-((52 : ℕ) : ℤ)) := by
    rw [two_zpow_neg_eq 52, abs_of_nonneg (mul_nonneg (by norm_num) (le_trans (by norm_num) hs1))]
    have : (6369051672525772 / 2 ^ 53 : ℚ) * s ≤ 1 * s :=
      mul_le_mul_of_nonneg_right (by norm_num) (le_trans (by norm_num) hs1)
    linarith
  obtain ⟨m2, hm2, _, hm2e⟩ := round_of_abs_le (by norm_num) (by norm_num) hp
  rw [show -((52 : ℕ) : ℤ) - 53 = -((105 : ℕ) : ℤ) by norm_num, two_zpow_neg_eq 105,
    Rat.cast_id, abs_le] at hm2e
  have hlo : (6369051672525772 / 2 ^ 53 : ℚ) * (1 / 2 ^ 53) ≤ 6369051672525772 / 2 ^ 53 * s :=
    mul_le_mul_of_nonneg_left hs1 (by norm_num)
  have hhi : (6369051672525772 / 2 ^ 53 : ℚ) * s ≤ 6369051672525772 / 2 ^ 53 * (1 / 2 ^ 52) :=
    mul_le_mul_of_nonneg_left hs2 (by norm_num)
  -- the rotated value is `-(h + 2^-53)`
  have hrot : F64.round (-(6369051672525772 / 2 ^ 53) - m2 : ℚ) =
      F64.fin (-(6369051672525773 / 2 ^ 53)) := by
    have e : (-(6369051672525772 / 2 ^ 53) - m2 : ℚ) = -(6369051672525772 / 2 ^ 53 + m2) := by
      ring
    have h1 : F64.round (6369051672525772 / 2 ^ 53 + m2 : ℚ) =
        F64.fin (6369051672525773 / 2 ^ 53) :=
      round_eq_pos 6369051672525773 53 (by norm_num) (by norm_num)
        (by norm_num at hm2e hlo hhi ⊢; linarith) (by norm_num at hm2e hlo hhi ⊢; linarith)
        (by norm_num at hm2e hlo hhi ⊢; linarith) (by norm_num at hm2e hlo hhi ⊢; linarith)
    rw [e, round_neg, h1]
    rfl
  have hq : F64.round ((-(6369051672525773 / 2 ^ 53) : ℚ) * -(6369051672525773 / 2 ^ 53)) =
      F64.fin (4503599627370497 / 2 ^ 53) :=
    round_eq_pos 4503599627370497 53 (by norm_num) (by norm_num) (by norm_num) (by norm_num)
      (by norm_num) (by norm_num)
  rw [qlo_ieee, add_fin, sub_fin, ha, hb, div_fin_sqrtTwo, hh, hc, hs, mul_fin, mul_fin, hm1,
    hm2, sub_fin, hrot, mul_fin, hq]

/-- The correctly rounded library at `M_PI / 2`: the sine is `1` and the cosine
a number between `0` and `6.2e-17`. -/
theorem crLibm_at_half_mPi :
    crLibm.sin (F64.fin (F64.mPi / 2)) = F64.fin 1 ∧
    ∃ c : ℚ, crLibm.cos (F64.fin (F64.mPi / 2)) = F64.fin c ∧ 0 ≤ c ∧ c ≤ 62 / 10 ^ 18 := by
  obtain ⟨hd1, hd2⟩ := pi_sub_mPi
  have hd0 : 0 < (Real.pi - F64.mPi) / 2 := by linarith
  have hd3 : (Real.pi - F64.mPi) / 2 ≤ 1 / 10 ^ 15 := by
    have : (12248 / 10 ^ 20 : ℝ) ≤ 1 / 10 ^ 15 := by norm_num
    linarith
  have e : ((F64.mPi / 2 : ℚ) : ℝ) = Real.pi / 2 - (Real.pi - F64.mPi) / 2 := by
    push_cast
    ring
  obtain ⟨hs1, hs2⟩ := sin_small hd0 hd3
  obtain ⟨hc1, hc2⟩ := cos_small hd0 hd3
  constructor
  · show F64.round (Real.sin ((F64.mPi / 2 : ℚ) : ℝ)) = _
    rw [e, Real.sin_pi_div_two_sub, round_just_below_one (by
      have : (Real.pi - F64.mPi) / 2 / 10 ^ 15 ≤ 1 / 10 ^ 20 := by
        rw [div_le_iff₀ (by norm_num)]
        linarith
      linarith) hc2]
  · have hsin0 : 0 ≤ Real.sin ((Real.pi - F64.mPi) / 2) := by
      have : (0 : ℝ) ≤ (Real.pi - F64.mPi) / 2 / 10 ^ 30 := by positivity
      have : (Real.pi - F64.mPi) / 2 / 10 ^ 30 ≤ (Real.pi - F64.mPi) / 2 :=
        div_le_self hd0.le (by norm_num)
      linarith
    have hab : |Real.sin ((Real.pi - F64.mPi) / 2)| ≤ 2 ^ (-((53 : ℕ) : ℤ)) := by
      rw [abs_of_nonneg hsin0, two_zpow_neg_eq 53]
      have : (12248 / 10 ^ 20 / 2 : ℝ) ≤ 1 / 2 ^ 53 := by norm_num
      linarith
    obtain ⟨c, hc, _, hce⟩ := round_of_abs_le (by norm_num) (by norm_num) hab
    rw [show -((53 : ℕ) : ℤ) - 53 = -((106 : ℕ) : ℤ) by norm_num, two_zpow_neg_eq 106,
      abs_le] at hce
    have hc0 : 0 ≤ c := by
      rcases round_nonneg hsin0 with h | ⟨u, hu, hu0⟩
      · rw [hc] at h; cases h
      · rw [hc] at hu
        cases hu
        exact hu0
    have hcu : c ≤ 62 / 10 ^ 18 := by
      have : (c : ℝ) ≤ ((62 / 10 ^ 18 : ℚ) : ℝ) := by
        push_cast
        have : (12248 / 10 ^ 20 / 2 : ℝ) + 1 / 2 ^ 106 ≤ 62 / 10 ^ 18 := by norm_num
        linarith [hce.2]
      exact_mod_cast this
    refine ⟨c, ?_, hc0, hcu⟩
    show F64.round (Real.cos ((F64.mPi / 2 : ℚ) : ℝ)) = _
    rw [e, Real.cos_pi_div_two_sub, hc]

/-- On binary64 with the correctly rounded library, `(1.0, 0.0, M_PI / 2)` gives
`0.5 - 2^-53`, the same as at phase `0.0`. -/
theorem qlo_at_half_mPi :
    quantum_like_operation (ieee crLibm) (F64.fin 1) (F64.fin 0) (F64.fin (F64.mPi / 2)) =
      F64.fin (4503599627370495 / 2 ^ 53) := by
  obtain ⟨hs, c, hc, hc0, hc1⟩ := crLibm_at_half_mPi
  have ha : F64.round (1 + 0 : ℚ) = F64.fin (1) :=
    round_eq_pos 4503599627370496 52 (by norm_num) (by norm_num) (by norm_num) (by norm_num)
      (by norm_num) (by norm_num)
  have hb : F64.round (1 - 0 : ℚ) = F64.fin (1) :=
    round_eq_pos 4503599627370496 52 (by norm_num) (by norm_num) (by norm_num) (by norm_num)
      (by norm_num) (by norm_num)
  have hh : F64.round (1 / F64.sqrtTwo : ℚ) = F64.fin (6369051672525772 / 2 ^ 53) :=
    round_eq_pos 6369051672525772 53 (by norm_num) (by norm_num) (by norm_num [F64.sqrtTwo])
      (by norm_num [F64.sqrtTwo]) (by norm_num [F64.sqrtTwo]) (by norm_num [F64.sqrtTwo])
  have hm : F64.round (6369051672525772 / 2 ^ 53 : ℚ) = F64.fin (6369051672525772 / 2 ^ 53) :=
    round_eq_pos 6369051672525772 53 (by norm_num) (by norm_num) (by norm_num) (by norm_num)
      (by norm_num) (by norm_num)
  -- the first product is tiny: below a quarter of `2^-52`
  have hp0 : (0 : ℚ) ≤ 6369051672525772 / 2 ^ 53 * c := mul_nonneg (by norm_num) hc0
  have hpu : (6369051672525772 / 2 ^ 53 : ℚ) * c ≤ 6369051672525772 / 2 ^ 53 * (62 / 10 ^ 18) :=
    mul_le_mul_of_nonneg_left hc1 (by norm_num)
  have hp : |(6369051672525772 / 2 ^ 53 : ℚ) * c| ≤ 2 ^ (-((54 : ℕ) : ℤ)) := by
    rw [two_zpow_neg_eq 54, abs_of_nonneg hp0]
    have : (6369051672525772 / 2 ^ 53 : ℚ) * (62 / 10 ^ 18) ≤ 1 / 2 ^ 54 := by norm_num
    linarith
  obtain ⟨m1, hm1, _, hm1e⟩ := round_of_abs_le (by norm_num) (by norm_num) hp
  rw [show -((54 : ℕ) : ℤ) - 53 = -((107 : ℕ) : ℤ) by norm_num, two_zpow_neg_eq 107,
    Rat.cast_id, abs_le] at hm1e
  have hm10 : 0 ≤ m1 := by
    rcases round_nonneg hp0 with h | ⟨u, hu, hu0⟩
    · rw [hm1] at h; cases h
    · rw [hm1] at hu
      cases hu
      exact hu0
  have hm2 : F64.round ((6369051672525772 / 2 ^ 53 : ℚ) * 1) =
      F64.fin (6369051672525772 / 2 ^ 53) := by rw [mul_one, hm]
  -- so the rotated value is `-h`
  have hrot : F64.round (m1 - 6369051672525772 / 2 ^ 53 : ℚ) =
      F64.fin (-(6369051672525772 / 2 ^ 53)) := by
    have e : (m1 - 6369051672525772 / 2 ^ 53 : ℚ) = -(6369051672525772 / 2 ^ 53 - m1) := by
      ring
    have h1 : F64.round (6369051672525772 / 2 ^ 53 - m1 : ℚ) =
        F64.fin (6369051672525772 / 2 ^ 53) :=
      round_eq_pos 6369051672525772 53 (by norm_num) (by norm_num)
        (by norm_num at hm1e hpu ⊢; linarith) (by norm_num at hm1e hpu ⊢; linarith)
        (by norm_num at hm1e hpu ⊢; linarith) (by norm_num at hm1e hpu ⊢; linarith)
    rw [e, round_neg, h1]
    rfl
  have hq : F64.round ((-(6369051672525772 / 2 ^ 53) : ℚ) * -(6369051672525772 / 2 ^ 53)) =
      F64.fin (4503599627370495 / 2 ^ 53) :=
    round_eq_pos 9007199254740990 54 (by norm_num) (by norm_num) (by norm_num) (by norm_num)
      (by norm_num) (by norm_num)
  rw [qlo_ieee, add_fin, sub_fin, ha, hb, div_fin_sqrtTwo, hh, hc, hs, mul_fin, mul_fin, hm1,
    hm2, sub_fin, hrot, mul_fin, hq]

/-- The square root of two, scaled by `2^52`, to two decimals. -/
theorem sqrt_two_scaled :
    (636905167252577256 / 100 : ℝ) < Real.sqrt 2 * 2 ^ 52 ∧
    Real.sqrt 2 * 2 ^ 52 < 636905167252577257 / 100 := by
  have h1 : (636905167252577256 / 100 / 2 ^ 52 : ℝ) < Real.sqrt 2 := by
    apply Real.lt_sqrt_of_sq_lt
    norm_num
  have h2 : Real.sqrt 2 < 636905167252577257 / 100 / 2 ^ 52 := by
    rw [Real.sqrt_lt' (by norm_num)]
    norm_num
  have hp : (0 : ℝ) < 2 ^ 52 := by norm_num
  constructor
  · rw [div_lt_iff₀ hp] at h1
    exact h1
  · rw [lt_div_iff₀ hp] at h2
    exact h2

/-- The correctly rounded library at `M_PI / 4`: the cosine is
`6369051672525773 / 2^53` (`0.70710678118654757`) and the sine one unit in the
last place below, `6369051672525772 / 2^53` (`0.70710678118654746`). -/
theorem crLibm_at_quarter_mPi :
    crLibm.cos (F64.fin (F64.mPi / 4)) = F64.fin (6369051672525773 / 2 ^ 53) ∧
    crLibm.sin (F64.fin (F64.mPi / 4)) = F64.fin (6369051672525772 / 2 ^ 53) := by
  obtain ⟨hd1, hd2⟩ := pi_sub_mPi
  have hd0 : 0 < (Real.pi - F64.mPi) / 4 := by linarith
  have hd3 : (Real.pi - F64.mPi) / 4 ≤ 1 / 10 ^ 15 := by
    have : (12248 / 10 ^ 20 : ℝ) ≤ 1 / 10 ^ 15 := by norm_num
    linarith
  have e : ((F64.mPi / 4 : ℚ) : ℝ) = Real.pi / 4 - (Real.pi - F64.mPi) / 4 := by
    push_cast
    ring
  obtain ⟨hs1, hs2⟩ := sin_small hd0 hd3
  obtain ⟨hc1, hc2⟩ := cos_small hd0 hd3
  obtain ⟨hA1, hA2⟩ := sqrt_two_scaled
  have hA0 : (0 : ℝ) < Real.sqrt 2 * 2 ^ 52 := lt_trans (by norm_num) hA1
  have hq15 : (Real.pi - F64.mPi) / 4 / 10 ^ 15 ≤ 1 / 10 ^ 30 := by
    rw [div_le_iff₀ (by norm_num)]
    have : (12248 / 10 ^ 20 : ℝ) / 4 ≤ 1 / 10 ^ 30 * 10 ^ 15 := by norm_num
    linarith
  have hq30 : (Real.pi - F64.mPi) / 4 / 10 ^ 30 ≤ 1 / 10 ^ 30 := by
    rw [div_le_iff₀ (by norm_num)]
    have : (12248 / 10 ^ 20 : ℝ) / 4 ≤ 1 / 10 ^ 30 * 10 ^ 30 := by norm_num
    linarith
  constructor
  · -- the cosine: `√2 / 2 * (cos δ + sin δ)` with `δ = (π - M_PI) / 4`
    show F64.round (Real.cos ((F64.mPi / 4 : ℚ) : ℝ)) = _
    have hX : Real.cos ((F64.mPi / 4 : ℚ) : ℝ) * 2 ^ 53 =
        Real.sqrt 2 * 2 ^ 52 * (Real.cos ((Real.pi - F64.mPi) / 4) +
          Real.sin ((Real.pi - F64.mPi) / 4)) := by
      rw [e, Real.cos_sub, Real.cos_pi_div_four, Real.sin_pi_div_four]
      ring
    have hf1 : 1 ≤ Real.cos ((Real.pi - F64.mPi) / 4) + Real.sin ((Real.pi - F64.mPi) / 4) := by
      have : (Real.pi - F64.mPi) / 4 / 10 ^ 15 + (Real.pi - F64.mPi) / 4 / 10 ^ 30 ≤
          (Real.pi - F64.mPi) / 4 := by
        have : (Real.pi - F64.mPi) / 4 / 10 ^ 15 ≤ (Real.pi - F64.mPi) / 4 / 2 :=
          div_le_div_of_nonneg_left hd0.le (by norm_num) (by norm_num)
        have : (Real.pi - F64.mPi) / 4 / 10 ^ 30 ≤ (Real.pi - F64.mPi) / 4 / 2 :=
          div_le_div_of_nonneg_left hd0.le (by norm_num) (by norm_num)
        linarith
      linarith
    have hf2 : Real.cos ((Real.pi - F64.mPi) / 4) + Real.sin ((Real.pi - F64.mPi) / 4) ≤
        1 + 3062 / 10 ^ 20 := by linarith
    have hlo : (636905167252577256 / 100 : ℝ) <
        Real.cos ((F64.mPi / 4 : ℚ) : ℝ) * 2 ^ 53 := by
      rw [hX]
      calc (636905167252577256 / 100 : ℝ) < Real.sqrt 2 * 2 ^ 52 := hA1
        _ = Real.sqrt 2 * 2 ^ 52 * 1 := (mul_one _).symm
        _ ≤ _ := mul_le_mul_of_nonneg_left hf1 hA0.le
    have hhi : Real.cos ((F64.mPi / 4 : ℚ) : ℝ) * 2 ^ 53 < 636905167252577280 / 100 := by
      rw [hX]
      calc _ ≤ Real.sqrt 2 * 2 ^ 52 * (1 + 3062 / 10 ^ 20) :=
            mul_le_mul_of_nonneg_left hf2 hA0.le
        _ < 636905167252577257 / 100 * (1 + 3062 / 10 ^ 20) :=
            mul_lt_mul_of_pos_right hA2 (by norm_num)
        _ < 636905167252577280 / 100 := by norm_num
    have hpos : 0 < Real.cos ((F64.mPi / 4 : ℚ) : ℝ) := by
      by_contra hc
      have : Real.cos ((F64.mPi / 4 : ℚ) : ℝ) * 2 ^ 53 ≤ 0 :=
        mul_nonpos_of_nonpos_of_nonneg (not_lt.mp hc) (by norm_num)
      have : (0 : ℝ) < 636905167252577256 / 100 := by norm_num
      linarith
    exact round_near_div 6369051672525773 53 (by norm_num)
      (by rw [abs_of_pos hpos]; norm_num at hlo ⊢; linarith)
      (by rw [abs_of_pos hpos]; norm_num at hhi ⊢; linarith)
      (by
        rw [abs_lt]
        push_cast
        constructor
        · norm_num at hlo ⊢; linarith
        · norm_num at hhi ⊢; linarith)
  · -- the sine: `√2 / 2 * (cos δ - sin δ)`
    show F64.round (Real.sin ((F64.mPi / 4 : ℚ) : ℝ)) = _
    have hX : Real.sin ((F64.mPi / 4 : ℚ) : ℝ) * 2 ^ 53 =
        Real.sqrt 2 * 2 ^ 52 * (Real.cos ((Real.pi - F64.mPi) / 4) -
          Real.sin ((Real.pi - F64.mPi) / 4)) := by
      rw [e, Real.sin_sub, Real.cos_pi_div_four, Real.sin_pi_div_four]
      ring
    have hf1 : 1 - 307 / 10 ^ 19 ≤
        Real.cos ((Real.pi - F64.mPi) / 4) - Real.sin ((Real.pi - F64.mPi) / 4) := by
      have : (12248 / 10 ^ 20 : ℝ) / 4 + 1 / 10 ^ 30 ≤ 307 / 10 ^ 19 := by norm_num
      linarith
    have hf2 : Real.cos ((Real.pi - F64.mPi) / 4) - Real.sin ((Real.pi - F64.mPi) / 4) ≤
        1 - 3061 / 10 ^ 20 := by
      have : (3061 / 10 ^ 20 : ℝ) ≤ 12246 / 10 ^ 20 / 4 - 1 / 10 ^ 30 := by norm_num
      linarith
    have hf0 : (0 : ℝ) ≤
        Real.cos ((Real.pi - F64.mPi) / 4) - Real.sin ((Real.pi - F64.mPi) / 4) :=
      le_trans (by norm_num) hf1
    have hlo : (636905167252577230 / 100 : ℝ) <
        Real.sin ((F64.mPi / 4 : ℚ) : ℝ) * 2 ^ 53 := by
      rw [hX]
      calc (636905167252577230 / 100 : ℝ) < 636905167252577256 / 100 * (1 - 307 / 10 ^ 19) := by
            norm_num
        _ ≤ Real.sqrt 2 * 2 ^ 52 * (1 - 307 / 10 ^ 19) :=
            mul_le_mul_of_nonneg_right hA1.le (by norm_num)
        _ ≤ _ := mul_le_mul_of_nonneg_left hf1 hA0.le
    have hhi : Real.sin ((F64.mPi / 4 : ℚ) : ℝ) * 2 ^ 53 < 636905167252577240 / 100 := by
      rw [hX]
      calc _ ≤ Real.sqrt 2 * 2 ^ 52 * (1 - 3061 / 10 ^ 20) :=
            mul_le_mul_of_nonneg_left hf2 hA0.le
        _ < 636905167252577257 / 100 * (1 - 3061 / 10 ^ 20) :=
            mul_lt_mul_of_pos_right hA2 (by norm_num)
        _ < 636905167252577240 / 100 := by norm_num
    have hpos : 0 < Real.sin ((F64.mPi / 4 : ℚ) : ℝ) := by
      by_contra hc
      have : Real.sin ((F64.mPi / 4 : ℚ) : ℝ) * 2 ^ 53 ≤ 0 :=
        mul_nonpos_of_nonpos_of_nonneg (not_lt.mp hc) (by norm_num)
      have : (0 : ℝ) < 636905167252577230 / 100 := by norm_num
      linarith
    exact round_near_div 6369051672525772 53 (by norm_num)
      (by rw [abs_of_pos hpos]; norm_num at hlo ⊢; linarith)
      (by rw [abs_of_pos hpos]; norm_num at hhi ⊢; linarith)
      (by
        rw [abs_lt]
        push_cast
        constructor
        · norm_num at hlo ⊢; linarith
        · norm_num at hhi ⊢; linarith)

/-- On binary64 with the correctly rounded library, `(1.0, 0.0, M_PI / 4)` gives
`2^-106` (about `1.2e-32`): the rotated value is `2^-53`, not zero. -/
theorem qlo_at_quarter_mPi :
    quantum_like_operation (ieee crLibm) (F64.fin 1) (F64.fin 0) (F64.fin (F64.mPi / 4)) =
      F64.fin (1 / 2 ^ 106) := by
  obtain ⟨hc, hs⟩ := crLibm_at_quarter_mPi
  have ha : F64.round (1 + 0 : ℚ) = F64.fin (1) :=
    round_eq_pos 4503599627370496 52 (by norm_num) (by norm_num) (by norm_num) (by norm_num)
      (by norm_num) (by norm_num)
  have hb : F64.round (1 - 0 : ℚ) = F64.fin (1) :=
    round_eq_pos 4503599627370496 52 (by norm_num) (by norm_num) (by norm_num) (by norm_num)
      (by norm_num) (by norm_num)
  have hh : F64.round (1 / F64.sqrtTwo : ℚ) = F64.fin (6369051672525772 / 2 ^ 53) :=
    round_eq_pos 6369051672525772 53 (by norm_num) (by norm_num) (by norm_num [F64.sqrtTwo])
      (by norm_num [F64.sqrtTwo]) (by norm_num [F64.sqrtTwo]) (by norm_num [F64.sqrtTwo])
  have hm1 : F64.round ((6369051672525772 / 2 ^ 53 : ℚ) * (6369051672525773 / 2 ^ 53)) =
      F64.fin (1 / 2) :=
    round_eq_pos 9007199254740992 54 (by norm_num) (by norm_num) (by norm_num) (by norm_num)
      (by norm_num) (by norm_num)
  have hm2 : F64.round ((6369051672525772 / 2 ^ 53 : ℚ) * (6369051672525772 / 2 ^ 53)) =
      F64.fin (4503599627370495 / 2 ^ 53) :=
    round_eq_pos 9007199254740990 54 (by norm_num) (by norm_num) (by norm_num) (by norm_num)
      (by norm_num) (by norm_num)
  have hrot : F64.round (1 / 2 - 4503599627370495 / 2 ^ 53 : ℚ) = F64.fin (1 / 2 ^ 53) :=
    round_eq_pos 4503599627370496 105 (by norm_num) (by norm_num) (by norm_num) (by norm_num)
      (by norm_num) (by norm_num)
  have hq : F64.round ((1 / 2 ^ 53 : ℚ) * (1 / 2 ^ 53)) = F64.fin (1 / 2 ^ 106) :=
    round_eq_pos 4503599627370496 158 (by norm_num) (by norm_num) (by norm_num) (by norm_num)
      (by norm_num) (by norm_num)
  rw [qlo_ieee, add_fin, sub_fin, ha, hb, div_fin_sqrtTwo, hh, hc, hs, mul_fin, mul_fin, hm1,
    hm2, sub_fin, hrot, mul_fin, hq]

end NearPi

section Symmetries

/-- The correctly rounded library is symmetric. -/
theorem crLibm_symmetric : crLibm.Symmetric where
  cos_neg x := by
    cases x with
    | nan => rfl
    | inf s => rfl
    | fin v =>
      show F64.round (Real.cos ((-v : ℚ) : ℝ)) = F64.round (Real.cos (v : ℝ))
      rw [Rat.cast_neg, Real.cos_neg]
  sin_neg x := by
    cases x with
    | nan => rfl
    | inf s => rfl
    | fin v =>
      show F64.round (Real.sin ((-v : ℚ) : ℝ)) = F64.neg (F64.round (Real.sin (v : ℝ)))
      rw [Rat.cast_neg, Real.sin_neg, round_neg]

theorem sub_neg_neg (x y : F64) : F64.sub (F64.neg x) (F64.neg y) = F64.neg (F64.sub x y) := by
  unfold F64.sub
  rw [add_neg_neg]

/-- On binary64, over a symmetric library, swapping the two states is the same
as negating the phase, for all data (finite or not). -/
theorem qlo_swap (L : Libm) (hS : L.Symmetric) (a b p : F64) :
    quantum_like_operation (ieee L) b a p = quantum_like_operation (ieee L) a b (F64.neg p) := by
  rw [qlo_ieee, qlo_ieee, hS.cos_neg, hS.sin_neg, add_comm_f64 b a, sub_swap a b,
    div_neg_sqrtTwo, mul_neg_left, mul_neg_right]

/-- On binary64, over any library, negating both states leaves the result
unchanged, for all data (finite or not). -/
theorem qlo_neg_neg (L : Libm) (a b p : F64) :
    quantum_like_operation (ieee L) (F64.neg a) (F64.neg b) p =
      quantum_like_operation (ieee L) a b p := by
  rw [qlo_ieee, qlo_ieee, add_neg_neg, sub_neg_neg, div_neg_sqrtTwo, div_neg_sqrtTwo,
    mul_neg_left, mul_neg_left, sub_neg_neg, mul_neg_neg]

/-- On binary64 the two sides of `transform(a, b, phase) = transform(b, a, phase + π)`
differ at `(1.0, 0.0, 0.5)`, whichever finite number within `0.001` of `0.5 + π`
stands for `phase + π`: the left side is below `0.09`, the right side above
`0.91`. -/
theorem qlo_swap_pi_differs (L : Libm) (hL : L.Conforms) (p' : ℚ)
    (hp : |(p' : ℝ) - (1 / 2 + Real.pi)| ≤ 1 / 1000) :
    ∃ r1 r2 : ℚ,
      quantum_like_operation (ieee L) (F64.fin 1) (F64.fin 0) (F64.fin (1 / 2)) = F64.fin r1 ∧
      quantum_like_operation (ieee L) (F64.fin 0) (F64.fin 1) (F64.fin p') = F64.fin r2 ∧
      r1 < 9 / 100 ∧ 91 / 100 < r2 := by
  obtain ⟨r1, h1, e1⟩ := qlo_error L hL 1 0 (1 / 2) (by norm_num) (by norm_num)
  obtain ⟨r2, h2, e2⟩ := qlo_error L hL 0 1 p' (by norm_num) (by norm_num)
  rw [qlo_real_polar, abs_le] at e1 e2
  have hpi1 := Real.pi_gt_d2
  have hpi2 := Real.pi_lt_d2
  rw [abs_le] at hp
  -- the left side: `sin² (π/4 - 1/2)`
  have hq1 : (((1 : ℚ) : ℝ) * Real.sin (Real.pi / 4 - ((1 / 2 : ℚ) : ℝ)) +
      ((0 : ℚ) : ℝ) * Real.cos (Real.pi / 4 - ((1 / 2 : ℚ) : ℝ))) ^ 2 ≤ 83 / 1000 := by
    have e : (((1 : ℚ) : ℝ) * Real.sin (Real.pi / 4 - ((1 / 2 : ℚ) : ℝ)) +
        ((0 : ℚ) : ℝ) * Real.cos (Real.pi / 4 - ((1 / 2 : ℚ) : ℝ))) =
        Real.sin (Real.pi / 4 - 1 / 2) := by
      push_cast
      ring_nf
    rw [e]
    have h := Real.sin_sq_le_sq (x := Real.pi / 4 - 1 / 2)
    have hx0 : 0 ≤ Real.pi / 4 - 1 / 2 := by linarith
    have hx1 : Real.pi / 4 - 1 / 2 ≤ 2875 / 10000 := by linarith
    have : (Real.pi / 4 - 1 / 2) ^ 2 ≤ (2875 / 10000) ^ 2 := pow_le_pow_left₀ hx0 hx1 2
    norm_num at this ⊢
    linarith
  -- the right side: `cos² (π/4 - p')`, with `p'` near `1/2 + π`
  have hq2 : (915 / 1000 : ℝ) ≤ (((0 : ℚ) : ℝ) * Real.sin (Real.pi / 4 - (p' : ℝ)) +
      ((1 : ℚ) : ℝ) * Real.cos (Real.pi / 4 - (p' : ℝ))) ^ 2 := by
    have e : (((0 : ℚ) : ℝ) * Real.sin (Real.pi / 4 - (p' : ℝ)) +
        ((1 : ℚ) : ℝ) * Real.cos (Real.pi / 4 - (p' : ℝ))) =
        -Real.cos (Real.pi / 4 - (p' : ℝ) + Real.pi) := by
      rw [Real.cos_add_pi]
      push_cast
      ring
    rw [e, neg_sq, Real.cos_sq']
    have h := Real.sin_sq_le_sq (x := Real.pi / 4 - (p' : ℝ) + Real.pi)
    have hx0 : -(29 / 100) ≤ Real.pi / 4 - (p' : ℝ) + Real.pi := by
      norm_num at hpi1 hpi2
      linarith [hp.1, hp.2]
    have hx1 : Real.pi / 4 - (p' : ℝ) + Real.pi ≤ 29 / 100 := by
      norm_num at hpi1 hpi2
      linarith [hp.1, hp.2]
    have h2 : (Real.pi / 4 - (p' : ℝ) + Real.pi) ^ 2 ≤ (29 / 100) ^ 2 :=
      sq_le_sq' hx0 hx1
    have h3 : ((29 / 100 : ℝ)) ^ 2 ≤ 1 - 915 / 1000 := by norm_num
    linarith
  refine ⟨r1, r2, h1, h2, ?_, ?_⟩
  · have : (r1 : ℝ) < ((9 / 100 : ℚ) : ℝ) := by
      push_cast
      have : (83 / 1000 : ℝ) + 1 / 2 ^ 45 < 9 / 100 := by norm_num
      linarith [e1.2]
    exact_mod_cast this
  · have : ((91 / 100 : ℚ) : ℝ) < (r2 : ℝ) := by
      push_cast
      have : (91 / 100 : ℝ) < 915 / 1000 - 1 / 2 ^ 45 := by norm_num
      linarith [e2.1]
    exact_mod_cast this

end Symmetries

section ExactIdentities

theorem qlo_real_le_norm (a b p : ℝ) :
    quantum_like_operation realArith a b p ≤ a ^ 2 + b ^ 2 := by
  rw [qlo_real_polar]
  have h := Real.sin_sq_add_cos_sq (Real.pi / 4 - p)
  nlinarith [sq_nonneg (a * Real.cos (Real.pi / 4 - p) - b * Real.sin (Real.pi / 4 - p))]

theorem qlo_real_nonneg (a b p : ℝ) : 0 ≤ quantum_like_operation realArith a b p := by
  rw [qlo_real]
  exact sq_nonneg _

theorem qlo_real_quarter_turn (a b p : ℝ) :
    quantum_like_operation realArith a b p +
        quantum_like_operation realArith a b (p + Real.pi / 2) = a ^ 2 + b ^ 2 := by
  rw [qlo_real_closed, qlo_real_closed, Real.cos_add_pi_div_two, Real.sin_add_pi_div_two]
  have h := Real.sin_sq_add_cos_sq p
  linear_combination (a ^ 2 + b ^ 2) * h

theorem qlo_real_swap (a b p : ℝ) :
    quantum_like_operation realArith b a p = quantum_like_operation realArith a b (-p) := by
  rw [qlo_real_closed, qlo_real_closed, Real.cos_neg, Real.sin_neg]
  ring

theorem rotated_real_add_pi (a b p : ℝ) :
    rotated realArith a b (p + Real.pi) = -rotated realArith a b p := by
  rw [rotated_real, rotated_real, Real.cos_add_pi, Real.sin_add_pi]
  ring

theorem qlo_real_period (a b p : ℝ) :
    quantum_like_operation realArith a b (p + Real.pi) =
      quantum_like_operation realArith a b p := by
  rw [qlo_real_closed, qlo_real_closed, Real.cos_add_pi, Real.sin_add_pi]
  ring

theorem qlo_real_homogeneous (k a b p : ℝ) :
    quantum_like_operation realArith (k * a) (k * b) p =
      k ^ 2 * quantum_like_operation realArith a b p := by
  rw [qlo_real_closed, qlo_real_closed]
  ring

theorem qlo_real_neg_neg (a b p : ℝ) :
    quantum_like_operation realArith (-a) (-b) p = quantum_like_operation realArith a b p := by
  rw [qlo_real_closed, qlo_real_closed]
  ring

theorem qlo_real_pi_div_four (a b : ℝ) :
    quantum_like_operation realArith a b (Real.pi / 4) = b ^ 2 := by
  rw [qlo_real_polar]
  simp

/-- The binary64 `M_PI / 4` is within `4e-17` of `π/4`. -/
theorem quarter_mPi_near :
    |((F64.mPi / 4 : ℚ) : ℝ) - Real.pi / 4| ≤ 4 / 10 ^ 17 := by
  obtain ⟨h1, h2⟩ := pi_sub_mPi
  have e : ((F64.mPi / 4 : ℚ) : ℝ) - Real.pi / 4 = -((Real.pi - F64.mPi) / 4) := by
    push_cast
    ring
  rw [e, abs_neg, abs_of_pos (by linarith)]
  have : (12248 / 10 ^ 20 : ℝ) / 4 ≤ 4 / 10 ^ 17 := by norm_num
  linarith

end ExactIdentities

/-- The binary64 result at a finite phase `p` against the exact result at any
real phase `t`, for states of magnitude at most `2^k`: they differ by at most
`4^k * (2^-45 + 8 * |p - t|)`. -/
theorem qlo_phase_shift (L : Libm) (hL : L.Conforms) (k : ℕ) (hk : k ≤ 509) (a b p : ℚ)
    (ha : |a| ≤ 2 ^ k) (hb : |b| ≤ 2 ^ k) (t : ℝ) :
    ∃ r : ℚ, quantum_like_operation (ieee L) (F64.fin a) (F64.fin b) (F64.fin p) = F64.fin r ∧
      |(r : ℝ) - quantum_like_operation realArith a b t| ≤
        4 ^ k * (1 / 2 ^ 45 + 8 * |(p : ℝ) - t|) := by
  obtain ⟨r, hr, he⟩ := qlo_error_scaled L hL k hk a b p ha hb
  refine ⟨r, hr, ?_⟩
  have ha' : |(a : ℝ)| ≤ 2 ^ k := by
    have := cast_abs_le ha
    push_cast at this
    exact this
  have hb' : |(b : ℝ)| ≤ 2 ^ k := by
    have := cast_abs_le hb
    push_cast at this
    exact this
  have hl := qlo_real_lipschitz_scaled (a : ℝ) (b : ℝ) (p : ℝ) t (2 ^ k) ha' hb'
  have e4 : ((2 : ℝ) ^ k) ^ 2 = 4 ^ k := by
    rw [← pow_mul, mul_comm, pow_mul]
    norm_num
  rw [e4] at hl
  have tri : (r : ℝ) - quantum_like_operation realArith a b t =
      ((r : ℝ) - quantum_like_operation realArith a b p) +
        (quantum_like_operation realArith a b p - quantum_like_operation realArith a b t) := by
    ring
  rw [tri]
  have h2 := abs_add ((r : ℝ) - quantum_like_operation realArith a b p)
    (quantum_like_operation realArith a b p - quantum_like_operation realArith a b t)
  have e : (4 : ℝ) ^ k * (1 / 2 ^ 45 + 8 * |(p : ℝ) - t|) =
      4 ^ k / 2 ^ 45 + 8 * 4 ^ k * |(p : ℝ) - t| := by ring
  rw [e]
  linarith

/-- An infinite phase gives a NaN result, whatever the states: `cos` and `sin`
of an infinity are NaN. -/
theorem qlo_inf_phase (L : Libm) (hL : L.Conforms) (x y : F64) (sgn : Bool) :
    quantum_like_operation (ieee L) x y (F64.inf sgn) = F64.nan := by
  rw [qlo_ieee, hL.cos_inf, hL.sin_inf, mul_nan_right, mul_nan_right]
  rfl

/-! ## The claims -/

/-- C1, as stated, fails on binary64: at `(1.0, 0.0, 0.0)` the closed form
`((1 + 0) * cos 0 - (1 - 0) * sin 0)^2 / 2` is `1/2`, and the function returns
`0.5 - 2^-53` (`0.49999999999999989`). -/
theorem C1_counterexample :
    quantum_like_operation (ieee crLibm) (F64.fin 1) (F64.fin 0) (F64.fin 0) =
      F64.fin (4503599627370495 / 2 ^ 53) ∧
    (((1 : ℝ) + 0) * Real.cos 0 - ((1 : ℝ) - 0) * Real.sin 0) ^ 2 / 2 = 1 / 2 ∧
    ((4503599627370495 / 2 ^ 53 : ℚ) : ℝ) ≠ 1 / 2 := by
  refine ⟨qlo_one_zero_zero crLibm crLibm_conforms, by simp, by norm_num⟩

/-- C1, amended: in exact real arithmetic, for all `state1`, `state2`, `phase`,
with `h1 = (state1 + state2) / sqrt 2` and `h2 = (state1 - state2) / sqrt 2` the
function returns the square of `h1 * cos phase - h2 * sin phase`, which is
`((state1 + state2) * cos phase - (state1 - state2) * sin phase)^2 / 2`; on
binary64, where every operation is rounded, for a finite phase and states of
magnitude at most `2^k` with `k ≤ 509`, the result is finite and within
`4^k * 2^-45` of that closed form. -/
theorem C1_formula (L : Libm) (hL : L.Conforms) (k : ℕ) (hk : k ≤ 509)
    (state1 state2 phase : ℚ) (h1 : |state1| ≤ 2 ^ k) (h2 : |state2| ≤ 2 ^ k) :
    (∀ a b p : ℝ,
      h_state1 realArith a b = (a + b) / Real.sqrt 2 ∧
      h_state2 realArith a b = (a - b) / Real.sqrt 2 ∧
      quantum_like_operation realArith a b p =
        ((a + b) / Real.sqrt 2 * Real.cos p - (a - b) / Real.sqrt 2 * Real.sin p) *
          ((a + b) / Real.sqrt 2 * Real.cos p - (a - b) / Real.sqrt 2 * Real.sin p) ∧
      quantum_like_operation realArith a b p =
        ((a + b) * Real.cos p - (a - b) * Real.sin p) ^ 2 / 2) ∧
    ∃ r : ℚ,
      quantum_like_operation (ieee L) (F64.fin state1) (F64.fin state2) (F64.fin phase) =
        F64.fin r ∧
      |(r : ℝ) - (((state1 : ℝ) + state2) * Real.cos phase -
        ((state1 : ℝ) - state2) * Real.sin phase) ^ 2 / 2| ≤ 4 ^ k / 2 ^ 45 := by
  constructor
  · intro a b p
    refine ⟨h_state1_real a b, h_state2_real a b, ?_, qlo_real_closed a b p⟩
    rw [qlo_real]
    ring
  · obtain ⟨r, hr, he⟩ := qlo_error_scaled L hL k hk state1 state2 phase h1 h2
    rw [qlo_real_closed] at he
    exact ⟨r, hr, he⟩

/-- C1, amended, at the arguments `main` passes (`k = 0`), over the correctly
rounded library. -/
theorem C1_formula_witness :
    ∃ r : ℚ,
      quantum_like_operation (ieee crLibm) (F64.fin 1) (F64.fin 0)
        (F64.fin (3537115888337719 / 2 ^ 52)) = F64.fin r ∧
      |(r : ℝ) - ((((1 : ℚ) : ℝ) + ((0 : ℚ) : ℝ)) *
          Real.cos ((3537115888337719 / 2 ^ 52 : ℚ) : ℝ) -
        (((1 : ℚ) : ℝ) - ((0 : ℚ) : ℝ)) *
          Real.sin ((3537115888337719 / 2 ^ 52 : ℚ) : ℝ)) ^ 2 / 2| ≤ 4 ^ 0 / 2 ^ 45 :=
  (C1_formula crLibm crLibm_conforms 0 (by norm_num) 1 0 (3537115888337719 / 2 ^ 52)
    (by norm_num) (by norm_num)).2

/-- C2, as stated, fails on binary64: the inputs `DBL_MAX`, `-DBL_MAX` and `0.0`
are finite, and the result is NaN, for which `result >= 0` is false. -/
theorem C2_counterexample :
    F64.dblMax.isFinite = true ∧ (F64.neg F64.dblMax).isFinite = true ∧
    (F64.fin 0).isFinite = true ∧
    (quantum_like_operation (ieee crLibm) F64.dblMax (F64.neg F64.dblMax)
      (F64.fin 0)).nonneg = false := by
  refine ⟨rfl, rfl, rfl, ?_⟩
  rw [qlo_dblMax_nan crLibm crLibm_conforms]
  rfl

/-- C2, amended: in exact arithmetic the result is `>= 0` for all inputs; on
binary64 the result of any inputs is NaN or `>= 0`, and it is `>= 0` for all
finite inputs whose states have magnitude at most `2^1022` (then neither
`state1 + state2` nor `state1 - state2` overflows). -/
theorem C2_nonneg (L : Libm) (hL : L.Conforms) :
    (∀ a b p : ℝ, 0 ≤ quantum_like_operation realArith a b p) ∧
    (∀ x y p : F64, (quantum_like_operation (ieee L) x y p).isNaN = true ∨
      (quantum_like_operation (ieee L) x y p).nonneg = true) ∧
    (∀ v w p : ℚ, |v| ≤ 2 ^ 1022 → |w| ≤ 2 ^ 1022 →
      (quantum_like_operation (ieee L) (F64.fin v) (F64.fin w) (F64.fin p)).nonneg = true) := by
  refine ⟨?_, ?_, ?_⟩
  · intro a b p
    rw [qlo_real]
    exact sq_nonneg _
  · intro x y p
    rw [qlo_ieee]
    exact mul_self_nan_or_nonneg _
  · intro v w p hv hw
    have e : (2 : ℚ) ^ 1022 = 2 ^ (1022 : ℤ) := (zpow_ofNat 2 1022).symm
    rw [e] at hv hw
    obtain ⟨m1, m2, h1, h2, _, _⟩ :=
      products_finite L hL (k := 1022) (by norm_num) (by norm_num) v w p hv hw
    rw [qlo_ieee, h1, h2, sub_fin]
    exact mul_self_nonneg_of_ne_nan (round_ne_nan _)

/-- C2, amended, at the finite inputs `(1.0, 0.0, 0.0)` over the correctly rounded
library. -/
theorem C2_nonneg_witness :
    (quantum_like_operation (ieee crLibm) (F64.fin 1) (F64.fin 0) (F64.fin 0)).nonneg = true :=
  (C2_nonneg crLibm crLibm_conforms).2.2 1 0 0
    (by rw [abs_one]; exact one_le_pow₀ (by norm_num))
    (by rw [abs_zero]; exact (pow_pos (by norm_num) 1022).le)

/-- C3, as stated, fails on binary64: `π/4` is no binary64 number; at the
nearest one, `M_PI / 4`, the inputs `(1.0, 0.0, M_PI / 4)` give `2^-106`, not
`0.0` (the rotated value is `2^-53`, not zero). -/
theorem C3_counterexample :
    |((F64.mPi / 4 : ℚ) : ℝ) - Real.pi / 4| ≤ 4 / 10 ^ 17 ∧
    quantum_like_operation (ieee crLibm) (F64.fin 1) (F64.fin 0) (F64.fin (F64.mPi / 4)) =
      F64.fin (1 / 2 ^ 106) ∧
    (quantum_like_operation (ieee crLibm) (F64.fin 1) (F64.fin 0)
      (F64.fin (F64.mPi / 4))).isZero = false := by
  refine ⟨quarter_mPi_near, qlo_at_quarter_mPi, ?_⟩
  rw [qlo_at_quarter_mPi]
  simp [F64.isZero]

/-- C3, amended: in exact real arithmetic, at the phase `π/4` the function
returns exactly `b^2` for all `a`, `b`, and exactly `0` at `(1, 0, π/4)`; on
binary64, at the phase `M_PI / 4` and for states of magnitude at most `2^k` with
`k ≤ 509`, the result is finite and within `4^k * 2^-44` of `b^2` (not exactly
`b^2`). -/
theorem C3_phase_pi_div_four (L : Libm) (hL : L.Conforms) (k : ℕ) (hk : k ≤ 509) (a b : ℚ)
    (ha : |a| ≤ 2 ^ k) (hb : |b| ≤ 2 ^ k) :
    (∀ x y : ℝ, quantum_like_operation realArith x y (Real.pi / 4) = y ^ 2) ∧
    rotated realArith 1 0 (Real.pi / 4) = 0 ∧
    quantum_like_operation realArith 1 0 (Real.pi / 4) = 0 ∧
    ∃ r : ℚ,
      quantum_like_operation (ieee L) (F64.fin a) (F64.fin b) (F64.fin (F64.mPi / 4)) =
        F64.fin r ∧
      |(r : ℝ) - (b : ℝ) ^ 2| ≤ 4 ^ k / 2 ^ 44 := by
  refine ⟨qlo_real_pi_div_four, ?_, ?_, ?_⟩
  · rw [rotated_real_polar]; simp
  · rw [qlo_real_pi_div_four]; simp
  · obtain ⟨r, hr, he⟩ := qlo_phase_shift L hL k hk a b (F64.mPi / 4) ha hb (Real.pi / 4)
    refine ⟨r, hr, ?_⟩
    rw [qlo_real_pi_div_four] at he
    have hn := quarter_mPi_near
    have h4 : (0 : ℝ) < 4 ^ k := pow_pos (by norm_num) k
    have hb : (4 : ℝ) ^ k * (1 / 2 ^ 45 + 8 * |((F64.mPi / 4 : ℚ) : ℝ) - Real.pi / 4|) ≤
        4 ^ k * (1 / 2 ^ 44) := by
      apply mul_le_mul_of_nonneg_left _ h4.le
      have : (8 : ℝ) * (4 / 10 ^ 17) + 1 / 2 ^ 45 ≤ 1 / 2 ^ 44 := by norm_num
      linarith
    calc _ ≤ _ := he
      _ ≤ 4 ^ k * (1 / 2 ^ 44) := hb
      _ = 4 ^ k / 2 ^ 44 := by ring

/-- C3, amended, at `(1.0, 0.0, M_PI / 4)` (`k = 0`) over the correctly rounded
library. -/
theorem C3_phase_pi_div_four_witness :
    ∃ r : ℚ,
      quantum_like_operation (ieee crLibm) (F64.fin 1) (F64.fin 0) (F64.fin (F64.mPi / 4)) =
        F64.fin r ∧
      |(r : ℝ) - ((0 : ℚ) : ℝ) ^ 2| ≤ 4 ^ 0 / 2 ^ 44 :=
  (C3_phase_pi_div_four crLibm crLibm_conforms 0 (by norm_num) 1 0 (by norm_num)
    (by norm_num)).2.2.2

/-- C4, as stated, fails: the phase `main` passes is not `π/4`, and the value
returned is not zero, neither in exact arithmetic nor on binary64. -/
theorem C4_counterexample :
    main_phase realArith ≠ Real.pi / 4 ∧ main_result realArith ≠ 0 ∧
    (main_result (ieee crLibm)).isZero = false := by
  refine ⟨?_, ?_, ?_⟩
  · rw [main_phase_real]
    have := Real.pi_gt_d6
    intro h
    norm_num at this
    linarith
  · rw [main_result_real]
    have h := Real.sin_pos_of_pos_of_lt_pi main_gap_pos
      (by have := Real.pi_gt_three; linarith [main_gap_lt])
    exact pow_ne_zero 2 h.ne'
  · obtain ⟨r, hr, hr1, _⟩ := main_result_ieee crLibm crLibm_conforms
    rw [hr]
    have : 0 < r := lt_of_lt_of_le (by positivity) hr1
    simp [F64.isZero, this.ne']

/-- C4, amended: the call `main` makes passes the phase `3.14159/4 = 0.7853975`,
which is below `π/4`, and returns a positive value: `sin² ((π - 3.14159) / 4)` in
exact arithmetic; on binary64 the phase is `3537115888337719 / 2^52` and the
value returned is a finite number between `2^-46` and `2^-38`. -/
theorem C4_main_call (L : Libm) (hL : L.Conforms) :
    main_phase realArith = 314159 / 400000 ∧ main_phase realArith < Real.pi / 4 ∧
    main_result realArith = Real.sin ((Real.pi - 3.14159) / 4) ^ 2 ∧
    0 < main_result realArith ∧
    main_phase (ieee L) = F64.fin (3537115888337719 / 2 ^ 52) ∧
    ∃ r : ℚ, main_result (ieee L) = F64.fin r ∧ 1 / 2 ^ 46 ≤ r ∧ r ≤ 1 / 2 ^ 38 := by
  refine ⟨main_phase_real, ?_, main_result_real, ?_, main_phase_ieee L, main_result_ieee L hL⟩
  · rw [main_phase_real]
    have := Real.pi_gt_d6
    norm_num at this
    linarith
  · rw [main_result_real]
    have h := Real.sin_pos_of_pos_of_lt_pi main_gap_pos
      (by have := Real.pi_gt_three; linarith [main_gap_lt])
    positivity

/-- C4, amended, over the correctly rounded library. -/
theorem C4_main_call_witness :
    ∃ r : ℚ, main_result (ieee crLibm) = F64.fin r ∧ 1 / 2 ^ 46 ≤ r ∧ r ≤ 1 / 2 ^ 38 :=
  (C4_main_call crLibm crLibm_conforms).2.2.2.2.2

/-- C5: the value `main` prints is at least `0` and below `0.0000005`, so that
`%f` shows it as `0.000000` (zero millionths): in exact arithmetic, and on
binary64 over any conforming math library. -/
theorem C5_prints_zero (L : Libm) (hL : L.Conforms) :
    (0 ≤ main_result realArith ∧ main_result realArith < 0.0000005 ∧
      fixed6 (main_result realArith) = 0) ∧
    ∃ r : ℚ, main_result (ieee L) = F64.fin r ∧ 0 ≤ r ∧ r < 0.0000005 ∧ fixed6 r = 0 := by
  have hfix : ∀ {K : Type} [LinearOrderedField K] [FloorRing K] (r : K),
      0 ≤ r → r < 0.0000005 → fixed6 r = 0 := by
    intro K _ _ r h0 h1
    apply roundHalfEven_eq_of_near
    rw [Int.cast_zero, sub_zero, abs_of_nonneg (by positivity)]
    norm_num at h1 ⊢
    linarith
  have hreal : 0 ≤ main_result realArith ∧ main_result realArith < 0.0000005 := by
    rw [main_result_real]
    have h0 := main_gap_pos
    have h1 := main_gap_lt
    have hs0 : 0 ≤ Real.sin ((Real.pi - 3.14159) / 4) :=
      (Real.sin_pos_of_pos_of_lt_pi h0 (by have := Real.pi_gt_three; linarith)).le
    have hs1 : Real.sin ((Real.pi - 3.14159) / 4) ≤ 0.00000075 := (Real.sin_le h0.le).trans h1.le
    refine ⟨sq_nonneg _, ?_⟩
    calc Real.sin ((Real.pi - 3.14159) / 4) ^ 2 ≤ 0.00000075 ^ 2 :=
          pow_le_pow_left₀ hs0 hs1 2
      _ < 0.0000005 := by norm_num
  obtain ⟨r, hr, hr1, hr2⟩ := main_result_ieee L hL
  have hr0 : 0 ≤ r := le_trans (by positivity) hr1
  have hr5 : r < 0.0000005 := lt_of_le_of_lt hr2 (by norm_num)
  exact ⟨⟨hreal.1, hreal.2, hfix _ hreal.1 hreal.2⟩, r, hr, hr0, hr5, hfix r hr0 hr5⟩

/-- C5 over the correctly rounded library. -/
theorem C5_prints_zero_witness :
    ∃ r : ℚ, main_result (ieee crLibm) = F64.fin r ∧ 0 ≤ r ∧ r < 0.0000005 ∧ fixed6 r = 0 :=
  (C5_prints_zero crLibm crLibm_conforms).2

/-- C6, as stated, fails on binary64: at `(2.0, 2.0, 0.0)`, where
`(a + b)^2 / 2` is `8`, the function returns `8 - 2^-49`
(`7.9999999999999982`). -/
theorem C6_counterexample :
    quantum_like_operation (ieee crLibm) (F64.fin 2) (F64.fin 2) (F64.fin 0) =
      F64.fin (4503599627370495 / 2 ^ 49) ∧
    ((2 : ℚ) + 2) ^ 2 / 2 = 8 ∧ (4503599627370495 / 2 ^ 49 : ℚ) ≠ 8 := by
  refine ⟨qlo_two_two_zero crLibm crLibm_conforms, by norm_num, by norm_num⟩

/-- C6, amended: in exact real arithmetic, at phase `0` the function returns
`(a + b)^2 / 2` and the rotated value is `h1`; at `(1, 0, 0)` the rotated value
is `1 / sqrt 2` and the result `0.5`; at `(2, 2, 0)`, `h1 = 4 / sqrt 2`, `h2 = 0`
and the result is `8`.  On binary64, at phase `0.0` and for states of magnitude
at most `2^k` with `k ≤ 509`, the result is finite and within `4^k * 2^-45` of
`(a + b)^2 / 2`; it is `0.5 - 2^-53` at `(1.0, 0.0, 0.0)` and `8 - 2^-49` at
`(2.0, 2.0, 0.0)`. -/
theorem C6_phase_zero (L : Libm) (hL : L.Conforms) (k : ℕ) (hk : k ≤ 509) (a b : ℚ)
    (ha : |a| ≤ 2 ^ k) (hb : |b| ≤ 2 ^ k) :
    (∀ x y : ℝ, quantum_like_operation realArith x y 0 = (x + y) ^ 2 / 2 ∧
      rotated realArith x y 0 = h_state1 realArith x y) ∧
    rotated realArith 1 0 0 = 1 / Real.sqrt 2 ∧
    quantum_like_operation realArith 1 0 0 = 0.5 ∧
    h_state1 realArith 2 2 = 4 / Real.sqrt 2 ∧
    h_state2 realArith 2 2 = 0 ∧
    quantum_like_operation realArith 2 2 0 = 8 ∧
    (∃ r : ℚ,
      quantum_like_operation (ieee L) (F64.fin a) (F64.fin b) (F64.fin 0) = F64.fin r ∧
      |(r : ℝ) - ((a : ℝ) + b) ^ 2 / 2| ≤ 4 ^ k / 2 ^ 45) ∧
    quantum_like_operation (ieee L) (F64.fin 1) (F64.fin 0) (F64.fin 0) =
      F64.fin (4503599627370495 / 2 ^ 53) ∧
    quantum_like_operation (ieee L) (F64.fin 2) (F64.fin 2) (F64.fin 0) =
      F64.fin (4503599627370495 / 2 ^ 49) := by
  refine ⟨?_, ?_, ?_, ?_, ?_, ?_, ?_, qlo_one_zero_zero L hL, qlo_two_two_zero L hL⟩
  · intro x y
    constructor
    · rw [qlo_real_closed]; simp
    · rw [rotated_real, h_state1_real]; simp
  · rw [rotated_real]; simp
  · rw [qlo_real_closed]; norm_num
  · rw [h_state1_real]; norm_num
  · rw [h_state2_real]; simp
  · rw [qlo_real_closed]; norm_num
  · obtain ⟨r, hr, he⟩ := qlo_error_scaled L hL k hk a b 0 ha hb
    refine ⟨r, hr, ?_⟩
    rw [qlo_real_closed] at he
    simpa using he

/-- C6, amended, at `(2.0, 2.0, 0.0)` (`k = 1`) over the correctly rounded
library. -/
theorem C6_phase_zero_witness :
    ∃ r : ℚ,
      quantum_like_operation (ieee crLibm) (F64.fin 2) (F64.fin 2) (F64.fin 0) = F64.fin r ∧
      |(r : ℝ) - (((2 : ℚ) : ℝ) + ((2 : ℚ) : ℝ)) ^ 2 / 2| ≤ 4 ^ 1 / 2 ^ 45 :=
  (C6_phase_zero crLibm crLibm_conforms 1 (by norm_num) 2 2 (by norm_num)
    (by norm_num)).2.2.2.2.2.2.1

/-- C7, as stated, fails on binary64: a NaN is a phase value, and
`(0.0, 0.0, NaN)` gives NaN, not `0.0`. -/
theorem C7_counterexample :
    quantum_like_operation (ieee crLibm) (F64.fin 0) (F64.fin 0) F64.nan = F64.nan ∧
    (quantum_like_operation (ieee crLibm) (F64.fin 0) (F64.fin 0) F64.nan).isZero = false := by
  have h := qlo_nan_phase crLibm crLibm_conforms (F64.fin 0) (F64.fin 0)
  refine ⟨h, ?_⟩
  rw [h]
  rfl

/-- C7, amended: with both states zero the result is zero for every finite
phase: for every real phase in exact arithmetic (where `h1 = h2 = 0` and
`rotated = 0`), and for every finite phase on binary64; for a NaN or an infinite
phase the result is NaN. -/
theorem C7_zero_states (L : Libm) (hL : L.Conforms) :
    (∀ phase : ℝ, h_state1 realArith 0 0 = 0 ∧ h_state2 realArith 0 0 = 0 ∧
      rotated realArith 0 0 phase = 0 ∧ quantum_like_operation realArith 0 0 phase = 0) ∧
    (∀ p : ℚ,
      quantum_like_operation (ieee L) (F64.fin 0) (F64.fin 0) (F64.fin p) = F64.fin 0) ∧
    quantum_like_operation (ieee L) (F64.fin 0) (F64.fin 0) F64.nan = F64.nan ∧
    (∀ sgn : Bool,
      quantum_like_operation (ieee L) (F64.fin 0) (F64.fin 0) (F64.inf sgn) = F64.nan) := by
  refine ⟨?_, qlo_zero_zero L hL, qlo_nan_phase L hL _ _, qlo_inf_phase L hL _ _⟩
  intro phase
  refine ⟨?_, ?_, ?_, ?_⟩
  · rw [h_state1_real]; simp
  · rw [h_state2_real]; simp
  · rw [rotated_real]; simp
  · rw [qlo_real]; simp

/-- C7, amended, at the phase `main` passes, over the correctly rounded library. -/
theorem C7_zero_states_witness :
    quantum_like_operation (ieee crLibm) (F64.fin 0) (F64.fin 0)
        (F64.fin (3537115888337719 / 2 ^ 52)) = F64.fin 0 :=
  (C7_zero_states crLibm crLibm_conforms).2.1 (3537115888337719 / 2 ^ 52)

/-- C8: the two sides of `transform(a, b, phase) = transform(b, a, phase + π)`
differ: in exact real arithmetic at `(1, 0, π/4)` (`0` against `1`), and on
binary64 at `(1.0, 0.0, 0.5)`, whichever finite number within `0.001` of
`0.5 + π` is passed for `phase + π`. -/
theorem C8_no_swap_pi_symmetry (L : Libm) (hL : L.Conforms) (p' : ℚ)
    (hp : |(p' : ℝ) - (1 / 2 + Real.pi)| ≤ 1 / 1000) :
    (∃ a b phase : ℝ,
      quantum_like_operation realArith a b phase ≠
        quantum_like_operation realArith b a (phase + Real.pi)) ∧
    quantum_like_operation (ieee L) (F64.fin 1) (F64.fin 0) (F64.fin (1 / 2)) ≠
      quantum_like_operation (ieee L) (F64.fin 0) (F64.fin 1) (F64.fin p') := by
  constructor
  · refine ⟨1, 0, Real.pi / 4, ?_⟩
    have h1 : quantum_like_operation realArith 1 0 (Real.pi / 4) = 0 := by
      rw [qlo_real_polar]; simp
    have h2 : quantum_like_operation realArith 0 1 (Real.pi / 4 + Real.pi) = 1 := by
      rw [qlo_real_polar]
      have : Real.pi / 4 - (Real.pi / 4 + Real.pi) = -Real.pi := by ring
      rw [this]
      simp
    rw [h1, h2]
    norm_num
  · obtain ⟨r1, r2, h1, h2, hlt, hgt⟩ := qlo_swap_pi_differs L hL p' hp
    rw [h1, h2]
    intro h
    cases h
    linarith

/-- C8 on binary64 over the correctly rounded library, at `(1.0, 0.0, 0.5)` with
`0.5 + M_PI` (an exact binary64 sum) passed for `phase + π`. -/
theorem C8_no_swap_pi_symmetry_witness :
    quantum_like_operation (ieee crLibm) (F64.fin 1) (F64.fin 0) (F64.fin (1 / 2)) ≠
      quantum_like_operation (ieee crLibm) (F64.fin 0) (F64.fin 1)
        (F64.fin (1 / 2 + F64.mPi)) :=
  (C8_no_swap_pi_symmetry crLibm crLibm_conforms (1 / 2 + F64.mPi) (by
    obtain ⟨h1, h2⟩ := pi_sub_mPi
    have e : ((1 / 2 + F64.mPi : ℚ) : ℝ) - (1 / 2 + Real.pi) = -(Real.pi - F64.mPi) := by
      push_cast
      ring
    rw [e, abs_neg, abs_of_pos (by linarith)]
    norm_num at h2 ⊢
    linarith)).2

/-- C9, as stated, fails on binary64: `2^600`, `0.0` and `0.0` are finite, and
the result is `+inf` (the square of a rotated value near `2^599.5` overflows). -/
theorem C9_counterexample :
    (F64.fin (2 ^ 600)).isFinite = true ∧ (F64.fin 0).isFinite = true ∧
    (quantum_like_operation (ieee crLibm) (F64.fin (2 ^ 600)) (F64.fin 0)
      (F64.fin 0)).isFinite = false := by
  refine ⟨rfl, rfl, ?_⟩
  rw [qlo_two_pow_600 crLibm crLibm_conforms]
  rfl

/-- C9, amended: on binary64 the result is finite whenever the phase is finite
and both states are finite of magnitude at most `2^509`. -/
theorem C9_finite_of_bounded (L : Libm) (hL : L.Conforms) (v w p : ℚ)
    (hv : |v| ≤ 2 ^ 509) (hw : |w| ≤ 2 ^ 509) :
    (quantum_like_operation (ieee L) (F64.fin v) (F64.fin w) (F64.fin p)).isFinite = true := by
  have e : (2 : ℚ) ^ 509 = 2 ^ (509 : ℤ) := (zpow_ofNat 2 509).symm
  rw [e] at hv hw
  obtain ⟨m1, m2, h1, h2, hm1, hm2⟩ :=
    products_finite L hL (k := 509) (by norm_num) (by norm_num) v w p hv hw
  have e511 : (2 : ℚ) ^ (511 : ℤ) = 2 ^ ((509 : ℤ) + 1) + 2 ^ ((509 : ℤ) + 1) := by
    rw [show (511 : ℤ) = (509 + 1) + 1 from rfl, zpow_add₀ (by norm_num : (2 : ℚ) ≠ 0) (509 + 1) 1,
      zpow_one]
    ring
  have hd : |m1 - m2| ≤ 2 ^ (511 : ℤ) := by
    rw [e511]
    exact (abs_sub m1 m2).trans (add_le_add hm1 hm2)
  obtain ⟨r, hr, hr1, _⟩ := round_of_abs_le (by norm_num) (by norm_num) hd
  have hsq : |r * r| ≤ 2 ^ (1022 : ℤ) := by
    rw [abs_mul, show (1022 : ℤ) = 511 + 511 from rfl, zpow_add₀ (by norm_num : (2 : ℚ) ≠ 0)]
    exact mul_le_mul hr1 hr1 (abs_nonneg r) (two_zpow_pos _).le
  obtain ⟨q, hq, _, _⟩ := round_of_abs_le (by norm_num) (by norm_num) hsq
  rw [qlo_ieee, h1, h2, sub_fin, hr, mul_fin, hq]
  rfl

/-- C9, amended, at scenario 4 of the specification, `(2.0, 2.0, 0.0)`, over the
correctly rounded library. -/
theorem C9_finite_of_bounded_witness :
    (quantum_like_operation (ieee crLibm) (F64.fin 2) (F64.fin 2) (F64.fin 0)).isFinite = true :=
  C9_finite_of_bounded crLibm crLibm_conforms 2 2 0
    (by rw [abs_two]; exact le_self_pow₀ (by norm_num) (by norm_num))
    (by rw [abs_two]; exact le_self_pow₀ (by norm_num) (by norm_num))

/-- C10, as stated, fails on binary64: with `state1 = +inf`, the finite
`state2 = 0.0` and the finite `phase = 0.0`, the result is NaN, not infinity
(`sin(0.0)` is `0` and `inf * 0` is NaN). -/
theorem C10_counterexample :
    quantum_like_operation (ieee crLibm) (F64.inf false) (F64.fin 0) (F64.fin 0) = F64.nan := by
  obtain ⟨c, s, hc, hs, h⟩ := qlo_inf_state1 crLibm crLibm_conforms false 0 0
  rw [crLibm_conforms.sin_zero] at hs
  cases hs
  rw [h, mul_zero, if_neg (lt_irrefl 0)]

/-- C10, amended: on binary64, for an infinite `state1` of either sign, every
finite `state2` and every finite phase, the result is `+inf` when the cosine
and the sine of the phase that the library returns are of opposite signs, and
NaN otherwise (when they have the same sign, or one is zero). -/
theorem C10_infinite_state1 (L : Libm) (hL : L.Conforms) (sgn : Bool) (state2 phase : ℚ) :
    ∃ c s : ℚ, L.cos (F64.fin phase) = F64.fin c ∧ L.sin (F64.fin phase) = F64.fin s ∧
      (c * s < 0 →
        quantum_like_operation (ieee L) (F64.inf sgn) (F64.fin state2) (F64.fin phase) =
          F64.inf false) ∧
      (¬ c * s < 0 →
        quantum_like_operation (ieee L) (F64.inf sgn) (F64.fin state2) (F64.fin phase) =
          F64.nan) := by
  obtain ⟨c, s, hc, hs, h⟩ := qlo_inf_state1 L hL sgn state2 phase
  refine ⟨c, s, hc, hs, ?_, ?_⟩
  · intro hlt
    rw [h, if_pos hlt]
  · intro hnlt
    rw [h, if_neg hnlt]

/-- C10, amended, at `state1 = +inf`, `state2 = 0.0`, `phase = -0.5`, where the
cosine is positive and the sine negative: the result is `+inf`. -/
theorem C10_infinite_state1_witness :
    quantum_like_operation (ieee crLibm) (F64.inf false) (F64.fin 0) (F64.fin (-1 / 2)) =
      F64.inf false := by
  obtain ⟨c, s, hc, hs, h, _⟩ := C10_infinite_state1 crLibm crLibm_conforms false 0 (-1 / 2)
  obtain ⟨c', s', hc', hs', hpos, hneg⟩ := crLibm_signs_neg_half
  rw [hc] at hc'
  rw [hs] at hs'
  cases hc'
  cases hs'
  exact h (mul_neg_of_pos_of_neg hpos hneg)

/-- C11: on binary64, if any of the three inputs is not finite (an infinity or
NaN), the result is not finite; and a NaN phase gives a NaN result for every
`state1` and `state2`. -/
theorem C11_nonfinite_propagates (L : Libm) (hL : L.Conforms) :
    (∀ x y p : F64, ¬ (x.isFinite = true ∧ y.isFinite = true ∧ p.isFinite = true) →
      (quantum_like_operation (ieee L) x y p).isFinite = false) ∧
    (∀ x y : F64, quantum_like_operation (ieee L) x y F64.nan = F64.nan) := by
  refine ⟨?_, qlo_nan_phase L hL⟩
  intro x y p hnot
  cases hfin : (quantum_like_operation (ieee L) x y p).isFinite with
  | false => rfl
  | true => exact absurd (isFinite_of_qlo L hL hfin) hnot

/-- C11 over the correctly rounded library: an infinite `state2` with finite
`state1` and phase gives a result that is not finite, and `(1.0, 0.0, NaN)`
gives NaN. -/
theorem C11_nonfinite_propagates_witness :
    (quantum_like_operation (ieee crLibm) (F64.fin 1) (F64.inf true) (F64.fin 0)).isFinite =
      false ∧
    quantum_like_operation (ieee crLibm) (F64.fin 1) (F64.fin 0) F64.nan = F64.nan :=
  ⟨(C11_nonfinite_propagates crLibm crLibm_conforms).1 _ _ _ (by simp [F64.isFinite]),
    (C11_nonfinite_propagates crLibm crLibm_conforms).2 _ _⟩

/-- C13, as stated, fails on binary64: with both states `a = 0x1.afb07b98c02fcp-1`
and the phase `0.0` the result is `1.4217813562740198`, above `a^2 + a^2`. -/
theorem C13_counterexample :
    quantum_like_operation (ieee crLibm) (F64.fin (1898589997695167 / 2 ^ 51))
        (F64.fin (1898589997695167 / 2 ^ 51)) (F64.fin 0) =
      F64.fin (3201566993158997 / 2 ^ 51) ∧
    (1898589997695167 / 2 ^ 51 : ℚ) ^ 2 + (1898589997695167 / 2 ^ 51 : ℚ) ^ 2 <
      3201566993158997 / 2 ^ 51 := by
  refine ⟨qlo_above_norm crLibm crLibm_conforms, by norm_num⟩

/-- C13, amended: in exact real arithmetic, for all `state1`, `state2`, `phase`,
the result is at most `state1^2 + state2^2`, so for a pair of unit norm it lies
between `0` and `1`; on binary64, for a finite phase and states of magnitude at
most `2^k` with `k ≤ 509`, the result is finite and at most
`state1^2 + state2^2 + 4^k * 2^-45`. -/
theorem C13_bounded_by_norm (L : Libm) (hL : L.Conforms) (k : ℕ) (hk : k ≤ 509)
    (state1 state2 phase : ℚ) (h1 : |state1| ≤ 2 ^ k) (h2 : |state2| ≤ 2 ^ k) :
    (∀ a b p : ℝ, quantum_like_operation realArith a b p ≤ a ^ 2 + b ^ 2 ∧
      (a ^ 2 + b ^ 2 = 1 →
        0 ≤ quantum_like_operation realArith a b p ∧
          quantum_like_operation realArith a b p ≤ 1)) ∧
    ∃ r : ℚ,
      quantum_like_operation (ieee L) (F64.fin state1) (F64.fin state2) (F64.fin phase) =
        F64.fin r ∧
      (r : ℝ) ≤ (state1 : ℝ) ^ 2 + (state2 : ℝ) ^ 2 + 4 ^ k / 2 ^ 45 := by
  constructor
  · intro a b p
    exact ⟨qlo_real_le_norm a b p, fun h => ⟨qlo_real_nonneg a b p, h ▸ qlo_real_le_norm a b p⟩⟩
  · obtain ⟨r, hr, he⟩ := qlo_error_scaled L hL k hk state1 state2 phase h1 h2
    refine ⟨r, hr, ?_⟩
    have hn := qlo_real_le_norm (state1 : ℝ) (state2 : ℝ) (phase : ℝ)
    have := (abs_le.mp he).2
    linarith

/-- C13, amended, at the unit-norm pair `(1.0, 0.0)` and the phase `0.5`
(`k = 0`), over the correctly rounded library. -/
theorem C13_bounded_by_norm_witness :
    ∃ r : ℚ,
      quantum_like_operation (ieee crLibm) (F64.fin 1) (F64.fin 0) (F64.fin (1 / 2)) =
        F64.fin r ∧
      (r : ℝ) ≤ ((1 : ℚ) : ℝ) ^ 2 + ((0 : ℚ) : ℝ) ^ 2 + 4 ^ 0 / 2 ^ 45 :=
  (C13_bounded_by_norm crLibm crLibm_conforms 0 (by norm_num) 1 0 (1 / 2) (by norm_num)
    (by norm_num)).2

/-- C14, as stated, fails on binary64: at `(1.0, 0.0)` the results at the phases
`0.0` and `M_PI / 2` (the binary64 number nearest `π/2`) are both `0.5 - 2^-53`,
and their sum is not `1^2 + 0^2`. -/
theorem C14_counterexample :
    |((F64.mPi / 2 : ℚ) : ℝ) - (((0 : ℚ) : ℝ) + Real.pi / 2)| ≤ 1 / 10 ^ 16 ∧
    quantum_like_operation (ieee crLibm) (F64.fin 1) (F64.fin 0) (F64.fin 0) =
      F64.fin (4503599627370495 / 2 ^ 53) ∧
    quantum_like_operation (ieee crLibm) (F64.fin 1) (F64.fin 0) (F64.fin (F64.mPi / 2)) =
      F64.fin (4503599627370495 / 2 ^ 53) ∧
    (4503599627370495 / 2 ^ 53 + 4503599627370495 / 2 ^ 53 : ℚ) ≠ 1 ^ 2 + 0 ^ 2 := by
  refine ⟨?_, qlo_one_zero_zero crLibm crLibm_conforms, qlo_at_half_mPi, by norm_num⟩
  obtain ⟨h1, h2⟩ := pi_sub_mPi
  have e : ((F64.mPi / 2 : ℚ) : ℝ) - (((0 : ℚ) : ℝ) + Real.pi / 2) =
      -((Real.pi - F64.mPi) / 2) := by
    push_cast
    ring
  rw [e, abs_neg, abs_of_pos (by linarith)]
  norm_num at h2 ⊢
  linarith

/-- C14, amended: in exact real arithmetic, for all `a`, `b`, `phase`, the results
at `phase` and at `phase + π/2` sum to `a^2 + b^2`; on binary64, for states of
magnitude at most `2^k` with `k ≤ 509` and finite phases `p`, `q`, both results
are finite and their exact sum is within `4^k * (2^-44 + 8 * |q - (p + π/2)|)`
of `a^2 + b^2`. -/
theorem C14_quarter_turn_sum (L : Libm) (hL : L.Conforms) (k : ℕ) (hk : k ≤ 509)
    (a b p q : ℚ) (ha : |a| ≤ 2 ^ k) (hb : |b| ≤ 2 ^ k) :
    (∀ x y phase : ℝ,
      quantum_like_operation realArith x y phase +
          quantum_like_operation realArith x y (phase + Real.pi / 2) = x ^ 2 + y ^ 2) ∧
    ∃ r s : ℚ,
      quantum_like_operation (ieee L) (F64.fin a) (F64.fin b) (F64.fin p) = F64.fin r ∧
      quantum_like_operation (ieee L) (F64.fin a) (F64.fin b) (F64.fin q) = F64.fin s ∧
      |(r : ℝ) + s - ((a : ℝ) ^ 2 + (b : ℝ) ^ 2)| ≤
        4 ^ k * (1 / 2 ^ 44 + 8 * |(q : ℝ) - ((p : ℝ) + Real.pi / 2)|) := by
  refine ⟨qlo_real_quarter_turn, ?_⟩
  obtain ⟨r, hr, her⟩ := qlo_error_scaled L hL k hk a b p ha hb
  obtain ⟨s, hs, hes⟩ := qlo_phase_shift L hL k hk a b q ha hb ((p : ℝ) + Real.pi / 2)
  refine ⟨r, s, hr, hs, ?_⟩
  have hq := qlo_real_quarter_turn (a : ℝ) (b : ℝ) (p : ℝ)
  have tri : (r : ℝ) + s - ((a : ℝ) ^ 2 + (b : ℝ) ^ 2) =
      ((r : ℝ) - quantum_like_operation realArith a b p) +
        ((s : ℝ) - quantum_like_operation realArith a b ((p : ℝ) + Real.pi / 2)) := by
    rw [← hq]
    ring
  rw [tri]
  have h2 := abs_add ((r : ℝ) - quantum_like_operation realArith a b p)
    ((s : ℝ) - quantum_like_operation realArith a b ((p : ℝ) + Real.pi / 2))
  have e : (4 : ℝ) ^ k * (1 / 2 ^ 44 + 8 * |(q : ℝ) - ((p : ℝ) + Real.pi / 2)|) =
      4 ^ k / 2 ^ 45 + 4 ^ k * (1 / 2 ^ 45 + 8 * |(q : ℝ) - ((p : ℝ) + Real.pi / 2)|) := by
    ring
  rw [e]
  linarith

/-- C14, amended, at `(1.0, 0.0)` and the phases `0.0` and `M_PI / 2` (`k = 0`),
over the correctly rounded library. -/
theorem C14_quarter_turn_sum_witness :
    ∃ r s : ℚ,
      quantum_like_operation (ieee crLibm) (F64.fin 1) (F64.fin 0) (F64.fin 0) = F64.fin r ∧
      quantum_like_operation (ieee crLibm) (F64.fin 1) (F64.fin 0) (F64.fin (F64.mPi / 2)) =
        F64.fin s ∧
      |(r : ℝ) + s - (((1 : ℚ) : ℝ) ^ 2 + ((0 : ℚ) : ℝ) ^ 2)| ≤
        4 ^ 0 * (1 / 2 ^ 44 +
          8 * |((F64.mPi / 2 : ℚ) : ℝ) - (((0 : ℚ) : ℝ) + Real.pi / 2)|) :=
  (C14_quarter_turn_sum crLibm crLibm_conforms 0 (by norm_num) 1 0 0 (F64.mPi / 2)
    (by norm_num) (by norm_num)).2

/-- C15: swapping the two states is the same as negating the phase: for all real
`a`, `b`, `phase` in exact arithmetic, and bit for bit on binary64 for all
arguments (infinities and NaN included) whenever the library `cos` is even and
the library `sin` is odd. -/
theorem C15_swap_is_negated_phase (L : Libm) (hS : L.Symmetric) :
    (∀ a b phase : ℝ,
      quantum_like_operation realArith b a phase =
        quantum_like_operation realArith a b (-phase)) ∧
    ∀ a b phase : F64,
      quantum_like_operation (ieee L) b a phase =
        quantum_like_operation (ieee L) a b (F64.neg phase) :=
  ⟨qlo_real_swap, qlo_swap L hS⟩

/-- C15 on binary64 over the correctly rounded library, whose `cos` is even and
whose `sin` is odd, at `(1.0, 0.0)` and the phase `main` passes. -/
theorem C15_swap_is_negated_phase_witness :
    quantum_like_operation (ieee crLibm) (F64.fin 0) (F64.fin 1)
        (F64.fin (3537115888337719 / 2 ^ 52)) =
      quantum_like_operation (ieee crLibm) (F64.fin 1) (F64.fin 0)
        (F64.neg (F64.fin (3537115888337719 / 2 ^ 52))) :=
  (C15_swap_is_negated_phase crLibm crLibm_symmetric).2 _ _ _

/-- C16, as stated, fails on binary64: at `(1.0, 0.0)` the result at the phase
`0.0` is `0.5 - 2^-53` and the result at `M_PI` (the binary64 number nearest
`0 + π`) is `0.5 + 2^-53`. -/
theorem C16_counterexample :
    |((F64.mPi : ℚ) : ℝ) - (((0 : ℚ) : ℝ) + Real.pi)| ≤ 2 / 10 ^ 16 ∧
    quantum_like_operation (ieee crLibm) (F64.fin 1) (F64.fin 0) (F64.fin 0) =
      F64.fin (4503599627370495 / 2 ^ 53) ∧
    quantum_like_operation (ieee crLibm) (F64.fin 1) (F64.fin 0) (F64.fin F64.mPi) =
      F64.fin (4503599627370497 / 2 ^ 53) ∧
    (4503599627370497 / 2 ^ 53 : ℚ) ≠ 4503599627370495 / 2 ^ 53 := by
  refine ⟨?_, qlo_one_zero_zero crLibm crLibm_conforms, qlo_at_mPi, by norm_num⟩
  obtain ⟨h1, h2⟩ := pi_sub_mPi
  have e : ((F64.mPi : ℚ) : ℝ) - (((0 : ℚ) : ℝ) + Real.pi) = -(Real.pi - F64.mPi) := by
    push_cast
    ring
  rw [e, abs_neg, abs_of_pos (by linarith)]
  norm_num at h2 ⊢
  linarith

/-- C16, amended: in exact real arithmetic, for all `a`, `b`, `phase`, the rotated
value at `phase + π` is the opposite of the one at `phase` and the result is the
same; on binary64, for states of magnitude at most `2^k` with `k ≤ 509` and
finite phases `p`, `q`, both results are finite and differ by at most
`4^k * (2^-44 + 8 * |q - (p + π)|)`. -/
theorem C16_period_pi (L : Libm) (hL : L.Conforms) (k : ℕ) (hk : k ≤ 509) (a b p q : ℚ)
    (ha : |a| ≤ 2 ^ k) (hb : |b| ≤ 2 ^ k) :
    (∀ x y phase : ℝ,
      rotated realArith x y (phase + Real.pi) = -rotated realArith x y phase ∧
      quantum_like_operation realArith x y (phase + Real.pi) =
        quantum_like_operation realArith x y phase) ∧
    ∃ r s : ℚ,
      quantum_like_operation (ieee L) (F64.fin a) (F64.fin b) (F64.fin p) = F64.fin r ∧
      quantum_like_operation (ieee L) (F64.fin a) (F64.fin b) (F64.fin q) = F64.fin s ∧
      |(s : ℝ) - r| ≤ 4 ^ k * (1 / 2 ^ 44 + 8 * |(q : ℝ) - ((p : ℝ) + Real.pi)|) := by
  refine ⟨fun x y phase => ⟨rotated_real_add_pi x y phase, qlo_real_period x y phase⟩, ?_⟩
  obtain ⟨r, hr, her⟩ := qlo_error_scaled L hL k hk a b p ha hb
  obtain ⟨s, hs, hes⟩ := qlo_phase_shift L hL k hk a b q ha hb ((p : ℝ) + Real.pi)
  refine ⟨r, s, hr, hs, ?_⟩
  rw [qlo_real_period] at hes
  have tri : (s : ℝ) - r =
      ((s : ℝ) - quantum_like_operation realArith a b p) +
        -((r : ℝ) - quantum_like_operation realArith a b p) := by
    ring
  rw [tri]
  have h2 := abs_add ((s : ℝ) - quantum_like_operation realArith a b p)
    (-((r : ℝ) - quantum_like_operation realArith a b p))
  rw [abs_neg] at h2
  have e : (4 : ℝ) ^ k * (1 / 2 ^ 44 + 8 * |(q : ℝ) - ((p : ℝ) + Real.pi)|) =
      4 ^ k / 2 ^ 45 + 4 ^ k * (1 / 2 ^ 45 + 8 * |(q : ℝ) - ((p : ℝ) + Real.pi)|) := by
    ring
  rw [e]
  linarith

/-- C16, amended, at `(1.0, 0.0)` and the phases `0.0` and `M_PI` (`k = 0`), over
the correctly rounded library. -/
theorem C16_period_pi_witness :
    ∃ r s : ℚ,
      quantum_like_operation (ieee crLibm) (F64.fin 1) (F64.fin 0) (F64.fin 0) = F64.fin r ∧
      quantum_like_operation (ieee crLibm) (F64.fin 1) (F64.fin 0) (F64.fin F64.mPi) =
        F64.fin s ∧
      |(s : ℝ) - r| ≤
        4 ^ 0 * (1 / 2 ^ 44 + 8 * |((F64.mPi : ℚ) : ℝ) - (((0 : ℚ) : ℝ) + Real.pi)|) :=
  (C16_period_pi crLibm crLibm_conforms 0 (by norm_num) 1 0 0 F64.mPi (by norm_num)
    (by norm_num)).2

/-- C17, as stated, fails on binary64: with `k = 7` at `(1.0, 0.0, 0.0)`,
`transform(7, 0, 0)` is `24.5` while `transform(1, 0, 0)` is `0.5 - 2^-53`, and
`7^2` times it is not `24.5`. -/
theorem C17_counterexample :
    quantum_like_operation (ieee crLibm) (F64.fin (7 * 1)) (F64.fin (7 * 0)) (F64.fin 0) =
      F64.fin (49 / 2) ∧
    quantum_like_operation (ieee crLibm) (F64.fin 1) (F64.fin 0) (F64.fin 0) =
      F64.fin (4503599627370495 / 2 ^ 53) ∧
    (49 / 2 : ℚ) ≠ 7 ^ 2 * (4503599627370495 / 2 ^ 53) := by
  refine ⟨?_, qlo_one_zero_zero crLibm crLibm_conforms, by norm_num⟩
  have h := qlo_seven_zero_zero crLibm crLibm_conforms
  norm_num
  exact h

/-- C17, amended: in exact real arithmetic, for all `c`, `a`, `b`, `phase`,
scaling both states by `c` scales the result by `c^2`, and negating both states
leaves it unchanged; on binary64, negating both states leaves the result
unchanged for all arguments, and when `a`, `b`, `c * a`, `c * b` have magnitude
at most `2^k` with `k ≤ 509` and the phase is finite, both results are finite
and the scaled one is within `(1 + c^2) * 4^k * 2^-45` of `c^2` times the
other. -/
theorem C17_homogeneous (L : Libm) (hL : L.Conforms) (k : ℕ) (hk : k ≤ 509) (c a b p : ℚ)
    (ha : |a| ≤ 2 ^ k) (hb : |b| ≤ 2 ^ k) (hca : |c * a| ≤ 2 ^ k) (hcb : |c * b| ≤ 2 ^ k) :
    (∀ d x y phase : ℝ,
      quantum_like_operation realArith (d * x) (d * y) phase =
        d ^ 2 * quantum_like_operation realArith x y phase ∧
      quantum_like_operation realArith (-x) (-y) phase =
        quantum_like_operation realArith x y phase) ∧
    (∀ x y phase : F64,
      quantum_like_operation (ieee L) (F64.neg x) (F64.neg y) phase =
        quantum_like_operation (ieee L) x y phase) ∧
    ∃ r s : ℚ,
      quantum_like_operation (ieee L) (F64.fin a) (F64.fin b) (F64.fin p) = F64.fin r ∧
      quantum_like_operation (ieee L) (F64.fin (c * a)) (F64.fin (c * b)) (F64.fin p) =
        F64.fin s ∧
      |(s : ℝ) - (c : ℝ) ^ 2 * r| ≤ (1 + (c : ℝ) ^ 2) * 4 ^ k / 2 ^ 45 := by
  refine ⟨fun d x y phase => ⟨qlo_real_homogeneous d x y phase, qlo_real_neg_neg x y phase⟩,
    qlo_neg_neg L, ?_⟩
  obtain ⟨r, hr, her⟩ := qlo_error_scaled L hL k hk a b p ha hb
  obtain ⟨s, hs, hes⟩ := qlo_error_scaled L hL k hk (c * a) (c * b) p hca hcb
  refine ⟨r, s, hr, hs, ?_⟩
  have hh := qlo_real_homogeneous (c : ℝ) (a : ℝ) (b : ℝ) (p : ℝ)
  rw [Rat.cast_mul, Rat.cast_mul, hh] at hes
  have tri : (s : ℝ) - (c : ℝ) ^ 2 * r =
      ((s : ℝ) - (c : ℝ) ^ 2 * quantum_like_operation realArith a b p) +
        -((c : ℝ) ^ 2 * ((r : ℝ) - quantum_like_operation realArith a b p)) := by
    ring
  rw [tri]
  have h2 := abs_add ((s : ℝ) - (c : ℝ) ^ 2 * quantum_like_operation realArith a b p)
    (-((c : ℝ) ^ 2 * ((r : ℝ) - quantum_like_operation realArith a b p)))
  rw [abs_neg, abs_mul, abs_of_nonneg (sq_nonneg (c : ℝ))] at h2
  have hc : (c : ℝ) ^ 2 * |(r : ℝ) - quantum_like_operation realArith a b p| ≤
      (c : ℝ) ^ 2 * (4 ^ k / 2 ^ 45) := mul_le_mul_of_nonneg_left her (sq_nonneg _)
  have e : (1 + (c : ℝ) ^ 2) * 4 ^ k / 2 ^ 45 =
      4 ^ k / 2 ^ 45 + (c : ℝ) ^ 2 * (4 ^ k / 2 ^ 45) := by ring
  rw [e]
  linarith

/-- C17, amended, with `c = 3` at `(0.5, 0.25)` and the phase `0.25` (`k = 1`),
over the correctly rounded library. -/
theorem C17_homogeneous_witness :
    ∃ r s : ℚ,
      quantum_like_operation (ieee crLibm) (F64.fin (1 / 2)) (F64.fin (1 / 4))
        (F64.fin (1 / 4)) = F64.fin r ∧
      quantum_like_operation (ieee crLibm) (F64.fin (3 * (1 / 2))) (F64.fin (3 * (1 / 4)))
        (F64.fin (1 / 4)) = F64.fin s ∧
      |(s : ℝ) - ((3 : ℚ) : ℝ) ^ 2 * r| ≤ (1 + ((3 : ℚ) : ℝ) ^ 2) * 4 ^ 1 / 2 ^ 45 :=
  (C17_homogeneous crLibm crLibm_conforms 1 (by norm_num) 3 (1 / 2) (1 / 4) (1 / 4)
    (by norm_num [abs_of_pos]) (by norm_num [abs_of_pos]) (by norm_num [abs_of_pos])
    (by norm_num [abs_of_pos])).2.2

end QuantumLike
